import Mathlib

/-! Verification of loki-network's `PathSet`, `RouterContact` nickname and inbound
routing message parser.

A shallow embedding of `llarp/path/pathset.cpp`, `include/llarp/router_contact.hpp` and
`llarp/routing/message_parser.cpp`.  The map `m_Paths` is the list of its entries in
iteration order; every loop of the source is a recursion over that list carrying the
loop's local variables.  The parser threads its members through the dictionary reader
and records the calls it makes on the message objects.  All definitions come first,
the theorems follow.
-/

namespace llarp

/-- Modelled from the spec: `AlignedBuffer< sz >` (declared in a header outside these
sources) is a fixed-width array of `sz` unsigned bytes. -/
def AlignedBuffer (sz : Nat) : Type := { l : List (Fin 256) // l.length = sz }

instance (sz : Nat) : DecidableEq (AlignedBuffer sz) :=
  inferInstanceAs (DecidableEq { l : List (Fin 256) // l.length = sz })

namespace AlignedBuffer

/-- Modelled from the spec: `Fill(f)` sets every byte of the buffer to `f`. -/
def Fill (sz : Nat) (f : Fin 256) : AlignedBuffer sz :=
  ⟨List.replicate sz f, List.length_replicate sz f⟩

/-- Modelled from the spec: `operator^` of `AlignedBuffer`, "computed byte-wise over
fixed 32-byte endpoints". -/
def xor {sz : Nat} (a b : AlignedBuffer sz) : AlignedBuffer sz :=
  ⟨List.zipWith (fun x y => x ^^^ y) a.val b.val, by
    rw [List.length_zipWith, a.property, b.property, Nat.min_self]⟩

/-- Lexicographic comparison of two byte sequences, first byte most significant. -/
def ltBytes : List (Fin 256) → List (Fin 256) → Bool
  | [], [] => false
  | [], _ :: _ => true
  | _ :: _, [] => false
  | a :: as, b :: bs =>
    if a < b then true
    else if b < a then false
    else ltBytes as bs

/-- Modelled from the spec: `operator<` of `AlignedBuffer`, "comparison is
lexicographic over the resulting byte vector (big-endian unsigned semantics)". -/
def lt {sz : Nat} (a b : AlignedBuffer sz) : Bool := ltBytes a.val b.val

/-- The non-strict order derived from `lt`: `a ≤ b` when `b` is not below `a`. -/
def le {sz : Nat} (a b : AlignedBuffer sz) : Bool := !lt b a

/-- The value of a byte sequence read as a big-endian unsigned number. -/
def toNatBE : List (Fin 256) → Nat
  | [] => 0
  | a :: as => a.val * 256 ^ as.length + toNatBE as

end AlignedBuffer

/-- A `RouterID` is a 32-byte buffer. -/
abbrev RouterID : Type := AlignedBuffer 32

/-- A `PathID_t` is a 16-byte buffer. -/
abbrev PathID_t : Type := AlignedBuffer 16

/-- Times are unsigned 64-bit millisecond counts; they are only compared, never
added, so no wrap-around arises. -/
abbrev llarp_time_t : Type := Nat

namespace service

/-- Modelled from the spec: `service::Introduction` (declared outside these sources),
"a short-lived token `{path, expiresAt, latency, …}`"; `pathID` is the path and
`router` stands for the fields the spec leaves out. -/
structure Introduction where
  router : RouterID
  pathID : PathID_t
  latency : llarp_time_t
  expiresAt : llarp_time_t
deriving DecidableEq

/-- Modelled from the spec: `Introduction::Clear()` resets the introduction; the
cleared state has `expiresAt = 0`. -/
def Introduction.Clear (_intro : Introduction) : Introduction :=
  { router := AlignedBuffer.Fill 32 0, pathID := AlignedBuffer.Fill 16 0,
    latency := 0, expiresAt := 0 }

end service

namespace path

/-- Modelled from the spec: the status of a path, "a status in {Building,
Established, Expired, Ignore}" (the enumeration is declared outside these sources). -/
inductive PathStatus where
  | ePathBuilding
  | ePathEstablished
  | ePathExpired
  | ePathIgnore
deriving DecidableEq, Repr

/-- A role set is a bit-set. -/
abbrev PathRole : Type := Nat

/-- The part of a `Path` object that `PathSet` observes.  The class is declared
outside these sources, so each method `PathSet` calls is a field holding that
method's result. -/
structure Path where
  Upstream : RouterID
  RXID : PathID_t
  Endpoint : RouterID
  Status : PathStatus
  intro : service.Introduction
  IsReady : Bool
  SupportsAnyRoles : PathRole → Bool
  ExpiresSoon : llarp_time_t → Bool
  Expired : llarp_time_t → Bool

/-- The key type of the path map: `std::pair< RouterID, PathID_t >`. -/
abbrev PathInfo_t : Type := RouterID × PathID_t

/-- The path map `m_Paths`, as the list of its entries in iteration order. -/
abbrev PathMap_t : Type := List (PathInfo_t × Path)

namespace PathMap_t

/-- The map's `find(key)`: the entry stored under `key`, if any. -/
def find (m : PathMap_t) (key : PathInfo_t) : Option (PathInfo_t × Path) :=
  List.find? (fun item => decide (item.1 = key)) m

/-- The map's `emplace(key, value)`: inserts a new entry only when no entry with
`key` exists; an existing entry is kept as it is.  Where a new entry lands in the
iteration order is the container's business; it is put last here, and nothing proved
below depends on its position. -/
def emplace (m : PathMap_t) (key : PathInfo_t) (value : Path) : PathMap_t :=
  match find m key with
  | some _ => m
  | none => m ++ [(key, value)]

/-- The map's `erase(key)`: removes the entry whose key equals `key`. -/
def erase (m : PathMap_t) (key : PathInfo_t) : PathMap_t :=
  List.filter (fun item => !decide (item.1 = key)) m

/-- The container's invariant: no two entries share a key. -/
def UniqueKeys (m : PathMap_t) : Prop := (List.map Prod.fst m).Nodup

instance (m : PathMap_t) : Decidable (UniqueKeys m) :=
  inferInstanceAs (Decidable (List.map Prod.fst m).Nodup)

end PathMap_t

/-- A `PathSet`: the target number of paths, the path map, and the (virtual, so
possibly overridden) `MinRequiredForRoles`. -/
structure PathSet where
  m_NumPaths : Nat
  m_Paths : PathMap_t
  vMinRequiredForRoles : PathRole → Nat

namespace PathSet

/-- The method `PathSet::MinRequiredForRoles` of the base class. -/
def MinRequiredForRoles (_roles : PathRole) : Nat := 0

/-- The method `PathSet::PathSet(size_t num)`: an empty set with target `num`. -/
def mk_base (num : Nat) : PathSet :=
  { m_NumPaths := num, m_Paths := [], vMinRequiredForRoles := MinRequiredForRoles }

/-- Loop of `PathSet::NumInStatus`. -/
def NumInStatus.loop (st : PathStatus) : PathMap_t → Nat → Nat
  | [], count => count
  | itr :: rest, count =>
    if itr.2.Status = st then NumInStatus.loop st rest (count + 1)
    else NumInStatus.loop st rest count

/-- The method `PathSet::NumInStatus`. -/
def NumInStatus (self : PathSet) (st : PathStatus) : Nat :=
  NumInStatus.loop st self.m_Paths 0

/-- The method `PathSet::ShouldBuildMore`. -/
def ShouldBuildMore (self : PathSet) (_now : llarp_time_t) : Bool :=
  let building := self.NumInStatus PathStatus.ePathBuilding
  if building > self.m_NumPaths then false
  else
    let established := self.NumInStatus PathStatus.ePathEstablished
    decide (established ≤ self.m_NumPaths)

/-- Loop of `PathSet::ShouldBuildMoreForRoles`. -/
def ShouldBuildMoreForRoles.loop (now : llarp_time_t) (roles : PathRole) :
    PathMap_t → Nat → Nat
  | [], has => has
  | item :: rest, has =>
    if item.2.SupportsAnyRoles roles then
      if !item.2.ExpiresSoon now then ShouldBuildMoreForRoles.loop now roles rest (has + 1)
      else ShouldBuildMoreForRoles.loop now roles rest has
    else ShouldBuildMoreForRoles.loop now roles rest has

/-- The method `PathSet::ShouldBuildMoreForRoles`. -/
def ShouldBuildMoreForRoles (self : PathSet) (now : llarp_time_t) (roles : PathRole) : Bool :=
  let required := self.vMinRequiredForRoles roles
  let has := ShouldBuildMoreForRoles.loop now roles self.m_Paths 0
  decide (has < required)

/-- Loop of `PathSet::ExpirePaths`: `erase(itr)` drops the current entry and moves
to the next one, `++itr` keeps it. -/
def ExpirePaths.loop (now : llarp_time_t) : PathMap_t → PathMap_t
  | [] => []
  | itr :: rest =>
    if itr.2.Expired now then ExpirePaths.loop now rest
    else itr :: ExpirePaths.loop now rest

/-- The method `PathSet::ExpirePaths`. -/
def ExpirePaths (self : PathSet) (now : llarp_time_t) : PathSet :=
  if self.m_Paths.length = 0 then self
  else { self with m_Paths := ExpirePaths.loop now self.m_Paths }

/-- Loop of `PathSet::GetEstablishedPathClosestTo`, carrying `dist` and `path`. -/
def GetEstablishedPathClosestTo.loop (to_ : AlignedBuffer 32) (roles : PathRole) :
    PathMap_t → AlignedBuffer 32 → Option Path → Option Path
  | [], _, path => path
  | item :: rest, dist, path =>
    if !item.2.IsReady then GetEstablishedPathClosestTo.loop to_ roles rest dist path
    else if !item.2.SupportsAnyRoles roles then
      GetEstablishedPathClosestTo.loop to_ roles rest dist path
    else
      let localDist := AlignedBuffer.xor item.2.Endpoint to_
      if AlignedBuffer.lt localDist dist then
        GetEstablishedPathClosestTo.loop to_ roles rest localDist (some item.2)
      else GetEstablishedPathClosestTo.loop to_ roles rest dist path

/-- The method `PathSet::GetEstablishedPathClosestTo`. -/
def GetEstablishedPathClosestTo (self : PathSet) (id : RouterID) (roles : PathRole) :
    Option Path :=
  GetEstablishedPathClosestTo.loop id roles self.m_Paths (AlignedBuffer.Fill 32 0xff) none

/-- Loop of `PathSet::GetNewestPathByRouter`, carrying `chosen`. -/
def GetNewestPathByRouter.loop (id : RouterID) (roles : PathRole) :
    PathMap_t → Option Path → Option Path
  | [], chosen => chosen
  | itr :: rest, chosen =>
    if itr.2.IsReady && itr.2.SupportsAnyRoles roles then
      if itr.2.Endpoint = id then
        match chosen with
        | none => GetNewestPathByRouter.loop id roles rest (some itr.2)
        | some c =>
          if c.intro.expiresAt < itr.2.intro.expiresAt then
            GetNewestPathByRouter.loop id roles rest (some itr.2)
          else GetNewestPathByRouter.loop id roles rest (some c)
      else GetNewestPathByRouter.loop id roles rest chosen
    else GetNewestPathByRouter.loop id roles rest chosen

/-- The method `PathSet::GetNewestPathByRouter`. -/
def GetNewestPathByRouter (self : PathSet) (id : RouterID) (roles : PathRole) : Option Path :=
  GetNewestPathByRouter.loop id roles self.m_Paths none

/-- Loop of `PathSet::GetPathByRouter`, carrying `chosen`. -/
def GetPathByRouter.loop (id : RouterID) (roles : PathRole) :
    PathMap_t → Option Path → Option Path
  | [], chosen => chosen
  | itr :: rest, chosen =>
    if itr.2.IsReady && itr.2.SupportsAnyRoles roles then
      if itr.2.Endpoint = id then
        match chosen with
        | none => GetPathByRouter.loop id roles rest (some itr.2)
        | some c =>
          if c.intro.latency > itr.2.intro.latency then
            GetPathByRouter.loop id roles rest (some itr.2)
          else GetPathByRouter.loop id roles rest (some c)
      else GetPathByRouter.loop id roles rest chosen
    else GetPathByRouter.loop id roles rest chosen

/-- The method `PathSet::GetPathByRouter`. -/
def GetPathByRouter (self : PathSet) (id : RouterID) (roles : PathRole) : Option Path :=
  GetPathByRouter.loop id roles self.m_Paths none

/-- The method `PathSet::AddPath`. -/
def AddPath (self : PathSet) (path : Path) : PathSet :=
  let upstream := path.Upstream
  let RXID := path.RXID
  { self with m_Paths := PathMap_t.emplace self.m_Paths (upstream, RXID) path }

/-- The method `PathSet::RemovePath`. -/
def RemovePath (self : PathSet) (path : Path) : PathSet :=
  { self with m_Paths := PathMap_t.erase self.m_Paths (path.Upstream, path.RXID) }

/-- The method `PathSet::GetByUpstream`; `none` is the null pointer. -/
def GetByUpstream (self : PathSet) (remote : RouterID) (rxid : PathID_t) : Option Path :=
  match PathMap_t.find self.m_Paths (remote, rxid) with
  | none => none
  | some itr => some itr.2

/-- Loop of `PathSet::GetNewestIntro`, carrying `intro` and `found`. -/
def GetNewestIntro.loop : PathMap_t → service.Introduction → Bool → service.Introduction × Bool
  | [], intro, found => (intro, found)
  | itr :: rest, intro, found =>
    if itr.2.IsReady && decide (itr.2.intro.expiresAt > intro.expiresAt) then
      GetNewestIntro.loop rest itr.2.intro true
    else GetNewestIntro.loop rest intro found

/-- The method `PathSet::GetNewestIntro`: the final value of the output argument `intro` and
the returned flag. -/
def GetNewestIntro (self : PathSet) (intro : service.Introduction) :
    service.Introduction × Bool :=
  GetNewestIntro.loop self.m_Paths intro.Clear false

end PathSet

/-! ## Concrete paths and path sets used to evaluate the code -/

namespace Example

/-- A ready, role-supporting, established path with the given upstream byte, receive
id byte, endpoint, latency and expiry. -/
def mkPath (up rx : Fin 256) (endpoint : RouterID) (latency expiresAt : llarp_time_t) : Path :=
  { Upstream := AlignedBuffer.Fill 32 up
    RXID := AlignedBuffer.Fill 16 rx
    Endpoint := endpoint
    Status := PathStatus.ePathEstablished
    intro := { router := endpoint, pathID := AlignedBuffer.Fill 16 rx,
               latency := latency, expiresAt := expiresAt }
    IsReady := true
    SupportsAnyRoles := fun _ => true
    ExpiresSoon := fun now => decide (expiresAt ≤ now + 5000)
    Expired := fun now => decide (expiresAt ≤ now) }

/-- A path set holding the given paths, each under its own key. -/
def mkSet (num : Nat) (paths : List Path) : PathSet :=
  { m_NumPaths := num
    m_Paths := paths.map (fun p => ((p.Upstream, p.RXID), p))
    vMinRequiredForRoles := PathSet.MinRequiredForRoles }

/-- A ready path whose endpoint is the bitwise complement of the all-zero router id. -/
def farPath : Path := mkPath 1 1 (AlignedBuffer.Fill 32 0xff) 40 1000

/-- The endpoint shared by the example paths below. -/
def ep : RouterID := AlignedBuffer.Fill 32 7

/-- A path to `ep` with latency 80 and expiry 1100, stored under key bytes (1, 1). -/
def p80 : Path := mkPath 1 1 ep 80 1100

/-- A path to `ep` with latency 40 and expiry 1200, stored under key bytes (2, 2). -/
def p40 : Path := mkPath 2 2 ep 40 1200

/-- A second path object with the key of `p80` (same upstream, same receive id). -/
def dup : Path := mkPath 1 1 ep 40 1200

/-- A ready path whose introduction has `expiresAt = 0`. -/
def pZero : Path := mkPath 3 3 ep 40 0

/-- A path that is still being built and is not ready. -/
def pBuilding : Path :=
  { mkPath 5 5 ep 0 1300 with Status := PathStatus.ePathBuilding, IsReady := false }

/-- Some introduction, used as a prior value of an output argument. -/
def someIntro : service.Introduction :=
  { router := ep, pathID := AlignedBuffer.Fill 16 9, latency := 5, expiresAt := 9999 }

/-- A path whose introduction expired before time 1000. -/
def pOld1 : Path := mkPath 6 6 ep 10 500

/-- Another path whose introduction expired before time 1000. -/
def pOld2 : Path := mkPath 7 7 ep 10 900

/-- A path set of a subclass whose `MinRequiredForRoles` override returns 2. -/
def mkSetMin2 (paths : List Path) : PathSet :=
  { mkSet 4 paths with vMinRequiredForRoles := fun _ => 2 }

/-- A path whose introduction expires at 9000, so not soon at time 1000. -/
def pFresh : Path := mkPath 8 8 ep 30 9000

/-- Overwrites a path's readiness and status. -/
def unready (p : Path) : Path :=
  { p with IsReady := false, Status := PathStatus.ePathBuilding }

end Example

end path

namespace path

/-- Modelled from the spec: a `std::set< service::Introduction >`, as the list of its
distinct elements; the order the container keeps them in is not modelled. -/
abbrev IntroSet : Type := List service.Introduction

namespace IntroSet

/-- The set's `clear()`. -/
def clear (_s : IntroSet) : IntroSet := []

/-- The set's `insert(value)`: adds `value` unless it is already an element. -/
def insert (s : IntroSet) (value : service.Introduction) : IntroSet :=
  if value ∈ s then s else s ++ [value]

end IntroSet

namespace PathSet

/-- Loop of `PathSet::GetCurrentIntroductionsWithFilter`, carrying `intros` and `count`. -/
def GetCurrentIntroductionsWithFilter.loop (filter : service.Introduction → Bool) :
    PathMap_t → IntroSet → Nat → IntroSet × Nat
  | [], intros, count => (intros, count)
  | itr :: rest, intros, count =>
    if itr.2.IsReady && filter itr.2.intro then
      GetCurrentIntroductionsWithFilter.loop filter rest (IntroSet.insert intros itr.2.intro)
        (count + 1)
    else GetCurrentIntroductionsWithFilter.loop filter rest intros count

/-- The method `PathSet::GetCurrentIntroductionsWithFilter`: the final value of the output
argument `intros` and the returned flag. -/
def GetCurrentIntroductionsWithFilter (self : PathSet) (intros : IntroSet)
    (filter : service.Introduction → Bool) : IntroSet × Bool :=
  let intros := IntroSet.clear intros
  let r := GetCurrentIntroductionsWithFilter.loop filter self.m_Paths intros 0
  (r.1, decide (r.2 > 0))

/-- Loop of `PathSet::GetCurrentIntroductions`, carrying `intros` and `count`. -/
def GetCurrentIntroductions.loop : PathMap_t → IntroSet → Nat → IntroSet × Nat
  | [], intros, count => (intros, count)
  | itr :: rest, intros, count =>
    if itr.2.IsReady then
      GetCurrentIntroductions.loop rest (IntroSet.insert intros itr.2.intro) (count + 1)
    else GetCurrentIntroductions.loop rest intros count

/-- The method `PathSet::GetCurrentIntroductions`: the final value of the output argument
`intros` and the returned flag. -/
def GetCurrentIntroductions (self : PathSet) (intros : IntroSet) : IntroSet × Bool :=
  let intros := IntroSet.clear intros
  let r := GetCurrentIntroductions.loop self.m_Paths intros 0
  (r.1, decide (r.2 > 0))

end PathSet
end path

namespace path

namespace PathSet

/-- Loop of `PathSet::PickRandomEstablishedPath`, carrying the vector `established`. -/
def PickRandomEstablishedPath.loop (roles : PathRole) : PathMap_t → List Path → List Path
  | [], established => established
  | itr :: rest, established =>
    if itr.2.IsReady && itr.2.SupportsAnyRoles roles then
      PickRandomEstablishedPath.loop roles rest (established ++ [itr.2])
    else PickRandomEstablishedPath.loop roles rest established

/-- The method `PathSet::PickRandomEstablishedPath`; `randint` is the value the call
`randint()` returns, an unsigned 64-bit number. -/
def PickRandomEstablishedPath (self : PathSet) (roles : PathRole) (randint : Nat) : Option Path :=
  let established := PickRandomEstablishedPath.loop roles self.m_Paths []
  let sz := established.length
  if sz ≠ 0 then established[randint % sz]?
  else none

end PathSet

namespace Example

/-- A second ready path whose endpoint is the complement of the all-zero router id,
stored under key bytes (2, 2). -/
def farPath2 : Path := mkPath 2 2 (AlignedBuffer.Fill 32 0xff) 40 1000

end Example

end path

/-! ## RouterContact (`include/llarp/router_contact.hpp`) -/

/-- The macro `MAX_RC_SIZE`. -/
def MAX_RC_SIZE : Nat := 1024

/-- The macro `NICKLEN`. -/
def NICKLEN : Nat := 32

/-- The members of `RouterContact` the nickname methods use.  The other members
(`addrs`, `enckey`, `pubkey`, `exits`, `signature`) have types declared outside these
sources and are not touched by these methods. -/
structure RouterContact where
  nickname : AlignedBuffer NICKLEN
  last_updated : Nat

namespace RouterContact

/-- Modelled from the spec: the method `HasNick` is only declared in the header;
"true iff nickname's first byte is non-zero". -/
def HasNick (self : RouterContact) : Bool :=
  decide (self.nickname.val.head? ≠ some 0)

/-- Modelled from the spec: the method `Nick` is only declared in the header; it
"returns the nickname bytes up to the first zero (or full width if none)". -/
def Nick (self : RouterContact) : List (Fin 256) :=
  List.takeWhile (fun b => decide (b ≠ 0)) self.nickname.val

/-- Modelled from the spec: the method `SetNick` is only declared in the header; it
"zero-fills the nickname buffer, then copies up to 32 bytes of `s`". -/
def SetNick (self : RouterContact) (nick : List (Fin 256)) : RouterContact :=
  { self with
    nickname := ⟨List.take NICKLEN nick ++ List.replicate (NICKLEN - (List.take NICKLEN nick).length) 0,
      by
        rw [List.length_append, List.length_replicate, List.length_take]
        omega⟩ }

/-- The spec's `trim_trailing_zero`: drops the zero bytes at the end of a byte string. -/
def trim_trailing_zero (s : List (Fin 256)) : List (Fin 256) :=
  (List.dropWhile (fun b => decide (b = 0)) s.reverse).reverse

/-- The spec's `s.truncate(32).trim_trailing_zero()`. -/
def truncate_trim (s : List (Fin 256)) : List (Fin 256) :=
  trim_trailing_zero (List.take NICKLEN s)

end RouterContact

namespace Example

/-- The bytes of a string given by its characters. -/
def bytesOf (cs : List Char) : List (Fin 256) := cs.map (fun c => Fin.ofNat c.toNat)

/-- A router contact with an empty nickname. -/
def rc0 : RouterContact := { nickname := AlignedBuffer.Fill NICKLEN 0, last_updated := 0 }

/-- The 46 bytes of `a_very_long_nickname_exceeding_32_bytes_easily`. -/
def longNick : List (Fin 256) :=
  bytesOf ['a', '_', 'v', 'e', 'r', 'y', '_', 'l', 'o', 'n', 'g', '_', 'n', 'i', 'c', 'k',
    'n', 'a', 'm', 'e', '_', 'e', 'x', 'c', 'e', 'e', 'd', 'i', 'n', 'g', '_', '3', '2', '_',
    'b', 'y', 't', 'e', 's', '_', 'e', 'a', 's', 'i', 'l', 'y']

/-- A three-byte string with a zero byte in the middle. -/
def nulNick : List (Fin 256) := [97, 0, 98]

end Example

/-! ## Inbound routing message parser (`llarp/routing/message_parser.cpp`) -/

/-- What a reader sees of a `llarp_buffer_t`: the bytes from the cursor `cur` to the
end of the buffer, each byte written as a character. -/
abbrev llarp_buffer_t : Type := List Char

/-- The ways a run of the parser can leave the defined behaviour of the source:
dereferencing `msg` while it is null, and (in this embedding only) exhausting the
step budget of the dictionary reader. -/
inductive Fault where
  | nullDeref
  | outOfFuel
deriving DecidableEq, Repr

/-- Modelled from the spec: `bencode_read_string` (defined outside these sources) reads
a byte-string `<len>:<bytes>` at the cursor and moves the cursor past it; it fails when
there is no decimal length, no colon, or fewer than `len` bytes left. -/
def bencode_read_string (buffer : llarp_buffer_t) : Option (List Char × llarp_buffer_t) :=
  let digits := List.takeWhile Char.isDigit buffer
  if digits.length = 0 then none
  else
    match List.dropWhile Char.isDigit buffer with
    | [] => none
    | c :: body =>
      if c ≠ ':' then none
      else
        let len := digits.foldl (fun n d => 10 * n + (d.toNat - 48)) 0
        if body.length < len then none
        else some (List.take len body, List.drop len body)

/-- Loop of `bencode_read_dict`; the first argument bounds the number of iterations. -/
def bencode_read_dict.loop {S : Type}
    (sink : S → llarp_buffer_t → Option (List Char) → Except Fault (Bool × S × llarp_buffer_t)) :
    Nat → S → llarp_buffer_t → Except Fault (Bool × S × llarp_buffer_t)
  | 0, _, _ => Except.error Fault.outOfFuel
  | fuel + 1, s, buffer =>
    match buffer with
    | [] => Except.ok (false, s, buffer)
    | c :: rest =>
      if c = 'e' then sink s rest none
      else
        match bencode_read_string buffer with
        | none => Except.ok (false, s, buffer)
        | some (key, buffer1) =>
          match sink s buffer1 (some key) with
          | Except.error f => Except.error f
          | Except.ok (ok, s1, buffer2) =>
            if ok then bencode_read_dict.loop sink fuel s1 buffer2
            else Except.ok (false, s1, buffer2)

/-- Modelled from the spec: `bencode_read_dict` (defined outside these sources), the
"streaming dictionary reader that invokes a caller-supplied per-key visitor": after the
opening `d` it reads each key and calls the visitor with it, the visitor consuming the
value; it stops and fails as soon as the visitor returns false or the input is
malformed, and at the closing `e` calls the visitor once with a null key. -/
def bencode_read_dict {S : Type}
    (sink : S → llarp_buffer_t → Option (List Char) → Except Fault (Bool × S × llarp_buffer_t))
    (s : S) (buffer : llarp_buffer_t) : Except Fault (Bool × S × llarp_buffer_t) :=
  match buffer with
  | [] => Except.ok (false, s, buffer)
  | c :: rest =>
    if c = 'd' then bencode_read_dict.loop sink (rest.length + 1) s rest
    else Except.ok (false, s, buffer)

namespace routing

/-- The members of `InboundMessageParser::MessageHolder`; a non-null `msg` points at
one of them. -/
inductive Slot where
  | D | L | M | P | T | H | I | G | J | O | U | C
deriving DecidableEq, Repr

/-- The message classes the members of the holder are declared with. -/
inductive Variant where
  | DataDiscardMessage
  | PathLatencyMessage
  | DHTMessage
  | PathConfirmMessage
  | PathTransferMessage
  | ProtocolFrame
  | TransferTrafficMessage
  | GrantExitMessage
  | RejectExitMessage
  | ObtainExitMessage
  | UpdateExitMessage
  | CloseExitMessage
deriving DecidableEq, Repr

/-- The declared class of each member of `MessageHolder`. -/
def Slot.variant : Slot → Variant
  | Slot.D => Variant.DataDiscardMessage
  | Slot.L => Variant.PathLatencyMessage
  | Slot.M => Variant.DHTMessage
  | Slot.P => Variant.PathConfirmMessage
  | Slot.T => Variant.PathTransferMessage
  | Slot.H => Variant.ProtocolFrame
  | Slot.I => Variant.TransferTrafficMessage
  | Slot.G => Variant.GrantExitMessage
  | Slot.J => Variant.RejectExitMessage
  | Slot.O => Variant.ObtainExitMessage
  | Slot.U => Variant.UpdateExitMessage
  | Slot.C => Variant.CloseExitMessage

/-- The tag table as the spec gives it (section 4.3). -/
def tagTable : List (Char × Variant) :=
  [('D', Variant.DataDiscardMessage), ('L', Variant.PathLatencyMessage),
   ('M', Variant.DHTMessage), ('P', Variant.PathConfirmMessage),
   ('T', Variant.PathTransferMessage), ('H', Variant.ProtocolFrame),
   ('I', Variant.TransferTrafficMessage), ('G', Variant.GrantExitMessage),
   ('J', Variant.RejectExitMessage), ('O', Variant.ObtainExitMessage),
   ('U', Variant.UpdateExitMessage), ('C', Variant.CloseExitMessage)]

/-- A message object: the member `from` of the base class and the content of the
concrete class, whose type is declared outside these sources. -/
structure IMessage (σ : Type) where
  from_ : PathID_t
  content : σ

/-- The virtual methods of the message classes, all defined outside these sources, so
taken as parameters, one behaviour per holder member.  `DecodeKey` returns its result,
the message as it leaves it and the number of bytes of the buffer it consumed. -/
structure Methods (σ η ρ : Type) where
  DecodeKey : Slot → IMessage σ → List Char → llarp_buffer_t → Bool × IMessage σ × Nat
  HandleMessage : Slot → IMessage σ → η → ρ → Bool
  Clear : Slot → IMessage σ → IMessage σ

/-- The structure `InboundMessageParser::MessageHolder`. -/
structure MessageHolder (σ : Type) where
  D : IMessage σ
  L : IMessage σ
  M : IMessage σ
  P : IMessage σ
  T : IMessage σ
  H : IMessage σ
  I : IMessage σ
  G : IMessage σ
  J : IMessage σ
  O : IMessage σ
  U : IMessage σ
  C : IMessage σ

/-- The member of the holder a pointer refers to. -/
def MessageHolder.get {σ : Type} (h : MessageHolder σ) : Slot → IMessage σ
  | Slot.D => h.D
  | Slot.L => h.L
  | Slot.M => h.M
  | Slot.P => h.P
  | Slot.T => h.T
  | Slot.H => h.H
  | Slot.I => h.I
  | Slot.G => h.G
  | Slot.J => h.J
  | Slot.O => h.O
  | Slot.U => h.U
  | Slot.C => h.C

/-- A write through a pointer to a member of the holder. -/
def MessageHolder.set {σ : Type} (h : MessageHolder σ) (slot : Slot) (m : IMessage σ) :
    MessageHolder σ :=
  match slot with
  | Slot.D => { h with D := m }
  | Slot.L => { h with L := m }
  | Slot.M => { h with M := m }
  | Slot.P => { h with P := m }
  | Slot.T => { h with T := m }
  | Slot.H => { h with H := m }
  | Slot.I => { h with I := m }
  | Slot.G => { h with G := m }
  | Slot.J => { h with J := m }
  | Slot.O => { h with O := m }
  | Slot.U => { h with U := m }
  | Slot.C => { h with C := m }

/-- The members of `InboundMessageParser`; `msg = none` is the null pointer. -/
structure InboundMessageParser (σ : Type) where
  firstKey : Bool
  ourKey : Char
  msg : Option Slot
  m_Holder : MessageHolder σ

/-- A call the parser makes on a message object, recorded in the order made; the
record of `HandleMessage` keeps the message as it is at the call. -/
inductive Call (σ : Type) where
  | DecodeKey (slot : Slot) (key : List Char)
  | HandleMessage (slot : Slot) (msg : IMessage σ)
  | Clear (slot : Slot)

/-- The holder member a recorded call was made on. -/
def Call.slot {σ : Type} : Call σ → Slot
  | Call.DecodeKey slot _ => slot
  | Call.HandleMessage slot _ => slot
  | Call.Clear slot => slot

namespace InboundMessageParser

/-- The constructor `InboundMessageParser::InboundMessageParser()`; `holder` is the
freshly constructed `MessageHolder`. -/
def new {σ : Type} (holder : MessageHolder σ) : InboundMessageParser σ :=
  { firstKey := false, ourKey := Char.ofNat 0, msg := none, m_Holder := holder }

/-- The `switch(ourKey)` of the visitor: the new value of `msg`, which the default
branch leaves as it is. -/
def switch_ourKey (ourKey : Char) (msg : Option Slot) : Option Slot :=
  if ourKey = 'D' then some Slot.D
  else if ourKey = 'L' then some Slot.L
  else if ourKey = 'M' then some Slot.M
  else if ourKey = 'P' then some Slot.P
  else if ourKey = 'T' then some Slot.T
  else if ourKey = 'H' then some Slot.H
  else if ourKey = 'I' then some Slot.I
  else if ourKey = 'G' then some Slot.G
  else if ourKey = 'J' then some Slot.J
  else if ourKey = 'O' then some Slot.O
  else if ourKey = 'U' then some Slot.U
  else if ourKey = 'C' then some Slot.C
  else msg

/-- The visitor `InboundMessageParser::operator()`, on the parser together with the
record of the calls made so far; a null `key` is `none`.  The comparison `*key == "A"`
uses an operator declared outside these sources; it is taken as the spec words it,
"the key must be `A`".  A `msg->DecodeKey` on a null `msg` is the fault `nullDeref`. -/
def visit {σ η ρ : Type} (ops : Methods σ η ρ)
    (st : InboundMessageParser σ × List (Call σ)) (buffer : llarp_buffer_t)
    (key : Option (List Char)) :
    Except Fault (Bool × (InboundMessageParser σ × List (Call σ)) × llarp_buffer_t) :=
  match key with
  | none =>
    if st.1.firstKey then Except.ok (false, st, buffer)
    else Except.ok (true, st, buffer)
  | some k =>
    if st.1.firstKey then
      if !(decide (k = ['A'])) then Except.ok (false, st, buffer)
      else
        match bencode_read_string buffer with
        | none => Except.ok (false, st, buffer)
        | some (strbuf, buffer1) =>
          if strbuf.length ≠ 1 then Except.ok (false, st, buffer1)
          else
            let ourKey := strbuf.headD (Char.ofNat 0)
            let msg := switch_ourKey ourKey st.1.msg
            Except.ok (msg.isSome,
              ({ st.1 with ourKey := ourKey, msg := msg, firstKey := false }, st.2), buffer1)
    else
      match st.1.msg with
      | none => Except.error Fault.nullDeref
      | some slot =>
        let r := ops.DecodeKey slot (st.1.m_Holder.get slot) k buffer
        Except.ok (r.1,
          ({ st.1 with m_Holder := st.1.m_Holder.set slot r.2.1 },
            st.2 ++ [Call.DecodeKey slot k]),
          List.drop r.2.2 buffer)

/-- The end of `ParseMessageBuffer`: `if(msg) msg->Clear(); msg = nullptr;`. -/
def cleanup {σ η ρ : Type} (ops : Methods σ η ρ)
    (st : InboundMessageParser σ × List (Call σ)) : InboundMessageParser σ × List (Call σ) :=
  match st.1.msg with
  | some slot =>
    ({ st.1 with
       m_Holder := st.1.m_Holder.set slot (ops.Clear slot (st.1.m_Holder.get slot)),
       msg := none },
     st.2 ++ [Call.Clear slot])
  | none => ({ st.1 with msg := none }, st.2)

/-- The call `bencode_read_dict(*this, &copy)` inside `ParseMessageBuffer`, made after
`msg = nullptr; firstKey = true;` on a copy of the input buffer. -/
def readDict {σ η ρ : Type} (ops : Methods σ η ρ) (self : InboundMessageParser σ)
    (buf : llarp_buffer_t) :
    Except Fault (Bool × (InboundMessageParser σ × List (Call σ)) × llarp_buffer_t) :=
  let self := { self with msg := none, firstKey := true }
  let copy := buf
  bencode_read_dict (visit ops) (self, []) copy

/-- The method `InboundMessageParser::ParseMessageBuffer`: its result, the parser
afterwards and the calls it made on message objects, in order. -/
def ParseMessageBuffer {σ η ρ : Type} (ops : Methods σ η ρ) (self : InboundMessageParser σ)
    (buf : llarp_buffer_t) (h : η) (from_ : PathID_t) (r : ρ) :
    Except Fault (Bool × InboundMessageParser σ × List (Call σ)) :=
  match readDict ops self buf with
  | Except.error f => Except.error f
  | Except.ok (ok, st, _) =>
    if ok then
      match st.1.msg with
      | none => Except.error Fault.nullDeref
      | some slot =>
        let m : IMessage σ := { st.1.m_Holder.get slot with from_ := from_ }
        let result := ops.HandleMessage slot m h r
        let st2 := cleanup ops
          ({ st.1 with m_Holder := st.1.m_Holder.set slot m },
            st.2 ++ [Call.HandleMessage slot m])
        Except.ok (result, st2.1, st2.2)
    else
      let st2 := cleanup ops st
      Except.ok (false, st2.1, st2.2)

/-- Whether a recorded call is a call of `HandleMessage`. -/
def isHandleMessage {σ : Type} : Call σ → Bool
  | Call.HandleMessage _ _ => true
  | _ => false

/-- The states the visitor can be in inside `ParseMessageBuffer`, relative to the
holder `H0` at entry: while `msg` is null nothing has been called and the holder is
untouched; once `msg` points at a member, the first key is behind, every call so
far is a `DecodeKey` on that member, and the other members are untouched. -/
def Reach {σ : Type} (H0 : MessageHolder σ)
    (st : InboundMessageParser σ × List (Call σ)) : Prop :=
  (st.1.msg = none → st.2 = [] ∧ st.1.m_Holder = H0) ∧
  (∀ slot, st.1.msg = some slot →
    st.1.firstKey = false ∧ (∀ c ∈ st.2, ∃ k, c = Call.DecodeKey slot k) ∧
    ∀ s, s ≠ slot → st.1.m_Holder.get s = H0.get s)

/-- Two visitor states that differ at most in `ourKey`. -/
def SameButKey {σ : Type} (st st' : InboundMessageParser σ × List (Call σ)) : Prop :=
  st.1.firstKey = st'.1.firstKey ∧ st.1.msg = st'.1.msg ∧
  st.1.m_Holder = st'.1.m_Holder ∧ st.2 = st'.2

/-- What a run of `ParseMessageBuffer` shows to its caller apart from `ourKey`: the
result, the calls made, and the holder, `msg` and `firstKey` afterwards. -/
def observe {σ : Type} (x : Bool × InboundMessageParser σ × List (Call σ)) :
    Bool × List (Call σ) × MessageHolder σ × Option Slot × Bool :=
  (x.1, x.2.2, x.2.1.m_Holder, x.2.1.msg, x.2.1.firstKey)

/-- A first key/value pair the parser accepts: the key is exactly `A` and the value is
a byte-string of length one whose byte is a tag of the table. -/
def GoodFirst (k : List Char) (buffer : llarp_buffer_t) : Prop :=
  k = ['A'] ∧ ∃ t rest v, bencode_read_string buffer = some ([t], rest) ∧ (t, v) ∈ tagTable

end InboundMessageParser
end routing

namespace Example

/-- Example message classes: the content is the list of keys decoded so far; every
`DecodeKey` reads a byte-string value, `HandleMessage` succeeds on every member but
`L`, and `Clear` resets the message. -/
def ops : routing.Methods (List (List Char)) Unit Unit :=
  { DecodeKey := fun _ m k buffer =>
      match bencode_read_string buffer with
      | none => (false, m, 0)
      | some (_, rest) => (true, { m with content := m.content ++ [k] },
          buffer.length - rest.length)
    HandleMessage := fun slot _ _ _ => decide (slot ≠ routing.Slot.L)
    Clear := fun _ _ => { from_ := AlignedBuffer.Fill 16 0, content := [] } }

/-- A cleared example message. -/
def msg0 : routing.IMessage (List (List Char)) :=
  { from_ := AlignedBuffer.Fill 16 0, content := [] }

/-- The freshly constructed example holder. -/
def holder0 : routing.MessageHolder (List (List Char)) :=
  { D := msg0, L := msg0, M := msg0, P := msg0, T := msg0, H := msg0,
    I := msg0, G := msg0, J := msg0, O := msg0, U := msg0, C := msg0 }

/-- The buffer `d1:A1:P1:x2:hie`: tag `P`, then key `x` with value `hi`. -/
def bufP : llarp_buffer_t :=
  ['d', '1', ':', 'A', '1', ':', 'P', '1', ':', 'x', '2', ':', 'h', 'i', 'e']

/-- The buffer `d1:A1:L1:y1:ze`: tag `L`, then key `y` with value `z`. -/
def bufL : llarp_buffer_t :=
  ['d', '1', ':', 'A', '1', ':', 'L', '1', ':', 'y', '1', ':', 'z', 'e']

/-- The buffer `d1:A1:Ze`: an unknown tag. -/
def bufZ : llarp_buffer_t := ['d', '1', ':', 'A', '1', ':', 'Z', 'e']

/-- The buffer `d1:B1:Pe`: a first key other than `A`. -/
def bufB : llarp_buffer_t := ['d', '1', ':', 'B', '1', ':', 'P', 'e']

/-- The empty dictionary `de`. -/
def bufEmpty : llarp_buffer_t := ['d', 'e']

/-- A path id used as the `from` argument. -/
def fromId : PathID_t := AlignedBuffer.Fill 16 5

end Example

namespace routing
namespace InboundMessageParser

/-- Two outcomes of the visitor or of the reader that agree in everything but the
`ourKey` of the parser. -/
def SameOutcome {σ : Type}
    (x y : Except Fault (Bool × (InboundMessageParser σ × List (Call σ)) × llarp_buffer_t)) :
    Prop :=
  match x, y with
  | Except.ok a, Except.ok b => a.1 = b.1 ∧ SameButKey a.2.1 b.2.1 ∧ a.2.2 = b.2.2
  | Except.error e, Except.error e' => e = e'
  | _, _ => False

end InboundMessageParser
end routing

namespace path
namespace PathSet

/-- The filtered set of `PickRandomEstablishedPath` as the spec words it: the stored
paths that are ready and support any of `roles`, in map order. -/
def eligiblePaths (self : PathSet) (roles : PathRole) : List Path :=
  List.map Prod.snd
    (List.filter (fun e => e.2.IsReady && e.2.SupportsAnyRoles roles) self.m_Paths)

end PathSet
end path

namespace routing
namespace InboundMessageParser

/-- The spec's wire format up to the tag: the buffer opens a dictionary whose first
entry is the key `A` with the one-byte value `t`; `b3` is what follows that entry. -/
def OpensWithTag (buf : llarp_buffer_t) (t : Char) (b3 : llarp_buffer_t) : Prop :=
  ∃ b1 b2, buf = 'd' :: b1 ∧ bencode_read_string b1 = some (['A'], b2) ∧
    bencode_read_string b2 = some ([t], b3)

/-- The spec's account of the entries after the tag: "Subsequent pairs are forwarded to
`msg.DecodeKey(key, buf)`; its boolean return aborts or continues the dictionary
reader."  `ForwardKeys ops slot m buffer ok m1 keys` says that, from the message `m` of
the member `slot` and the cursor at `buffer`, exactly the keys `keys` are handed to that
member's `DecodeKey`, in order, each call consuming the value; `ok` is true when all of
them were accepted and the closing `e` was reached, false when the input ended, was
malformed, or the last key of `keys` was rejected; `m1` is the message afterwards. -/
inductive ForwardKeys {σ η ρ : Type} (ops : Methods σ η ρ) (slot : Slot) :
    IMessage σ → llarp_buffer_t → Bool → IMessage σ → List (List Char) → Prop where
  | closed (m : IMessage σ) (rest : llarp_buffer_t) :
      ForwardKeys ops slot m ('e' :: rest) true m []
  | truncated (m : IMessage σ) :
      ForwardKeys ops slot m [] false m []
  | malformed (m : IMessage σ) (c : Char) (tl : llarp_buffer_t) :
      c ≠ 'e' → bencode_read_string (c :: tl) = none →
      ForwardKeys ops slot m (c :: tl) false m []
  | rejected (m : IMessage σ) (buffer : llarp_buffer_t) (key : List Char)
      (b1 : llarp_buffer_t) :
      bencode_read_string buffer = some (key, b1) →
      (ops.DecodeKey slot m key b1).1 = false →
      ForwardKeys ops slot m buffer false (ops.DecodeKey slot m key b1).2.1 [key]
  | accepted (m : IMessage σ) (buffer : llarp_buffer_t) (key : List Char)
      (b1 : llarp_buffer_t) (ok : Bool) (m1 : IMessage σ) (keys : List (List Char)) :
      bencode_read_string buffer = some (key, b1) →
      (ops.DecodeKey slot m key b1).1 = true →
      ForwardKeys ops slot (ops.DecodeKey slot m key b1).2.1
        (List.drop (ops.DecodeKey slot m key b1).2.2 b1) ok m1 keys →
      ForwardKeys ops slot m buffer ok m1 (key :: keys)

end InboundMessageParser
end routing

/-! ## Byte order of `AlignedBuffer` -/

namespace AlignedBuffer

theorem toNatBE_lt (as : List (Fin 256)) : toNatBE as < 256 ^ as.length := by
  induction as with
  | nil => simp [toNatBE]
  | cons a as ih =>
    simp only [toNatBE, List.length_cons, pow_succ]
    have ha : a.val + 1 ≤ 256 := a.isLt
    nlinarith [Nat.mul_le_mul_right (256 ^ as.length) ha]

theorem ltBytes_iff_toNatBE (as bs : List (Fin 256)) (h : as.length = bs.length) :
    ltBytes as bs = true ↔ toNatBE as < toNatBE bs := by
  induction as generalizing bs with
  | nil =>
    cases bs with
    | nil => simp [ltBytes, toNatBE]
    | cons b bs => simp at h
  | cons a as ih =>
    cases bs with
    | nil => simp at h
    | cons b bs =>
      have hl : as.length = bs.length := by simpa using h
      have hA := toNatBE_lt as
      have hB := toNatBE_lt bs
      rw [hl] at hA
      simp only [ltBytes, toNatBE, hl]
      by_cases hab : a < b
      · simp only [hab, if_true, true_iff]
        have h1 : a.val + 1 ≤ b.val := hab
        nlinarith [Nat.mul_le_mul_right (256 ^ bs.length) h1]
      · by_cases hba : b < a
        · simp only [hab, hba, if_true, if_false]
          have h1 : b.val + 1 ≤ a.val := hba
          constructor
          · intro hf; exact absurd hf (by simp)
          · intro hlt; nlinarith [Nat.mul_le_mul_right (256 ^ bs.length) h1]
        · have heq : a = b := le_antisymm (not_lt.mp hba) (not_lt.mp hab)
          subst heq
          simp only [lt_irrefl, if_false, ih bs hl]
          omega

/-- The value of a buffer read as a big-endian unsigned number. -/
theorem lt_iff {sz : Nat} (a b : AlignedBuffer sz) :
    lt a b = true ↔ toNatBE a.val < toNatBE b.val :=
  ltBytes_iff_toNatBE a.val b.val (a.property.trans b.property.symm)

theorem le_iff {sz : Nat} (a b : AlignedBuffer sz) :
    le a b = true ↔ toNatBE a.val ≤ toNatBE b.val := by
  unfold le
  have h := lt_iff b a
  cases hlt : lt b a
  · simp only [Bool.not_false, true_iff]
    have : ¬ (toNatBE b.val < toNatBE a.val) := fun hc => by
      have := h.mpr hc
      rw [hlt] at this
      exact Bool.noConfusion this
    omega
  · simp only [Bool.not_true, Bool.false_eq_true, false_iff]
    have := h.mp hlt
    omega

theorem ltBytes_total (as bs : List (Fin 256)) (h : as.length = bs.length)
    (h1 : ltBytes as bs = false) (h2 : ltBytes bs as = false) : as = bs := by
  induction as generalizing bs with
  | nil =>
    cases bs with
    | nil => rfl
    | cons b bs => simp at h
  | cons a as ih =>
    cases bs with
    | nil => simp at h
    | cons b bs =>
      have hl : as.length = bs.length := by simpa using h
      simp only [ltBytes] at h1 h2
      by_cases hab : a < b
      · simp [hab] at h1
      · by_cases hba : b < a
        · simp [hba] at h2
        · have heq : a = b := le_antisymm (not_lt.mp hba) (not_lt.mp hab)
          subst heq
          simp only [lt_irrefl, if_false] at h1 h2
          rw [ih bs hl h1 h2]

theorem toNatBE_replicate_max (n : Nat) :
    toNatBE (List.replicate n (0xff : Fin 256)) + 1 = 256 ^ n := by
  induction n with
  | zero => simp [toNatBE]
  | succ n ih =>
    simp only [List.replicate_succ, toNatBE, List.length_replicate, pow_succ]
    have : ((0xff : Fin 256) : Nat) = 255 := rfl
    rw [this]
    omega

/-- Every buffer other than the all-ones buffer is strictly below it. -/
theorem lt_Fill_max {sz : Nat} (a : AlignedBuffer sz) (h : a ≠ Fill sz 0xff) :
    lt a (Fill sz 0xff) = true := by
  cases hlt : lt a (Fill sz 0xff)
  · exfalso
    apply h
    apply Subtype.ext
    apply ltBytes_total a.val (Fill sz 0xff).val (a.property.trans (Fill sz 0xff).property.symm) hlt
    cases hgt : ltBytes (Fill sz 0xff).val a.val
    · rfl
    · exfalso
      have h1 := (ltBytes_iff_toNatBE _ _ ((Fill sz 0xff).property.trans a.property.symm)).mp hgt
      have h2 := toNatBE_lt a.val
      have h3 := toNatBE_replicate_max sz
      rw [a.property] at h2
      have h4 : (Fill sz 0xff).val = List.replicate sz (0xff : Fin 256) := rfl
      rw [h4] at h1
      omega
  · rfl

/-- No buffer is strictly below itself. -/
theorem lt_irrefl_buf {sz : Nat} (a : AlignedBuffer sz) : lt a a = false := by
  cases h : lt a a
  · rfl
  · have := (lt_iff a a).mp h
    omega

end AlignedBuffer
end llarp

namespace llarp
namespace path
namespace PathSet

open AlignedBuffer

/-! ## GetEstablishedPathClosestTo -/

/-- Invariant of the loop of `GetEstablishedPathClosestTo`: when no eligible entry is
strictly below `dist` the carried `path` is returned; otherwise an eligible entry
strictly below `dist` and at most as far as every eligible entry is returned. -/
theorem GetEstablishedPathClosestTo_loop_spec (to_ : AlignedBuffer 32) (roles : PathRole)
    (m : PathMap_t) (dist : AlignedBuffer 32) (path : Option Path) :
    ((∀ e ∈ m, e.2.IsReady = true → e.2.SupportsAnyRoles roles = true →
        lt (xor e.2.Endpoint to_) dist = false) →
      GetEstablishedPathClosestTo.loop to_ roles m dist path = path) ∧
    ((∃ e ∈ m, e.2.IsReady = true ∧ e.2.SupportsAnyRoles roles = true ∧
        lt (xor e.2.Endpoint to_) dist = true) →
      ∃ e ∈ m, GetEstablishedPathClosestTo.loop to_ roles m dist path = some e.2 ∧
        e.2.IsReady = true ∧ e.2.SupportsAnyRoles roles = true ∧
        lt (xor e.2.Endpoint to_) dist = true ∧
        ∀ e' ∈ m, e'.2.IsReady = true → e'.2.SupportsAnyRoles roles = true →
          le (xor e.2.Endpoint to_) (xor e'.2.Endpoint to_) = true) := by
  induction m generalizing dist path with
  | nil =>
    refine ⟨fun _ => rfl, ?_⟩
    rintro ⟨e, he, _⟩
    simp at he
  | cons item rest ih =>
    by_cases hr : item.2.IsReady = true
    case neg =>
      have hstep : GetEstablishedPathClosestTo.loop to_ roles (item :: rest) dist path
          = GetEstablishedPathClosestTo.loop to_ roles rest dist path := by
        simp [GetEstablishedPathClosestTo.loop, hr]
      rw [hstep]
      refine ⟨fun h => (ih dist path).1 (fun e he => h e (List.mem_cons_of_mem _ he)), ?_⟩
      rintro ⟨e, he, h1, h2, h3⟩
      rcases List.mem_cons.mp he with rfl | he
      · exact absurd h1 hr
      · obtain ⟨w, hw, hres, hw1, hw2, hw3, hmin⟩ := (ih dist path).2 ⟨e, he, h1, h2, h3⟩
        refine ⟨w, List.mem_cons_of_mem _ hw, hres, hw1, hw2, hw3, ?_⟩
        intro e' he' g1 g2
        rcases List.mem_cons.mp he' with rfl | he'
        · exact absurd g1 hr
        · exact hmin e' he' g1 g2
    case pos =>
    by_cases hs : item.2.SupportsAnyRoles roles = true
    case neg =>
      have hstep : GetEstablishedPathClosestTo.loop to_ roles (item :: rest) dist path
          = GetEstablishedPathClosestTo.loop to_ roles rest dist path := by
        simp [GetEstablishedPathClosestTo.loop, hr, hs]
      rw [hstep]
      refine ⟨fun h => (ih dist path).1 (fun e he => h e (List.mem_cons_of_mem _ he)), ?_⟩
      rintro ⟨e, he, h1, h2, h3⟩
      rcases List.mem_cons.mp he with rfl | he
      · exact absurd h2 hs
      · obtain ⟨w, hw, hres, hw1, hw2, hw3, hmin⟩ := (ih dist path).2 ⟨e, he, h1, h2, h3⟩
        refine ⟨w, List.mem_cons_of_mem _ hw, hres, hw1, hw2, hw3, ?_⟩
        intro e' he' g1 g2
        rcases List.mem_cons.mp he' with rfl | he'
        · exact absurd g2 hs
        · exact hmin e' he' g1 g2
    case pos =>
    by_cases hl : lt (xor item.2.Endpoint to_) dist = true
    case pos =>
      have hstep : GetEstablishedPathClosestTo.loop to_ roles (item :: rest) dist path
          = GetEstablishedPathClosestTo.loop to_ roles rest (xor item.2.Endpoint to_)
              (some item.2) := by
        simp [GetEstablishedPathClosestTo.loop, hr, hs, hl]
      rw [hstep]
      constructor
      · intro h
        have := h item (List.mem_cons_self _ _) hr hs
        rw [hl] at this
        exact Bool.noConfusion this
      · intro _
        by_cases hex : ∃ e ∈ rest, e.2.IsReady = true ∧ e.2.SupportsAnyRoles roles = true ∧
            lt (xor e.2.Endpoint to_) (xor item.2.Endpoint to_) = true
        · obtain ⟨w, hw, hres, hw1, hw2, hw3, hmin⟩ :=
            (ih (xor item.2.Endpoint to_) (some item.2)).2 hex
          have n1 := (lt_iff _ _).mp hw3
          have n2 := (lt_iff _ _).mp hl
          refine ⟨w, List.mem_cons_of_mem _ hw, hres, hw1, hw2,
            (lt_iff _ _).mpr (by omega), ?_⟩
          intro e' he' g1 g2
          rcases List.mem_cons.mp he' with rfl | he'
          · exact (le_iff _ _).mpr (by omega)
          · exact hmin e' he' g1 g2
        · have hnone : ∀ e ∈ rest, e.2.IsReady = true → e.2.SupportsAnyRoles roles = true →
              lt (xor e.2.Endpoint to_) (xor item.2.Endpoint to_) = false := by
            intro e he g1 g2
            cases hc : lt (xor e.2.Endpoint to_) (xor item.2.Endpoint to_)
            · rfl
            · exact absurd ⟨e, he, g1, g2, hc⟩ hex
          refine ⟨item, List.mem_cons_self _ _,
            (ih (xor item.2.Endpoint to_) (some item.2)).1 hnone, hr, hs, hl, ?_⟩
          intro e' he' g1 g2
          rcases List.mem_cons.mp he' with rfl | he'
          · exact (le_iff _ _).mpr (le_refl _)
          · have := hnone e' he' g1 g2
            unfold le
            rw [this]
            rfl
    case neg =>
      have hl' : lt (xor item.2.Endpoint to_) dist = false := by
        cases hc : lt (xor item.2.Endpoint to_) dist
        · rfl
        · exact absurd hc hl
      have hstep : GetEstablishedPathClosestTo.loop to_ roles (item :: rest) dist path
          = GetEstablishedPathClosestTo.loop to_ roles rest dist path := by
        simp [GetEstablishedPathClosestTo.loop, hr, hs, hl']
      rw [hstep]
      refine ⟨fun h => (ih dist path).1 (fun e he => h e (List.mem_cons_of_mem _ he)), ?_⟩
      rintro ⟨e, he, h1, h2, h3⟩
      rcases List.mem_cons.mp he with rfl | he
      · rw [hl'] at h3
        exact Bool.noConfusion h3
      · obtain ⟨w, hw, hres, hw1, hw2, hw3, hmin⟩ := (ih dist path).2 ⟨e, he, h1, h2, h3⟩
        refine ⟨w, List.mem_cons_of_mem _ hw, hres, hw1, hw2, hw3, ?_⟩
        intro e' he' g1 g2
        rcases List.mem_cons.mp he' with rfl | he'
        · have n1 := (lt_iff _ _).mp hw3
          have n2 : ¬ (toNatBE (xor e'.2.Endpoint to_).val < toNatBE dist.val) := by
            intro hc
            have := (lt_iff _ _).mpr hc
            rw [hl'] at this
            exact Bool.noConfusion this
          exact (le_iff _ _).mpr (by omega)
        · exact hmin e' he' g1 g2

/-- Whenever some ready, role-supporting path lies at a distance other than the
all-ones value, `GetEstablishedPathClosestTo` returns a ready, role-supporting path of
the set that is at most as far from `id` as every ready, role-supporting path. -/
theorem GetEstablishedPathClosestTo_argmin_below_sentinel (self : PathSet) (id : RouterID)
    (roles : PathRole)
    (h : ∃ e ∈ self.m_Paths, e.2.IsReady = true ∧ e.2.SupportsAnyRoles roles = true ∧
      xor e.2.Endpoint id ≠ Fill 32 0xff) :
    ∃ e ∈ self.m_Paths, self.GetEstablishedPathClosestTo id roles = some e.2 ∧
      e.2.IsReady = true ∧ e.2.SupportsAnyRoles roles = true ∧
      ∀ e' ∈ self.m_Paths, e'.2.IsReady = true → e'.2.SupportsAnyRoles roles = true →
        le (xor e.2.Endpoint id) (xor e'.2.Endpoint id) = true := by
  obtain ⟨e, he, h1, h2, h3⟩ := h
  obtain ⟨w, hw, hres, hw1, hw2, _, hmin⟩ :=
    (GetEstablishedPathClosestTo_loop_spec id roles self.m_Paths (Fill 32 0xff) none).2
      ⟨e, he, h1, h2, lt_Fill_max _ h3⟩
  exact ⟨w, hw, hres, hw1, hw2, hmin⟩

/-- C1, evaluated at the failing input: the set holds one path that is ready and
supports the roles, its endpoint is the complement of `id` so that `Endpoint XOR id` is
the all-ones value, and `GetEstablishedPathClosestTo` returns the null pointer. -/
theorem C1_GetEstablishedPathClosestTo_null_at_max_distance :
    (∃ e ∈ (Example.mkSet 4 [Example.farPath]).m_Paths,
      e.2.IsReady = true ∧ e.2.SupportsAnyRoles 0 = true) ∧
    xor Example.farPath.Endpoint (Fill 32 0) = Fill 32 0xff ∧
    (Example.mkSet 4 [Example.farPath]).GetEstablishedPathClosestTo (Fill 32 0) 0 = none := by
  refine ⟨⟨((Example.farPath.Upstream, Example.farPath.RXID), Example.farPath), ?_, rfl, rfl⟩,
    by decide, ?_⟩
  · simp [Example.mkSet]
  · rfl

end PathSet
end path
end llarp

namespace llarp
namespace path

/-! ## AddPath, RemovePath, GetByUpstream -/

namespace PathMap_t

theorem find_append_of_none (m : PathMap_t) (key : PathInfo_t) (value : Path)
    (h : find m key = none) : find (m ++ [(key, value)]) key = some (key, value) := by
  unfold find at *
  rw [List.find?_append, h]
  simp

theorem find_erase_self (m : PathMap_t) (key : PathInfo_t) : find (erase m key) key = none := by
  unfold find erase
  induction m with
  | nil => rfl
  | cons item rest ih =>
    by_cases hk : item.1 = key
    · simp [List.filter_cons, hk, ih]
    · simp [List.filter_cons, hk, List.find?_cons, ih]

theorem find_erase_of_ne (m : PathMap_t) (key key' : PathInfo_t) (hne : key' ≠ key) :
    find (erase m key) key' = find m key' := by
  unfold find erase
  induction m with
  | nil => rfl
  | cons item rest ih =>
    by_cases hk : item.1 = key
    · have hk' : ¬ item.1 = key' := fun hc => hne (hc.symm.trans hk)
      have d1 : decide (item.1 = key) = true := decide_eq_true hk
      have d2 : decide (item.1 = key') = false := decide_eq_false hk'
      simp only [List.filter_cons, List.find?_cons, d1, d2, Bool.not_true,
        Bool.false_eq_true, if_false, ih]
    · have d1 : decide (item.1 = key) = false := decide_eq_false hk
      by_cases hk' : item.1 = key'
      · have d2 : decide (item.1 = key') = true := decide_eq_true hk'
        simp only [List.filter_cons, List.find?_cons, d1, d2, Bool.not_false, if_true]
      · have d2 : decide (item.1 = key') = false := decide_eq_false hk'
        simp only [List.filter_cons, List.find?_cons, d1, d2, Bool.not_false, if_true, ih]

end PathMap_t

namespace PathSet

/-- C2 fails as stated: the set holds `p80`, the path `dup` has the key of `p80`, and
after `AddPath(dup)` the lookup under that key returns `p80`, which is not `dup`. -/
theorem C2_counterexample :
    ((Example.mkSet 4 [Example.p80]).AddPath Example.dup).GetByUpstream
        Example.dup.Upstream Example.dup.RXID = some Example.p80 ∧
    ((Example.mkSet 4 [Example.p80]).AddPath Example.dup).GetByUpstream
        Example.dup.Upstream Example.dup.RXID ≠ some Example.dup := by
  refine ⟨rfl, fun h => ?_⟩
  have h2 := congrArg (fun o => Option.map (fun (x : Path) => x.intro.latency) o) h
  exact absurd h2 (by decide)

/-- C2, amended: when no entry is stored under the key of `p`, after `AddPath(p)` the
lookup `GetByUpstream(p.Upstream(), p.RXID())` returns `p` itself. -/
theorem C2_AddPath_then_GetByUpstream_of_absent (self : PathSet) (p : Path)
    (h : self.GetByUpstream p.Upstream p.RXID = none) :
    (self.AddPath p).GetByUpstream p.Upstream p.RXID = some p := by
  have hfind : PathMap_t.find self.m_Paths (p.Upstream, p.RXID) = none := by
    unfold GetByUpstream at h
    cases hf : PathMap_t.find self.m_Paths (p.Upstream, p.RXID) with
    | none => rfl
    | some itr => rw [hf] at h; exact Option.noConfusion h
  simp only [GetByUpstream, AddPath, PathMap_t.emplace, hfind,
    PathMap_t.find_append_of_none _ _ _ hfind]

/-- Witness of C2 (amended): `p40` is added to a set that holds only `p80`. -/
theorem C2_AddPath_then_GetByUpstream_of_absent_witness :
    (Example.mkSet 4 [Example.p80]).GetByUpstream Example.p40.Upstream Example.p40.RXID = none ∧
    ((Example.mkSet 4 [Example.p80]).AddPath Example.p40).GetByUpstream
        Example.p40.Upstream Example.p40.RXID = some Example.p40 :=
  ⟨rfl, C2_AddPath_then_GetByUpstream_of_absent (Example.mkSet 4 [Example.p80]) Example.p40 rfl⟩

/-- C3: when the set holds an entry under key `(u, rx)` and `q` has that key,
`AddPath(q)` leaves the set unchanged, `GetByUpstream(u, rx)` still returns the path
stored before, and the number of entries is the same. -/
theorem C3_AddPath_existing_key_noop (self : PathSet) (u : RouterID) (rx : PathID_t)
    (old q : Path) (hold : self.GetByUpstream u rx = some old)
    (hu : q.Upstream = u) (hrx : q.RXID = rx) :
    self.AddPath q = self ∧
    (self.AddPath q).GetByUpstream u rx = some old ∧
    (self.AddPath q).m_Paths.length = self.m_Paths.length := by
  have hnoop : self.AddPath q = self := by
    subst hu hrx
    unfold GetByUpstream at hold
    cases hf : PathMap_t.find self.m_Paths (q.Upstream, q.RXID) with
    | none => rw [hf] at hold; exact Option.noConfusion hold
    | some itr => simp only [AddPath, PathMap_t.emplace, hf]
  rw [hnoop]
  exact ⟨rfl, hold, rfl⟩

/-- Witness of C3: `dup` is added to a set that holds `p80` under the same key. -/
theorem C3_AddPath_existing_key_noop_witness :
    (Example.mkSet 4 [Example.p80]).GetByUpstream (AlignedBuffer.Fill 32 1)
        (AlignedBuffer.Fill 16 1) = some Example.p80 ∧
    (Example.mkSet 4 [Example.p80]).AddPath Example.dup = Example.mkSet 4 [Example.p80] ∧
    ((Example.mkSet 4 [Example.p80]).AddPath Example.dup).GetByUpstream
        (AlignedBuffer.Fill 32 1) (AlignedBuffer.Fill 16 1) = some Example.p80 ∧
    ((Example.mkSet 4 [Example.p80]).AddPath Example.dup).m_Paths.length
      = (Example.mkSet 4 [Example.p80]).m_Paths.length :=
  ⟨rfl, C3_AddPath_existing_key_noop (Example.mkSet 4 [Example.p80]) (AlignedBuffer.Fill 32 1)
    (AlignedBuffer.Fill 16 1) Example.p80 Example.dup rfl rfl rfl⟩

/-- C4: after `RemovePath(p)` the lookup under the key of `p` returns null, and the
lookup under every other key returns what it returned before the removal. -/
theorem C4_RemovePath_then_GetByUpstream (self : PathSet) (p : Path) :
    (self.RemovePath p).GetByUpstream p.Upstream p.RXID = none ∧
    ∀ (u' : RouterID) (rx' : PathID_t), (u', rx') ≠ (p.Upstream, p.RXID) →
      (self.RemovePath p).GetByUpstream u' rx' = self.GetByUpstream u' rx' := by
  constructor
  · simp only [GetByUpstream, RemovePath, PathMap_t.find_erase_self]
  · intro u' rx' hne
    simp only [GetByUpstream, RemovePath, PathMap_t.find_erase_of_ne _ _ _ hne]

/-- Witness of C4: `p80` is removed from a set holding `p80` and `p40`; the lookup of
`p40`, stored under another key, is unchanged. -/
theorem C4_RemovePath_then_GetByUpstream_witness :
    ((Example.p40.Upstream, Example.p40.RXID) ≠ (Example.p80.Upstream, Example.p80.RXID)) ∧
    ((Example.mkSet 4 [Example.p80, Example.p40]).RemovePath Example.p80).GetByUpstream
        Example.p40.Upstream Example.p40.RXID
      = (Example.mkSet 4 [Example.p80, Example.p40]).GetByUpstream
        Example.p40.Upstream Example.p40.RXID :=
  ⟨by decide,
   (C4_RemovePath_then_GetByUpstream (Example.mkSet 4 [Example.p80, Example.p40]) Example.p80).2
     Example.p40.Upstream Example.p40.RXID (by decide)⟩

end PathSet
end path
end llarp

namespace llarp
namespace path
namespace PathSet

/-! ## GetPathByRouter -/

theorem GetPathByRouter_loop_skip (id : RouterID) (roles : PathRole) (itr : PathInfo_t × Path)
    (rest : PathMap_t) (chosen : Option Path)
    (h : ¬ (itr.2.IsReady = true ∧ itr.2.SupportsAnyRoles roles = true ∧ itr.2.Endpoint = id)) :
    GetPathByRouter.loop id roles (itr :: rest) chosen
      = GetPathByRouter.loop id roles rest chosen := by
  by_cases h1 : itr.2.IsReady = true
  · by_cases h2 : itr.2.SupportsAnyRoles roles = true
    · have h3 : ¬ itr.2.Endpoint = id := fun hc => h ⟨h1, h2, hc⟩
      simp [GetPathByRouter.loop, h1, h2, h3]
    · simp [GetPathByRouter.loop, h1, h2]
  · simp [GetPathByRouter.loop, h1]

theorem GetPathByRouter_loop_take (id : RouterID) (roles : PathRole) (itr : PathInfo_t × Path)
    (rest : PathMap_t) (chosen : Option Path)
    (h : itr.2.IsReady = true ∧ itr.2.SupportsAnyRoles roles = true ∧ itr.2.Endpoint = id) :
    GetPathByRouter.loop id roles (itr :: rest) chosen
      = GetPathByRouter.loop id roles rest
          (match chosen with
           | none => some itr.2
           | some c => if c.intro.latency > itr.2.intro.latency then some itr.2 else some c) := by
  obtain ⟨h1, h2, h3⟩ := h
  cases chosen with
  | none => simp [GetPathByRouter.loop, h1, h2, h3]
  | some c =>
    by_cases hc : c.intro.latency > itr.2.intro.latency
    · simp [GetPathByRouter.loop, h1, h2, h3, hc]
    · simp [GetPathByRouter.loop, h1, h2, h3, hc]

/-- Invariant of the loop of `GetPathByRouter` once a path is chosen: the result is the
carried path or a candidate of the remaining entries, and its latency is at most that
of the carried path and of every remaining candidate. -/
theorem GetPathByRouter_loop_some (id : RouterID) (roles : PathRole) (m : PathMap_t) (c0 : Path) :
    ∃ c, GetPathByRouter.loop id roles m (some c0) = some c ∧
      (c = c0 ∨ ∃ e ∈ m, e.2 = c ∧
        e.2.IsReady = true ∧ e.2.SupportsAnyRoles roles = true ∧ e.2.Endpoint = id) ∧
      c.intro.latency ≤ c0.intro.latency ∧
      ∀ e ∈ m, e.2.IsReady = true → e.2.SupportsAnyRoles roles = true → e.2.Endpoint = id →
        c.intro.latency ≤ e.2.intro.latency := by
  induction m generalizing c0 with
  | nil => exact ⟨c0, rfl, Or.inl rfl, le_refl _, fun e he => by simp at he⟩
  | cons itr rest ih =>
    by_cases hE : itr.2.IsReady = true ∧ itr.2.SupportsAnyRoles roles = true ∧ itr.2.Endpoint = id
    · rw [GetPathByRouter_loop_take id roles itr rest (some c0) hE]
      by_cases hc : c0.intro.latency > itr.2.intro.latency
      · simp only [hc, if_true]
        obtain ⟨c, hres, hmem, hle, hmin⟩ := ih itr.2
        refine ⟨c, hres, ?_, Nat.le_trans hle (Nat.le_of_lt hc), ?_⟩
        · rcases hmem with rfl | ⟨e, he, heq, hEe⟩
          · exact Or.inr ⟨itr, List.mem_cons_self _ _, rfl, hE⟩
          · exact Or.inr ⟨e, List.mem_cons_of_mem _ he, heq, hEe⟩
        · intro e he g1 g2 g3
          rcases List.mem_cons.mp he with rfl | he
          · exact hle
          · exact hmin e he g1 g2 g3
      · simp only [hc, if_false]
        obtain ⟨c, hres, hmem, hle, hmin⟩ := ih c0
        refine ⟨c, hres, ?_, hle, ?_⟩
        · rcases hmem with rfl | ⟨e, he, heq, hEe⟩
          · exact Or.inl rfl
          · exact Or.inr ⟨e, List.mem_cons_of_mem _ he, heq, hEe⟩
        · intro e he g1 g2 g3
          rcases List.mem_cons.mp he with rfl | he
          · exact Nat.le_trans hle (Nat.le_of_not_lt hc)
          · exact hmin e he g1 g2 g3
    · rw [GetPathByRouter_loop_skip id roles itr rest (some c0) hE]
      obtain ⟨c, hres, hmem, hle, hmin⟩ := ih c0
      refine ⟨c, hres, ?_, hle, ?_⟩
      · rcases hmem with rfl | ⟨e, he, heq, hEe⟩
        · exact Or.inl rfl
        · exact Or.inr ⟨e, List.mem_cons_of_mem _ he, heq, hEe⟩
      · intro e he g1 g2 g3
        rcases List.mem_cons.mp he with rfl | he
        · exact absurd ⟨g1, g2, g3⟩ hE
        · exact hmin e he g1 g2 g3

/-- Invariant of the loop of `GetPathByRouter` while nothing is chosen. -/
theorem GetPathByRouter_loop_none (id : RouterID) (roles : PathRole) (m : PathMap_t) :
    ((∀ e ∈ m, ¬ (e.2.IsReady = true ∧ e.2.SupportsAnyRoles roles = true ∧ e.2.Endpoint = id)) →
      GetPathByRouter.loop id roles m none = none) ∧
    ((∃ e ∈ m, e.2.IsReady = true ∧ e.2.SupportsAnyRoles roles = true ∧ e.2.Endpoint = id) →
      ∃ e ∈ m, GetPathByRouter.loop id roles m none = some e.2 ∧
        e.2.IsReady = true ∧ e.2.SupportsAnyRoles roles = true ∧ e.2.Endpoint = id ∧
        ∀ e' ∈ m, e'.2.IsReady = true → e'.2.SupportsAnyRoles roles = true →
          e'.2.Endpoint = id → e.2.intro.latency ≤ e'.2.intro.latency) := by
  induction m with
  | nil =>
    refine ⟨fun _ => rfl, ?_⟩
    rintro ⟨e, he, _⟩
    simp at he
  | cons itr rest ih =>
    by_cases hE : itr.2.IsReady = true ∧ itr.2.SupportsAnyRoles roles = true ∧ itr.2.Endpoint = id
    · rw [GetPathByRouter_loop_take id roles itr rest none hE]
      constructor
      · intro h
        exact absurd hE (h itr (List.mem_cons_self _ _))
      · intro _
        obtain ⟨c, hres, hmem, hle, hmin⟩ := GetPathByRouter_loop_some id roles rest itr.2
        have hall : ∀ e' ∈ itr :: rest, e'.2.IsReady = true → e'.2.SupportsAnyRoles roles = true →
            e'.2.Endpoint = id → c.intro.latency ≤ e'.2.intro.latency := by
          intro e' he' g1 g2 g3
          rcases List.mem_cons.mp he' with rfl | he'
          · exact hle
          · exact hmin e' he' g1 g2 g3
        rcases hmem with rfl | ⟨e, he, heq, hEe⟩
        · exact ⟨itr, List.mem_cons_self _ _, hres, hE.1, hE.2.1, hE.2.2, hall⟩
        · subst heq
          exact ⟨e, List.mem_cons_of_mem _ he, hres, hEe.1, hEe.2.1, hEe.2.2, hall⟩
    · rw [GetPathByRouter_loop_skip id roles itr rest none hE]
      constructor
      · intro h
        exact ih.1 (fun e he => h e (List.mem_cons_of_mem _ he))
      · rintro ⟨e, he, hEe⟩
        rcases List.mem_cons.mp he with rfl | he
        · exact absurd hEe hE
        · obtain ⟨w, hw, hres, w1, w2, w3, hmin⟩ := ih.2 ⟨e, he, hEe⟩
          refine ⟨w, List.mem_cons_of_mem _ hw, hres, w1, w2, w3, ?_⟩
          intro e' he' g1 g2 g3
          rcases List.mem_cons.mp he' with rfl | he'
          · exact absurd ⟨g1, g2, g3⟩ hE
          · exact hmin e' he' g1 g2 g3

/-- C5: `GetPathByRouter(id, roles)` returns null iff no stored path is ready, supports
any of `roles` and ends at `id`; otherwise it returns a stored path with these three
properties whose `intro.latency` is at most that of every stored path with them. -/
theorem C5_GetPathByRouter_argmin_latency (self : PathSet) (id : RouterID) (roles : PathRole) :
    (self.GetPathByRouter id roles = none ↔
      ∀ e ∈ self.m_Paths,
        ¬ (e.2.IsReady = true ∧ e.2.SupportsAnyRoles roles = true ∧ e.2.Endpoint = id)) ∧
    (∀ c, self.GetPathByRouter id roles = some c →
      (∃ e ∈ self.m_Paths, e.2 = c) ∧
      c.IsReady = true ∧ c.SupportsAnyRoles roles = true ∧ c.Endpoint = id ∧
      ∀ e ∈ self.m_Paths, e.2.IsReady = true → e.2.SupportsAnyRoles roles = true →
        e.2.Endpoint = id → c.intro.latency ≤ e.2.intro.latency) := by
  have hspec := GetPathByRouter_loop_none id roles self.m_Paths
  by_cases hex : ∃ e ∈ self.m_Paths,
      e.2.IsReady = true ∧ e.2.SupportsAnyRoles roles = true ∧ e.2.Endpoint = id
  · obtain ⟨w, hw, hres, w1, w2, w3, hmin⟩ := hspec.2 hex
    have hres' : self.GetPathByRouter id roles = some w.2 := hres
    constructor
    · constructor
      · intro hnone
        rw [hres'] at hnone
        exact Option.noConfusion hnone
      · intro hall
        exact absurd ⟨w1, w2, w3⟩ (hall w hw)
    · intro c hc
      rw [hres'] at hc
      cases hc
      exact ⟨⟨w, hw, rfl⟩, w1, w2, w3, hmin⟩
  · have hall : ∀ e ∈ self.m_Paths,
        ¬ (e.2.IsReady = true ∧ e.2.SupportsAnyRoles roles = true ∧ e.2.Endpoint = id) :=
      fun e he hc => hex ⟨e, he, hc⟩
    have hres : self.GetPathByRouter id roles = none := hspec.1 hall
    refine ⟨⟨fun _ => hall, fun _ => hres⟩, ?_⟩
    intro c hc
    rw [hres] at hc
    exact Option.noConfusion hc

/-- Witness of C5: two stored paths to the same endpoint with latencies 80 and 40; the
path with latency 40 is returned. -/
theorem C5_GetPathByRouter_argmin_latency_witness :
    (Example.mkSet 4 [Example.p80, Example.p40]).GetPathByRouter Example.ep 0 = some Example.p40 ∧
    Example.p40.intro.latency = 40 ∧
    ∀ e ∈ (Example.mkSet 4 [Example.p80, Example.p40]).m_Paths,
      e.2.IsReady = true → e.2.SupportsAnyRoles 0 = true → e.2.Endpoint = Example.ep →
      Example.p40.intro.latency ≤ e.2.intro.latency :=
  ⟨rfl, rfl,
   ((C5_GetPathByRouter_argmin_latency (Example.mkSet 4 [Example.p80, Example.p40])
      Example.ep 0).2 Example.p40 rfl).2.2.2.2⟩

/-! ## GetNewestPathByRouter -/

theorem GetNewestPathByRouter_loop_skip (id : RouterID) (roles : PathRole) (itr : PathInfo_t × Path)
    (rest : PathMap_t) (chosen : Option Path)
    (h : ¬ (itr.2.IsReady = true ∧ itr.2.SupportsAnyRoles roles = true ∧ itr.2.Endpoint = id)) :
    GetNewestPathByRouter.loop id roles (itr :: rest) chosen
      = GetNewestPathByRouter.loop id roles rest chosen := by
  by_cases h1 : itr.2.IsReady = true
  · by_cases h2 : itr.2.SupportsAnyRoles roles = true
    · have h3 : ¬ itr.2.Endpoint = id := fun hc => h ⟨h1, h2, hc⟩
      simp [GetNewestPathByRouter.loop, h1, h2, h3]
    · simp [GetNewestPathByRouter.loop, h1, h2]
  · simp [GetNewestPathByRouter.loop, h1]

theorem GetNewestPathByRouter_loop_take (id : RouterID) (roles : PathRole) (itr : PathInfo_t × Path)
    (rest : PathMap_t) (chosen : Option Path)
    (h : itr.2.IsReady = true ∧ itr.2.SupportsAnyRoles roles = true ∧ itr.2.Endpoint = id) :
    GetNewestPathByRouter.loop id roles (itr :: rest) chosen
      = GetNewestPathByRouter.loop id roles rest
          (match chosen with
           | none => some itr.2
           | some c => if c.intro.expiresAt < itr.2.intro.expiresAt then some itr.2 else some c) := by
  obtain ⟨h1, h2, h3⟩ := h
  cases chosen with
  | none => simp [GetNewestPathByRouter.loop, h1, h2, h3]
  | some c =>
    by_cases hc : c.intro.expiresAt < itr.2.intro.expiresAt
    · simp [GetNewestPathByRouter.loop, h1, h2, h3, hc]
    · simp [GetNewestPathByRouter.loop, h1, h2, h3, hc]

/-- Invariant of the loop of `GetNewestPathByRouter` once a path is chosen: the result is the
carried path or a candidate of the remaining entries, and its expiry is at least that
of the carried path and of every remaining candidate. -/
theorem GetNewestPathByRouter_loop_some (id : RouterID) (roles : PathRole) (m : PathMap_t) (c0 : Path) :
    ∃ c, GetNewestPathByRouter.loop id roles m (some c0) = some c ∧
      (c = c0 ∨ ∃ e ∈ m, e.2 = c ∧
        e.2.IsReady = true ∧ e.2.SupportsAnyRoles roles = true ∧ e.2.Endpoint = id) ∧
      c0.intro.expiresAt ≤ c.intro.expiresAt ∧
      ∀ e ∈ m, e.2.IsReady = true → e.2.SupportsAnyRoles roles = true → e.2.Endpoint = id →
        e.2.intro.expiresAt ≤ c.intro.expiresAt := by
  induction m generalizing c0 with
  | nil => exact ⟨c0, rfl, Or.inl rfl, le_refl _, fun e he => by simp at he⟩
  | cons itr rest ih =>
    by_cases hE : itr.2.IsReady = true ∧ itr.2.SupportsAnyRoles roles = true ∧ itr.2.Endpoint = id
    · rw [GetNewestPathByRouter_loop_take id roles itr rest (some c0) hE]
      by_cases hc : c0.intro.expiresAt < itr.2.intro.expiresAt
      · simp only [hc, if_true]
        obtain ⟨c, hres, hmem, hle, hmin⟩ := ih itr.2
        refine ⟨c, hres, ?_, Nat.le_trans (Nat.le_of_lt hc) hle, ?_⟩
        · rcases hmem with rfl | ⟨e, he, heq, hEe⟩
          · exact Or.inr ⟨itr, List.mem_cons_self _ _, rfl, hE⟩
          · exact Or.inr ⟨e, List.mem_cons_of_mem _ he, heq, hEe⟩
        · intro e he g1 g2 g3
          rcases List.mem_cons.mp he with rfl | he
          · exact hle
          · exact hmin e he g1 g2 g3
      · simp only [hc, if_false]
        obtain ⟨c, hres, hmem, hle, hmin⟩ := ih c0
        refine ⟨c, hres, ?_, hle, ?_⟩
        · rcases hmem with rfl | ⟨e, he, heq, hEe⟩
          · exact Or.inl rfl
          · exact Or.inr ⟨e, List.mem_cons_of_mem _ he, heq, hEe⟩
        · intro e he g1 g2 g3
          rcases List.mem_cons.mp he with rfl | he
          · exact Nat.le_trans (Nat.le_of_not_lt hc) hle
          · exact hmin e he g1 g2 g3
    · rw [GetNewestPathByRouter_loop_skip id roles itr rest (some c0) hE]
      obtain ⟨c, hres, hmem, hle, hmin⟩ := ih c0
      refine ⟨c, hres, ?_, hle, ?_⟩
      · rcases hmem with rfl | ⟨e, he, heq, hEe⟩
        · exact Or.inl rfl
        · exact Or.inr ⟨e, List.mem_cons_of_mem _ he, heq, hEe⟩
      · intro e he g1 g2 g3
        rcases List.mem_cons.mp he with rfl | he
        · exact absurd ⟨g1, g2, g3⟩ hE
        · exact hmin e he g1 g2 g3

/-- Invariant of the loop of `GetNewestPathByRouter` while nothing is chosen. -/
theorem GetNewestPathByRouter_loop_none (id : RouterID) (roles : PathRole) (m : PathMap_t) :
    ((∀ e ∈ m, ¬ (e.2.IsReady = true ∧ e.2.SupportsAnyRoles roles = true ∧ e.2.Endpoint = id)) →
      GetNewestPathByRouter.loop id roles m none = none) ∧
    ((∃ e ∈ m, e.2.IsReady = true ∧ e.2.SupportsAnyRoles roles = true ∧ e.2.Endpoint = id) →
      ∃ e ∈ m, GetNewestPathByRouter.loop id roles m none = some e.2 ∧
        e.2.IsReady = true ∧ e.2.SupportsAnyRoles roles = true ∧ e.2.Endpoint = id ∧
        ∀ e' ∈ m, e'.2.IsReady = true → e'.2.SupportsAnyRoles roles = true →
          e'.2.Endpoint = id → e'.2.intro.expiresAt ≤ e.2.intro.expiresAt) := by
  induction m with
  | nil =>
    refine ⟨fun _ => rfl, ?_⟩
    rintro ⟨e, he, _⟩
    simp at he
  | cons itr rest ih =>
    by_cases hE : itr.2.IsReady = true ∧ itr.2.SupportsAnyRoles roles = true ∧ itr.2.Endpoint = id
    · rw [GetNewestPathByRouter_loop_take id roles itr rest none hE]
      constructor
      · intro h
        exact absurd hE (h itr (List.mem_cons_self _ _))
      · intro _
        obtain ⟨c, hres, hmem, hle, hmin⟩ := GetNewestPathByRouter_loop_some id roles rest itr.2
        have hall : ∀ e' ∈ itr :: rest, e'.2.IsReady = true → e'.2.SupportsAnyRoles roles = true →
            e'.2.Endpoint = id → e'.2.intro.expiresAt ≤ c.intro.expiresAt := by
          intro e' he' g1 g2 g3
          rcases List.mem_cons.mp he' with rfl | he'
          · exact hle
          · exact hmin e' he' g1 g2 g3
        rcases hmem with rfl | ⟨e, he, heq, hEe⟩
        · exact ⟨itr, List.mem_cons_self _ _, hres, hE.1, hE.2.1, hE.2.2, hall⟩
        · subst heq
          exact ⟨e, List.mem_cons_of_mem _ he, hres, hEe.1, hEe.2.1, hEe.2.2, hall⟩
    · rw [GetNewestPathByRouter_loop_skip id roles itr rest none hE]
      constructor
      · intro h
        exact ih.1 (fun e he => h e (List.mem_cons_of_mem _ he))
      · rintro ⟨e, he, hEe⟩
        rcases List.mem_cons.mp he with rfl | he
        · exact absurd hEe hE
        · obtain ⟨w, hw, hres, w1, w2, w3, hmin⟩ := ih.2 ⟨e, he, hEe⟩
          refine ⟨w, List.mem_cons_of_mem _ hw, hres, w1, w2, w3, ?_⟩
          intro e' he' g1 g2 g3
          rcases List.mem_cons.mp he' with rfl | he'
          · exact absurd ⟨g1, g2, g3⟩ hE
          · exact hmin e' he' g1 g2 g3

/-- C6: `GetNewestPathByRouter(id, roles)` returns null iff no stored path is ready, supports
any of `roles` and ends at `id`; otherwise it returns a stored path with these three
properties whose `intro.expiresAt` is at least that of every stored path with them. -/
theorem C6_GetNewestPathByRouter_argmax_expiry (self : PathSet) (id : RouterID) (roles : PathRole) :
    (self.GetNewestPathByRouter id roles = none ↔
      ∀ e ∈ self.m_Paths,
        ¬ (e.2.IsReady = true ∧ e.2.SupportsAnyRoles roles = true ∧ e.2.Endpoint = id)) ∧
    (∀ c, self.GetNewestPathByRouter id roles = some c →
      (∃ e ∈ self.m_Paths, e.2 = c) ∧
      c.IsReady = true ∧ c.SupportsAnyRoles roles = true ∧ c.Endpoint = id ∧
      ∀ e ∈ self.m_Paths, e.2.IsReady = true → e.2.SupportsAnyRoles roles = true →
        e.2.Endpoint = id → e.2.intro.expiresAt ≤ c.intro.expiresAt) := by
  have hspec := GetNewestPathByRouter_loop_none id roles self.m_Paths
  by_cases hex : ∃ e ∈ self.m_Paths,
      e.2.IsReady = true ∧ e.2.SupportsAnyRoles roles = true ∧ e.2.Endpoint = id
  · obtain ⟨w, hw, hres, w1, w2, w3, hmin⟩ := hspec.2 hex
    have hres' : self.GetNewestPathByRouter id roles = some w.2 := hres
    constructor
    · constructor
      · intro hnone
        rw [hres'] at hnone
        exact Option.noConfusion hnone
      · intro hall
        exact absurd ⟨w1, w2, w3⟩ (hall w hw)
    · intro c hc
      rw [hres'] at hc
      cases hc
      exact ⟨⟨w, hw, rfl⟩, w1, w2, w3, hmin⟩
  · have hall : ∀ e ∈ self.m_Paths,
        ¬ (e.2.IsReady = true ∧ e.2.SupportsAnyRoles roles = true ∧ e.2.Endpoint = id) :=
      fun e he hc => hex ⟨e, he, hc⟩
    have hres : self.GetNewestPathByRouter id roles = none := hspec.1 hall
    refine ⟨⟨fun _ => hall, fun _ => hres⟩, ?_⟩
    intro c hc
    rw [hres] at hc
    exact Option.noConfusion hc

/-- Witness of C6: two stored paths to the same endpoint with expiries 1100 and 1200 (a
base time 1000 plus 100 and plus 200); the path with expiry 1200 is returned. -/
theorem C6_GetNewestPathByRouter_argmax_expiry_witness :
    (Example.mkSet 4 [Example.p80, Example.p40]).GetNewestPathByRouter Example.ep 0 = some Example.p40 ∧
    Example.p40.intro.expiresAt = 1200 ∧
    ∀ e ∈ (Example.mkSet 4 [Example.p80, Example.p40]).m_Paths,
      e.2.IsReady = true → e.2.SupportsAnyRoles 0 = true → e.2.Endpoint = Example.ep →
      e.2.intro.expiresAt ≤ Example.p40.intro.expiresAt :=
  ⟨rfl, rfl,
   ((C6_GetNewestPathByRouter_argmax_expiry (Example.mkSet 4 [Example.p80, Example.p40])
      Example.ep 0).2 Example.p40 rfl).2.2.2.2⟩

end PathSet
end path
end llarp

namespace llarp
namespace path
namespace PathSet

/-! ## GetNewestIntro -/

/-- Invariant of the loop of `GetNewestIntro`: when no ready entry expires strictly
later than the carried `intro`, the carried pair is returned; otherwise the
introduction of a ready entry that expires latest is returned with `found = true`. -/
theorem GetNewestIntro_loop_spec (m : PathMap_t) (intro : service.Introduction) (found : Bool) :
    ((∀ e ∈ m, e.2.IsReady = true → e.2.intro.expiresAt ≤ intro.expiresAt) →
      GetNewestIntro.loop m intro found = (intro, found)) ∧
    ((∃ e ∈ m, e.2.IsReady = true ∧ intro.expiresAt < e.2.intro.expiresAt) →
      ∃ e ∈ m, GetNewestIntro.loop m intro found = (e.2.intro, true) ∧
        e.2.IsReady = true ∧ intro.expiresAt < e.2.intro.expiresAt ∧
        ∀ e' ∈ m, e'.2.IsReady = true → e'.2.intro.expiresAt ≤ e.2.intro.expiresAt) := by
  induction m generalizing intro found with
  | nil =>
    refine ⟨fun _ => rfl, ?_⟩
    rintro ⟨e, he, _⟩
    simp at he
  | cons itr rest ih =>
    by_cases hT : itr.2.IsReady = true ∧ intro.expiresAt < itr.2.intro.expiresAt
    · have hstep : GetNewestIntro.loop (itr :: rest) intro found
          = GetNewestIntro.loop rest itr.2.intro true := by
        simp [GetNewestIntro.loop, hT.1, hT.2]
      rw [hstep]
      constructor
      · intro h
        exact absurd (h itr (List.mem_cons_self _ _) hT.1) (Nat.not_le_of_lt hT.2)
      · intro _
        by_cases hex : ∃ e ∈ rest, e.2.IsReady = true ∧
            itr.2.intro.expiresAt < e.2.intro.expiresAt
        · obtain ⟨w, hw, hres, w1, w2, hmax⟩ := (ih itr.2.intro true).2 hex
          refine ⟨w, List.mem_cons_of_mem _ hw, hres, w1, Nat.lt_trans hT.2 w2, ?_⟩
          intro e' he' g1
          rcases List.mem_cons.mp he' with rfl | he'
          · exact Nat.le_of_lt w2
          · exact hmax e' he' g1
        · have hall : ∀ e ∈ rest, e.2.IsReady = true →
              e.2.intro.expiresAt ≤ itr.2.intro.expiresAt := by
            intro e he g1
            exact Nat.le_of_not_lt (fun hc => hex ⟨e, he, g1, hc⟩)
          refine ⟨itr, List.mem_cons_self _ _, (ih itr.2.intro true).1 hall, hT.1, hT.2, ?_⟩
          intro e' he' g1
          rcases List.mem_cons.mp he' with rfl | he'
          · exact Nat.le_refl _
          · exact hall e' he' g1
    · have hstep : GetNewestIntro.loop (itr :: rest) intro found
          = GetNewestIntro.loop rest intro found := by
        by_cases h1 : itr.2.IsReady = true
        · have h2 : ¬ intro.expiresAt < itr.2.intro.expiresAt := fun hc => hT ⟨h1, hc⟩
          simp [GetNewestIntro.loop, h1, h2]
        · simp [GetNewestIntro.loop, h1]
      rw [hstep]
      constructor
      · intro h
        exact (ih intro found).1 (fun e he => h e (List.mem_cons_of_mem _ he))
      · rintro ⟨e, he, h1, h2⟩
        rcases List.mem_cons.mp he with rfl | he
        · exact absurd ⟨h1, h2⟩ hT
        · obtain ⟨w, hw, hres, w1, w2, hmax⟩ := (ih intro found).2 ⟨e, he, h1, h2⟩
          refine ⟨w, List.mem_cons_of_mem _ hw, hres, w1, w2, ?_⟩
          intro e' he' g1
          rcases List.mem_cons.mp he' with rfl | he'
          · exact Nat.le_trans (Nat.le_of_not_lt (fun hc => hT ⟨g1, hc⟩)) (Nat.le_of_lt w2)
          · exact hmax e' he' g1

/-- What `GetNewestIntro` does for every set and every prior value of `intro`: when some
ready path has `expiresAt > 0`, `intro` becomes the introduction of a ready path whose
`expiresAt` is maximal among the ready paths and the result is true; when no ready
path has `expiresAt > 0` (in particular when no path is ready), the result is false
and `intro` is left cleared. -/
theorem GetNewestIntro_spec (self : PathSet) (intro : service.Introduction) :
    ((∃ e ∈ self.m_Paths, e.2.IsReady = true ∧ 0 < e.2.intro.expiresAt) →
      ∃ e ∈ self.m_Paths, self.GetNewestIntro intro = (e.2.intro, true) ∧
        e.2.IsReady = true ∧
        ∀ e' ∈ self.m_Paths, e'.2.IsReady = true →
          e'.2.intro.expiresAt ≤ e.2.intro.expiresAt) ∧
    ((∀ e ∈ self.m_Paths, e.2.IsReady = true → e.2.intro.expiresAt = 0) →
      self.GetNewestIntro intro = (intro.Clear, false) ∧ intro.Clear.expiresAt = 0) := by
  have hspec := GetNewestIntro_loop_spec self.m_Paths intro.Clear false
  constructor
  · rintro ⟨e, he, h1, h2⟩
    obtain ⟨w, hw, hres, w1, _, hmax⟩ := hspec.2 ⟨e, he, h1, h2⟩
    exact ⟨w, hw, hres, w1, hmax⟩
  · intro h
    refine ⟨hspec.1 (fun e he g1 => ?_), rfl⟩
    rw [h e he g1]
    exact Nat.zero_le _

/-- C7, evaluated at the failing input: the set holds one ready path whose introduction
has `expiresAt = 0`; `GetNewestIntro` returns false and leaves `intro` cleared instead
of storing that path's introduction and returning true. -/
theorem C7_GetNewestIntro_false_with_ready_path :
    (∃ e ∈ (Example.mkSet 4 [Example.pZero]).m_Paths, e.2.IsReady = true) ∧
    (Example.mkSet 4 [Example.pZero]).GetNewestIntro Example.someIntro
      = (Example.someIntro.Clear, false) ∧
    Example.someIntro.Clear ≠ Example.pZero.intro := by
  refine ⟨⟨((Example.pZero.Upstream, Example.pZero.RXID), Example.pZero), ?_, rfl⟩, rfl, by decide⟩
  simp [Example.mkSet]

end PathSet
end path
end llarp

namespace llarp
namespace path

namespace PathMap_t

theorem find_eq_none_of_not_mem_keys (m : PathMap_t) (key : PathInfo_t)
    (h : key ∉ List.map Prod.fst m) : find m key = none := by
  unfold find
  induction m with
  | nil => rfl
  | cons item rest ih =>
    have hk : ¬ item.1 = key := fun hc => h (by simp [hc])
    have hr : key ∉ List.map Prod.fst rest := fun hc => h (by simp [hc])
    simp only [List.find?_cons, decide_eq_false hk, ih hr]

theorem not_mem_keys_filter (m : PathMap_t) (q : PathInfo_t × Path → Bool) (key : PathInfo_t)
    (h : key ∉ List.map Prod.fst m) : key ∉ List.map Prod.fst (List.filter q m) := by
  intro hc
  apply h
  obtain ⟨e, he, hk⟩ := List.mem_map.mp hc
  exact List.mem_map.mpr ⟨e, (List.mem_filter.mp he).1, hk⟩

/-- Under unique keys, looking a key up after filtering the entries gives the entry
found before when the filter keeps it, and nothing when the filter drops it. -/
theorem find_filter_of_unique (m : PathMap_t) (q : PathInfo_t × Path → Bool) (key : PathInfo_t)
    (e : PathInfo_t × Path) (hu : UniqueKeys m) (hf : find m key = some e) :
    find (List.filter q m) key = if q e = true then some e else none := by
  induction m with
  | nil => simp [find] at hf
  | cons item rest ih =>
    have hnd : item.1 ∉ List.map Prod.fst rest ∧ UniqueKeys rest := by
      unfold UniqueKeys at hu ⊢
      simpa using hu
    by_cases hk : item.1 = key
    · have he : item = e := by
        simpa [find, List.find?_cons, hk] using hf
      subst he
      by_cases hq : q item = true
      · simp only [List.filter_cons, hq, if_true, find, List.find?_cons, decide_eq_true hk]
      · have hnone := find_eq_none_of_not_mem_keys (List.filter q rest) key
          (not_mem_keys_filter rest q key (hk ▸ hnd.1))
        simp only [List.filter_cons, hq, if_false]
        exact hnone
    · have hf' : find rest key = some e := by
        simpa [find, List.find?_cons, hk] using hf
      have := ih hnd.2 hf'
      by_cases hq : q item = true
      · simp only [List.filter_cons, hq, if_true]
        unfold find at this ⊢
        simp only [List.find?_cons, decide_eq_false hk]
        exact this
      · simp only [List.filter_cons, hq, if_false]
        exact this

end PathMap_t

namespace PathSet

/-! ## ShouldBuildMore -/

theorem NumInStatus_loop_eq (st : PathStatus) (m : PathMap_t) (count : Nat) :
    NumInStatus.loop st m count = count + List.countP (fun e => decide (e.2.Status = st)) m := by
  induction m generalizing count with
  | nil => simp [NumInStatus.loop]
  | cons itr rest ih =>
    by_cases h : itr.2.Status = st
    · simp only [NumInStatus.loop, h, if_true, ih, List.countP_cons, decide_True]
      omega
    · simp only [NumInStatus.loop, h, if_false, ih, List.countP_cons, decide_eq_false h]
      simp

/-- The result of `NumInStatus(st)` is the number of stored paths whose status is `st`. -/
theorem NumInStatus_eq_countP (self : PathSet) (st : PathStatus) :
    self.NumInStatus st = List.countP (fun e => decide (e.2.Status = st)) self.m_Paths := by
  unfold NumInStatus
  rw [NumInStatus_loop_eq]
  omega

/-- C8: `ShouldBuildMore(now)` is true iff `NumInStatus(ePathBuilding) ≤ m_NumPaths` and
`NumInStatus(ePathEstablished) ≤ m_NumPaths`, where `NumInStatus` counts the stored
paths in that status; the result is the same for every `now`; and it is true when
exactly `m_NumPaths` paths are Building and exactly `m_NumPaths` are Established. -/
theorem C8_ShouldBuildMore_iff (self : PathSet) (now : llarp_time_t) :
    (self.ShouldBuildMore now = true ↔
      self.NumInStatus PathStatus.ePathBuilding ≤ self.m_NumPaths ∧
      self.NumInStatus PathStatus.ePathEstablished ≤ self.m_NumPaths) ∧
    (∀ now', self.ShouldBuildMore now' = self.ShouldBuildMore now) ∧
    (List.countP (fun e => decide (e.2.Status = PathStatus.ePathBuilding)) self.m_Paths
        = self.m_NumPaths →
      List.countP (fun e => decide (e.2.Status = PathStatus.ePathEstablished)) self.m_Paths
        = self.m_NumPaths →
      self.ShouldBuildMore now = true) := by
  have hiff : self.ShouldBuildMore now = true ↔
      self.NumInStatus PathStatus.ePathBuilding ≤ self.m_NumPaths ∧
      self.NumInStatus PathStatus.ePathEstablished ≤ self.m_NumPaths := by
    unfold ShouldBuildMore
    by_cases hb : self.NumInStatus PathStatus.ePathBuilding > self.m_NumPaths
    · simp only [hb, if_true, Bool.false_eq_true, false_iff]
      intro hc
      exact absurd hc.1 (Nat.not_le_of_lt hb)
    · simp only [hb, if_false, decide_eq_true_eq]
      exact ⟨fun h => ⟨Nat.le_of_not_lt hb, h⟩, fun h => h.2⟩
  refine ⟨hiff, fun _ => rfl, ?_⟩
  intro h1 h2
  rw [hiff, NumInStatus_eq_countP, NumInStatus_eq_countP, h1, h2]
  exact ⟨Nat.le_refl _, Nat.le_refl _⟩

/-- Witness of C8: target 1, one Building path and one Established path stored. -/
theorem C8_ShouldBuildMore_iff_witness :
    (Example.mkSet 1 [Example.pBuilding, Example.p80]).NumInStatus PathStatus.ePathBuilding = 1 ∧
    (Example.mkSet 1 [Example.pBuilding, Example.p80]).NumInStatus PathStatus.ePathEstablished = 1 ∧
    (Example.mkSet 1 [Example.pBuilding, Example.p80]).ShouldBuildMore 1000 = true :=
  ⟨by decide, by decide,
   (C8_ShouldBuildMore_iff (Example.mkSet 1 [Example.pBuilding, Example.p80]) 1000).2.2
     (by decide) (by decide)⟩

/-! ## ShouldBuildMoreForRoles -/

theorem ShouldBuildMoreForRoles_loop_eq (now : llarp_time_t) (roles : PathRole) (m : PathMap_t)
    (has : Nat) :
    ShouldBuildMoreForRoles.loop now roles m has
      = has + List.countP (fun e => e.2.SupportsAnyRoles roles && !e.2.ExpiresSoon now) m := by
  induction m generalizing has with
  | nil => simp [ShouldBuildMoreForRoles.loop]
  | cons item rest ih =>
    cases h1 : item.2.SupportsAnyRoles roles
    · simp [ShouldBuildMoreForRoles.loop, h1, ih, List.countP_cons]
    · cases h2 : item.2.ExpiresSoon now
      · simp only [ShouldBuildMoreForRoles.loop, h1, h2, ih, List.countP_cons, if_true,
          Bool.not_false, Bool.and_self]
        omega
      · simp [ShouldBuildMoreForRoles.loop, h1, h2, ih, List.countP_cons]

/-- C9: `ShouldBuildMoreForRoles(now, roles)` is true iff the number of stored paths that
support any of `roles` and do not expire soon is strictly below
`MinRequiredForRoles(roles)` (whatever the override returns); replacing every stored
path by one with the same `SupportsAnyRoles` and `ExpiresSoon` answers, whatever its
readiness and status, leaves the result unchanged. -/
theorem C9_ShouldBuildMoreForRoles_iff (self : PathSet) (now : llarp_time_t) (roles : PathRole) :
    (self.ShouldBuildMoreForRoles now roles = true ↔
      List.countP (fun e => e.2.SupportsAnyRoles roles && !e.2.ExpiresSoon now) self.m_Paths
        < self.vMinRequiredForRoles roles) ∧
    (∀ g : Path → Path,
      (∀ p, (g p).SupportsAnyRoles roles = p.SupportsAnyRoles roles ∧
            (g p).ExpiresSoon now = p.ExpiresSoon now) →
      ShouldBuildMoreForRoles
          { self with m_Paths := List.map (fun e => (e.1, g e.2)) self.m_Paths } now roles
        = self.ShouldBuildMoreForRoles now roles) := by
  constructor
  · unfold ShouldBuildMoreForRoles
    simp only [ShouldBuildMoreForRoles_loop_eq, Nat.zero_add, decide_eq_true_eq]
  · intro g hg
    unfold ShouldBuildMoreForRoles
    simp only [ShouldBuildMoreForRoles_loop_eq, Nat.zero_add, List.countP_map]
    have hfun : ((fun (e : PathInfo_t × Path) => e.2.SupportsAnyRoles roles && !e.2.ExpiresSoon now)
          ∘ fun (e : PathInfo_t × Path) => (e.1, g e.2))
        = fun (e : PathInfo_t × Path) => e.2.SupportsAnyRoles roles && !e.2.ExpiresSoon now := by
      funext e
      simp only [Function.comp, (hg e.2).1, (hg e.2).2]
    rw [hfun]

/-- Witness of C9: a subclass requiring 2 paths holds one supporting path that does not
expire soon at time 1000 (count 1, below 2); making that path unready with status
Building leaves the answer unchanged. -/
theorem C9_ShouldBuildMoreForRoles_iff_witness :
    (Example.pFresh.SupportsAnyRoles 0 = true ∧ Example.pFresh.ExpiresSoon 1000 = false) ∧
    (Example.mkSetMin2 [Example.pFresh]).ShouldBuildMoreForRoles 1000 0 = true ∧
    ShouldBuildMoreForRoles
        { Example.mkSetMin2 [Example.pFresh] with
          m_Paths := List.map (fun e => (e.1, Example.unready e.2))
            (Example.mkSetMin2 [Example.pFresh]).m_Paths } 1000 0
      = (Example.mkSetMin2 [Example.pFresh]).ShouldBuildMoreForRoles 1000 0 :=
  ⟨by decide, by decide,
   (C9_ShouldBuildMoreForRoles_iff (Example.mkSetMin2 [Example.pFresh]) 1000 0).2 Example.unready
     (fun _ => ⟨rfl, rfl⟩)⟩

/-! ## ExpirePaths -/

theorem ExpirePaths_loop_eq_filter (now : llarp_time_t) (m : PathMap_t) :
    ExpirePaths.loop now m = List.filter (fun e => !e.2.Expired now) m := by
  induction m with
  | nil => rfl
  | cons itr rest ih =>
    cases h : itr.2.Expired now
    · simp only [ExpirePaths.loop, h, Bool.false_eq_true, if_false, List.filter_cons,
        Bool.not_false, if_true, ih]
    · simp only [ExpirePaths.loop, h, if_true, List.filter_cons, Bool.not_true,
        Bool.false_eq_true, if_false, ih]

theorem ExpirePaths_m_Paths (self : PathSet) (now : llarp_time_t) :
    (self.ExpirePaths now).m_Paths = List.filter (fun e => !e.2.Expired now) self.m_Paths := by
  unfold ExpirePaths
  by_cases h0 : self.m_Paths.length = 0
  · have hnil : self.m_Paths = [] := List.length_eq_zero.mp h0
    rw [if_pos h0, hnil]
    rfl
  · rw [if_neg h0]
    exact ExpirePaths_loop_eq_filter now self.m_Paths

/-- C10: after `ExpirePaths(now)` the map holds exactly the prior entries whose path is
not `Expired(now)`, in their prior order: an entry is in the map afterwards iff it was
there before and is not expired, and (keys being unique) a lookup that found a
non-expired path before finds the same path afterwards while a lookup that found an
expired path finds nothing. -/
theorem C10_ExpirePaths_keeps_exactly_unexpired (self : PathSet) (now : llarp_time_t) :
    (self.ExpirePaths now).m_Paths
      = List.filter (fun e => !e.2.Expired now) self.m_Paths ∧
    (∀ e, e ∈ (self.ExpirePaths now).m_Paths ↔ e ∈ self.m_Paths ∧ e.2.Expired now = false) ∧
    (PathMap_t.UniqueKeys self.m_Paths → ∀ u rx p, self.GetByUpstream u rx = some p →
      (self.ExpirePaths now).GetByUpstream u rx = if p.Expired now = true then none else some p) := by
  refine ⟨ExpirePaths_m_Paths self now, ?_, ?_⟩
  · intro e
    rw [ExpirePaths_m_Paths, List.mem_filter]
    simp
  · intro hu u rx p hp
    unfold GetByUpstream at hp ⊢
    cases hf : PathMap_t.find self.m_Paths (u, rx) with
    | none => rw [hf] at hp; exact Option.noConfusion hp
    | some itr =>
      rw [hf] at hp
      have hitr : itr.2 = p := by simpa using hp
      rw [ExpirePaths_m_Paths,
        PathMap_t.find_filter_of_unique self.m_Paths _ (u, rx) itr hu hf, ← hitr]
      cases hx : itr.2.Expired now <;> simp

/-- Witness of C10: at time 1000 the entries are expired, expired, live, expired; only
the live one remains, and it is still found under its key. -/
theorem C10_ExpirePaths_keeps_exactly_unexpired_witness :
    PathMap_t.UniqueKeys
      (Example.mkSet 4 [Example.pZero, Example.pOld1, Example.p80, Example.pOld2]).m_Paths ∧
    ((Example.mkSet 4 [Example.pZero, Example.pOld1, Example.p80, Example.pOld2]).ExpirePaths
      1000).m_Paths = (Example.mkSet 4 [Example.p80]).m_Paths ∧
    ((Example.mkSet 4 [Example.pZero, Example.pOld1, Example.p80, Example.pOld2]).ExpirePaths
      1000).GetByUpstream Example.p80.Upstream Example.p80.RXID = some Example.p80 ∧
    ((Example.mkSet 4 [Example.pZero, Example.pOld1, Example.p80, Example.pOld2]).ExpirePaths
      1000).GetByUpstream Example.pOld2.Upstream Example.pOld2.RXID = none :=
  ⟨by decide, rfl,
   (C10_ExpirePaths_keeps_exactly_unexpired
      (Example.mkSet 4 [Example.pZero, Example.pOld1, Example.p80, Example.pOld2]) 1000).2.2
      (by decide) Example.p80.Upstream Example.p80.RXID
      Example.p80 rfl,
   (C10_ExpirePaths_keeps_exactly_unexpired
      (Example.mkSet 4 [Example.pZero, Example.pOld1, Example.p80, Example.pOld2]) 1000).2.2
      (by decide) Example.pOld2.Upstream Example.pOld2.RXID
      Example.pOld2 rfl⟩

/-! ## The unique-key invariant is kept by every mutation -/

theorem UniqueKeys_mk_base (num : Nat) : PathMap_t.UniqueKeys (mk_base num).m_Paths := by
  simp [PathMap_t.UniqueKeys, mk_base]

theorem UniqueKeys_filter (m : PathMap_t) (q : PathInfo_t × Path → Bool)
    (h : PathMap_t.UniqueKeys m) : PathMap_t.UniqueKeys (List.filter q m) := by
  unfold PathMap_t.UniqueKeys at *
  exact List.Nodup.sublist (List.Sublist.map _ (List.filter_sublist m)) h

theorem UniqueKeys_AddPath (self : PathSet) (p : Path)
    (h : PathMap_t.UniqueKeys self.m_Paths) : PathMap_t.UniqueKeys (self.AddPath p).m_Paths := by
  have hm : (self.AddPath p).m_Paths
      = PathMap_t.emplace self.m_Paths (p.Upstream, p.RXID) p := rfl
  rw [hm]
  unfold PathMap_t.emplace
  cases hf : PathMap_t.find self.m_Paths (p.Upstream, p.RXID) with
  | some itr => exact h
  | none =>
    unfold PathMap_t.UniqueKeys at *
    simp only [List.map_append, List.map_cons, List.map_nil]
    refine List.Nodup.append h (List.nodup_singleton _) ?_
    intro k hk1 hk2
    have hk : k = (p.Upstream, p.RXID) := by simpa using hk2
    subst hk
    obtain ⟨e, he, hek⟩ := List.mem_map.mp hk1
    have := List.find?_eq_none.mp hf e he
    simp [hek] at this

theorem UniqueKeys_RemovePath (self : PathSet) (p : Path)
    (h : PathMap_t.UniqueKeys self.m_Paths) :
    PathMap_t.UniqueKeys (self.RemovePath p).m_Paths :=
  UniqueKeys_filter self.m_Paths _ h

theorem UniqueKeys_ExpirePaths (self : PathSet) (now : llarp_time_t)
    (h : PathMap_t.UniqueKeys self.m_Paths) :
    PathMap_t.UniqueKeys (self.ExpirePaths now).m_Paths := by
  rw [ExpirePaths_m_Paths]
  exact UniqueKeys_filter self.m_Paths _ h

end PathSet
end path
end llarp

namespace llarp
namespace path
namespace PathSet

/-! ## ShouldBuildMoreForRoles of the base class -/

/-- C20: for a base `PathSet`, whose `MinRequiredForRoles` is the base method returning
0, `ShouldBuildMoreForRoles(now, roles)` is false for every map content, every `now`
and every `roles`. -/
theorem C20_ShouldBuildMoreForRoles_base_false (self : PathSet) (now : llarp_time_t)
    (roles : PathRole) (hbase : self.vMinRequiredForRoles = MinRequiredForRoles) :
    self.ShouldBuildMoreForRoles now roles = false := by
  unfold ShouldBuildMoreForRoles
  rw [hbase]
  simp [MinRequiredForRoles]

/-- Witness of C20: the freshly constructed, empty base set. -/
theorem C20_ShouldBuildMoreForRoles_base_false_witness :
    (mk_base 4).vMinRequiredForRoles = MinRequiredForRoles ∧
    (mk_base 4).ShouldBuildMoreForRoles 1000 0 = false :=
  ⟨rfl, C20_ShouldBuildMoreForRoles_base_false (mk_base 4) 1000 0 rfl⟩

/-! ## GetCurrentIntroductions -/

theorem IntroSet_mem_insert (s : IntroSet) (v i : service.Introduction) :
    i ∈ IntroSet.insert s v ↔ i ∈ s ∨ i = v := by
  unfold IntroSet.insert
  by_cases h : v ∈ s
  · rw [if_pos h]
    constructor
    · exact Or.inl
    · rintro (h1 | h1)
      · exact h1
      · rw [h1]; exact h
  · rw [if_neg h]
    simp

theorem IntroSet_nodup_insert (s : IntroSet) (v : service.Introduction) (hs : s.Nodup) :
    (IntroSet.insert s v).Nodup := by
  unfold IntroSet.insert
  by_cases h : v ∈ s
  · rw [if_pos h]; exact hs
  · rw [if_neg h]
    refine List.Nodup.append hs (List.nodup_singleton v) ?_
    intro x hx1 hx2
    have : x = v := by simpa using hx2
    exact h (this ▸ hx1)

/-- Invariant of the loop of `GetCurrentIntroductionsWithFilter`. -/
theorem GetCurrentIntroductionsWithFilter_loop_spec (filter : service.Introduction → Bool)
    (m : PathMap_t) (intros : IntroSet) (count : Nat) :
    (∀ i, i ∈ (GetCurrentIntroductionsWithFilter.loop filter m intros count).1 ↔
      i ∈ intros ∨ ∃ e ∈ m, e.2.IsReady = true ∧ filter e.2.intro = true ∧ e.2.intro = i) ∧
    (intros.Nodup → (GetCurrentIntroductionsWithFilter.loop filter m intros count).1.Nodup) ∧
    (GetCurrentIntroductionsWithFilter.loop filter m intros count).2
      = count + List.countP (fun e => e.2.IsReady && filter e.2.intro) m := by
  induction m generalizing intros count with
  | nil => simp [GetCurrentIntroductionsWithFilter.loop]
  | cons itr rest ih =>
    by_cases h : (itr.2.IsReady && filter itr.2.intro) = true
    · have hstep : GetCurrentIntroductionsWithFilter.loop filter (itr :: rest) intros count
          = GetCurrentIntroductionsWithFilter.loop filter rest
              (IntroSet.insert intros itr.2.intro) (count + 1) := by
        simp only [GetCurrentIntroductionsWithFilter.loop, h, if_true]
      rw [hstep]
      obtain ⟨ih1, ih2, ih3⟩ := ih (IntroSet.insert intros itr.2.intro) (count + 1)
      have h' : itr.2.IsReady = true ∧ filter itr.2.intro = true := by
        simpa using h
      refine ⟨?_, fun hn => ih2 (IntroSet_nodup_insert _ _ hn), ?_⟩
      · intro i
        rw [ih1, IntroSet_mem_insert]
        constructor
        · rintro ((h1 | h1) | ⟨e, he, h2⟩)
          · exact Or.inl h1
          · exact Or.inr ⟨itr, List.mem_cons_self _ _, h'.1, h'.2, h1.symm⟩
          · exact Or.inr ⟨e, List.mem_cons_of_mem _ he, h2⟩
        · rintro (h1 | ⟨e, he, h2⟩)
          · exact Or.inl (Or.inl h1)
          · rcases List.mem_cons.mp he with rfl | he
            · exact Or.inl (Or.inr h2.2.2.symm)
            · exact Or.inr ⟨e, he, h2⟩
      · rw [ih3, List.countP_cons, h]
        simp only [if_true]
        omega
    · have hf : (itr.2.IsReady && filter itr.2.intro) = false := by
        cases hc : (itr.2.IsReady && filter itr.2.intro)
        · rfl
        · exact absurd hc h
      have hstep : GetCurrentIntroductionsWithFilter.loop filter (itr :: rest) intros count
          = GetCurrentIntroductionsWithFilter.loop filter rest intros count := by
        simp only [GetCurrentIntroductionsWithFilter.loop, hf, Bool.false_eq_true, if_false]
      rw [hstep]
      obtain ⟨ih1, ih2, ih3⟩ := ih intros count
      have h' : ¬ (itr.2.IsReady = true ∧ filter itr.2.intro = true) := by
        simpa using h
      refine ⟨?_, ih2, ?_⟩
      · intro i
        rw [ih1]
        constructor
        · rintro (h1 | ⟨e, he, h2⟩)
          · exact Or.inl h1
          · exact Or.inr ⟨e, List.mem_cons_of_mem _ he, h2⟩
        · rintro (h1 | ⟨e, he, h2⟩)
          · exact Or.inl h1
          · rcases List.mem_cons.mp he with rfl | he
            · exact absurd ⟨h2.1, h2.2.1⟩ h'
            · exact Or.inr ⟨e, he, h2⟩
      · rw [ih3, List.countP_cons]
        simp only [hf, Bool.false_eq_true, if_false]
        omega

/-- The loop of `GetCurrentIntroductions` is the loop of the filtered variant with the
always-true predicate. -/
theorem GetCurrentIntroductions_loop_eq (m : PathMap_t) (intros : IntroSet) (count : Nat) :
    GetCurrentIntroductions.loop m intros count
      = GetCurrentIntroductionsWithFilter.loop (fun _ => true) m intros count := by
  induction m generalizing intros count with
  | nil => rfl
  | cons itr rest ih =>
    cases h : itr.2.IsReady <;>
      simp [GetCurrentIntroductions.loop, GetCurrentIntroductionsWithFilter.loop, h, ih]

/-- C11: whatever `intros` held before, `GetCurrentIntroductionsWithFilter(intros, pred)`
leaves in it exactly the introductions of the stored paths that are ready and pass
`pred`, each once, and returns true iff that set is non-empty; `GetCurrentIntroductions`
gives the same output and result as the filtered variant with the always-true predicate. -/
theorem C11_GetCurrentIntroductions_exact (self : PathSet) (intros : IntroSet)
    (pred : service.Introduction → Bool) :
    (∀ i, i ∈ (self.GetCurrentIntroductionsWithFilter intros pred).1 ↔
      ∃ e ∈ self.m_Paths, e.2.IsReady = true ∧ pred e.2.intro = true ∧ e.2.intro = i) ∧
    (self.GetCurrentIntroductionsWithFilter intros pred).1.Nodup ∧
    ((self.GetCurrentIntroductionsWithFilter intros pred).2 = true ↔
      (self.GetCurrentIntroductionsWithFilter intros pred).1 ≠ []) ∧
    self.GetCurrentIntroductions intros
      = self.GetCurrentIntroductionsWithFilter intros (fun _ => true) := by
  obtain ⟨h1, h2, h3⟩ := GetCurrentIntroductionsWithFilter_loop_spec pred self.m_Paths [] 0
  have hmem : ∀ i, i ∈ (self.GetCurrentIntroductionsWithFilter intros pred).1 ↔
      ∃ e ∈ self.m_Paths, e.2.IsReady = true ∧ pred e.2.intro = true ∧ e.2.intro = i := by
    intro i
    have := h1 i
    simpa [GetCurrentIntroductionsWithFilter, IntroSet.clear] using this
  refine ⟨hmem, h2 List.nodup_nil, ?_, ?_⟩
  · have hret : (self.GetCurrentIntroductionsWithFilter intros pred).2
        = decide (0 + List.countP (fun e => e.2.IsReady && pred e.2.intro) self.m_Paths > 0) := by
      simp only [GetCurrentIntroductionsWithFilter, IntroSet.clear, h3]
    rw [hret, decide_eq_true_eq, Nat.zero_add, gt_iff_lt, List.countP_pos_iff]
    constructor
    · rintro ⟨e, he, hp⟩ hnil
      have hp' : e.2.IsReady = true ∧ pred e.2.intro = true := by simpa using hp
      have := (hmem e.2.intro).mpr ⟨e, he, hp'.1, hp'.2, rfl⟩
      rw [hnil] at this
      exact absurd this (List.not_mem_nil _)
    · intro hne
      obtain ⟨i, hi⟩ := List.exists_mem_of_ne_nil _ hne
      obtain ⟨e, he, g1, g2, _⟩ := (hmem i).mp hi
      exact ⟨e, he, by simp [g1, g2]⟩
  · simp only [GetCurrentIntroductions, GetCurrentIntroductionsWithFilter,
      GetCurrentIntroductions_loop_eq]

end PathSet
end path
end llarp

namespace llarp
namespace path
namespace PathSet

open AlignedBuffer

/-! ## Tie-break of GetEstablishedPathClosestTo -/

/-- The loop of `GetEstablishedPathClosestTo` returns the first entry that attains the
least distance: when some eligible entry is strictly below `dist`, the map splits
around the returned entry so that every eligible entry before it is strictly farther
and every eligible entry after it is at least as far. -/
theorem GetEstablishedPathClosestTo_loop_first (to_ : AlignedBuffer 32) (roles : PathRole)
    (m : PathMap_t) (dist : AlignedBuffer 32) (path : Option Path)
    (h : ∃ e ∈ m, e.2.IsReady = true ∧ e.2.SupportsAnyRoles roles = true ∧
        lt (xor e.2.Endpoint to_) dist = true) :
    ∃ pre e post, m = pre ++ e :: post ∧
      GetEstablishedPathClosestTo.loop to_ roles m dist path = some e.2 ∧
      e.2.IsReady = true ∧ e.2.SupportsAnyRoles roles = true ∧
      lt (xor e.2.Endpoint to_) dist = true ∧
      (∀ e' ∈ pre, e'.2.IsReady = true → e'.2.SupportsAnyRoles roles = true →
        lt (xor e.2.Endpoint to_) (xor e'.2.Endpoint to_) = true) ∧
      (∀ e' ∈ post, e'.2.IsReady = true → e'.2.SupportsAnyRoles roles = true →
        le (xor e.2.Endpoint to_) (xor e'.2.Endpoint to_) = true) := by
  induction m generalizing dist path with
  | nil =>
    obtain ⟨e, he, _⟩ := h
    simp at he
  | cons item rest ih =>
    by_cases hE : item.2.IsReady = true ∧ item.2.SupportsAnyRoles roles = true
    case neg =>
      have hstep : GetEstablishedPathClosestTo.loop to_ roles (item :: rest) dist path
          = GetEstablishedPathClosestTo.loop to_ roles rest dist path := by
        by_cases hr : item.2.IsReady = true
        · have hs : ¬ item.2.SupportsAnyRoles roles = true := fun hc => hE ⟨hr, hc⟩
          simp [GetEstablishedPathClosestTo.loop, hr, hs]
        · simp [GetEstablishedPathClosestTo.loop, hr]
      obtain ⟨e, he, h1, h2, h3⟩ := h
      rcases List.mem_cons.mp he with rfl | he
      · exact absurd ⟨h1, h2⟩ hE
      · obtain ⟨pre, w, post, hm, hres, w1, w2, w3, hpre, hpost⟩ :=
          ih dist path ⟨e, he, h1, h2, h3⟩
        refine ⟨item :: pre, w, post, by rw [hm]; rfl, by rw [hstep]; exact hres,
          w1, w2, w3, ?_, hpost⟩
        intro e' he' g1 g2
        rcases List.mem_cons.mp he' with rfl | he'
        · exact absurd ⟨g1, g2⟩ hE
        · exact hpre e' he' g1 g2
    case pos =>
    obtain ⟨hr, hs⟩ := hE
    by_cases hl : lt (xor item.2.Endpoint to_) dist = true
    case pos =>
      have hstep : GetEstablishedPathClosestTo.loop to_ roles (item :: rest) dist path
          = GetEstablishedPathClosestTo.loop to_ roles rest (xor item.2.Endpoint to_)
              (some item.2) := by
        simp [GetEstablishedPathClosestTo.loop, hr, hs, hl]
      by_cases hex : ∃ e ∈ rest, e.2.IsReady = true ∧ e.2.SupportsAnyRoles roles = true ∧
          lt (xor e.2.Endpoint to_) (xor item.2.Endpoint to_) = true
      · obtain ⟨pre, w, post, hm, hres, w1, w2, w3, hpre, hpost⟩ :=
          ih (xor item.2.Endpoint to_) (some item.2) hex
        have n1 := (lt_iff _ _).mp w3
        have n2 := (lt_iff _ _).mp hl
        refine ⟨item :: pre, w, post, by rw [hm]; rfl, by rw [hstep]; exact hres,
          w1, w2, (lt_iff _ _).mpr (by omega), ?_, hpost⟩
        intro e' he' g1 g2
        rcases List.mem_cons.mp he' with rfl | he'
        · exact w3
        · exact hpre e' he' g1 g2
      · have hnone : ∀ e ∈ rest, e.2.IsReady = true → e.2.SupportsAnyRoles roles = true →
            lt (xor e.2.Endpoint to_) (xor item.2.Endpoint to_) = false := by
          intro e he g1 g2
          cases hc : lt (xor e.2.Endpoint to_) (xor item.2.Endpoint to_)
          · rfl
          · exact absurd ⟨e, he, g1, g2, hc⟩ hex
        have hres := (GetEstablishedPathClosestTo_loop_spec to_ roles rest
          (xor item.2.Endpoint to_) (some item.2)).1 hnone
        refine ⟨[], item, rest, rfl, by rw [hstep]; exact hres, hr, hs, hl, ?_, ?_⟩
        · intro e' he'
          simp at he'
        · intro e' he' g1 g2
          have := hnone e' he' g1 g2
          unfold le
          rw [this]
          rfl
    case neg =>
      have hl' : lt (xor item.2.Endpoint to_) dist = false := by
        cases hc : lt (xor item.2.Endpoint to_) dist
        · rfl
        · exact absurd hc hl
      have hstep : GetEstablishedPathClosestTo.loop to_ roles (item :: rest) dist path
          = GetEstablishedPathClosestTo.loop to_ roles rest dist path := by
        simp [GetEstablishedPathClosestTo.loop, hr, hs, hl']
      obtain ⟨e, he, h1, h2, h3⟩ := h
      rcases List.mem_cons.mp he with rfl | he
      · rw [hl'] at h3
        exact Bool.noConfusion h3
      · obtain ⟨pre, w, post, hm, hres, w1, w2, w3, hpre, hpost⟩ :=
          ih dist path ⟨e, he, h1, h2, h3⟩
        refine ⟨item :: pre, w, post, by rw [hm]; rfl, by rw [hstep]; exact hres,
          w1, w2, w3, ?_, hpost⟩
        intro e' he' g1 g2
        rcases List.mem_cons.mp he' with rfl | he'
        · have n1 := (lt_iff _ _).mp w3
          have n2 : ¬ (toNatBE (xor e'.2.Endpoint to_).val < toNatBE dist.val) := by
            intro hc
            have := (lt_iff _ _).mpr hc
            rw [hl'] at this
            exact Bool.noConfusion this
          exact (lt_iff _ _).mpr (by omega)
        · exact hpre e' he' g1 g2

/-- Whenever some ready, role-supporting path lies at a distance other than the
all-ones value, `GetEstablishedPathClosestTo` returns the first entry, in map order,
among the ready, role-supporting entries of least distance. -/
theorem GetEstablishedPathClosestTo_first_below_sentinel (self : PathSet) (id : RouterID)
    (roles : PathRole)
    (h : ∃ e ∈ self.m_Paths, e.2.IsReady = true ∧ e.2.SupportsAnyRoles roles = true ∧
      xor e.2.Endpoint id ≠ Fill 32 0xff) :
    ∃ pre e post, self.m_Paths = pre ++ e :: post ∧
      self.GetEstablishedPathClosestTo id roles = some e.2 ∧
      e.2.IsReady = true ∧ e.2.SupportsAnyRoles roles = true ∧
      (∀ e' ∈ pre, e'.2.IsReady = true → e'.2.SupportsAnyRoles roles = true →
        lt (xor e.2.Endpoint id) (xor e'.2.Endpoint id) = true) ∧
      (∀ e' ∈ post, e'.2.IsReady = true → e'.2.SupportsAnyRoles roles = true →
        le (xor e.2.Endpoint id) (xor e'.2.Endpoint id) = true) := by
  obtain ⟨e, he, h1, h2, h3⟩ := h
  obtain ⟨pre, w, post, hm, hres, w1, w2, _, hpre, hpost⟩ :=
    GetEstablishedPathClosestTo_loop_first id roles self.m_Paths (Fill 32 0xff) none
      ⟨e, he, h1, h2, lt_Fill_max _ h3⟩
  exact ⟨pre, w, post, hm, hres, w1, w2, hpre, hpost⟩

/-- C16, evaluated at the failing input: two ready, role-supporting paths are stored,
both at the same (and so minimal) distance, the all-ones value; the first one in map
order is `farPath`, and `GetEstablishedPathClosestTo` returns the null pointer. -/
theorem C16_GetEstablishedPathClosestTo_tie_at_max_distance_null :
    (Example.mkSet 4 [Example.farPath, Example.farPath2]).m_Paths
      = [((Example.farPath.Upstream, Example.farPath.RXID), Example.farPath),
         ((Example.farPath2.Upstream, Example.farPath2.RXID), Example.farPath2)] ∧
    (Example.farPath.IsReady = true ∧ Example.farPath.SupportsAnyRoles 0 = true) ∧
    (Example.farPath2.IsReady = true ∧ Example.farPath2.SupportsAnyRoles 0 = true) ∧
    xor Example.farPath.Endpoint (Fill 32 0) = xor Example.farPath2.Endpoint (Fill 32 0) ∧
    (Example.mkSet 4 [Example.farPath, Example.farPath2]).GetEstablishedPathClosestTo
      (Fill 32 0) 0 = none := by
  refine ⟨rfl, ⟨rfl, rfl⟩, ⟨rfl, rfl⟩, by decide, rfl⟩

end PathSet
end path
end llarp

namespace llarp
namespace path
namespace PathSet

/-! ## PickRandomEstablishedPath -/

theorem PickRandomEstablishedPath_loop_eq (roles : PathRole) (m : PathMap_t)
    (established : List Path) :
    PickRandomEstablishedPath.loop roles m established
      = established ++ List.map Prod.snd
          (List.filter (fun e => e.2.IsReady && e.2.SupportsAnyRoles roles) m) := by
  induction m generalizing established with
  | nil => simp [PickRandomEstablishedPath.loop]
  | cons itr rest ih =>
    cases h : (itr.2.IsReady && itr.2.SupportsAnyRoles roles)
    · simp only [PickRandomEstablishedPath.loop, h, Bool.false_eq_true, if_false, ih,
        List.filter_cons]
    · simp only [PickRandomEstablishedPath.loop, h, if_true, ih, List.filter_cons,
        List.map_cons, List.append_assoc, List.singleton_append]

/-- The vector `established` that `PickRandomEstablishedPath` builds: the ready,
role-supporting stored paths in map order. -/
theorem PickRandomEstablishedPath_eq (self : PathSet) (roles : PathRole) (randint : Nat) :
    self.PickRandomEstablishedPath roles randint
      = if (PickRandomEstablishedPath.loop roles self.m_Paths []).length ≠ 0 then
          (PickRandomEstablishedPath.loop roles self.m_Paths [])[randint %
            (PickRandomEstablishedPath.loop roles self.m_Paths []).length]?
        else none := rfl

/-- The number of draws below `N` that select index `i` of `n` entries. -/
theorem ncard_mod_eq (N n i : Nat) (hn : 0 < n) (hi : i < n) :
    Set.ncard {r : Nat | r < N ∧ r % n = i} = N / n + if i < N % n then 1 else 0 := by
  have hset : {r : Nat | r < N ∧ r % n = i}
      = ((Finset.filter (fun r => r ≡ i [MOD n]) (Finset.range N) : Finset Nat) : Set Nat) := by
    ext r
    simp only [Set.mem_setOf_eq, Finset.coe_filter, Finset.mem_range, Nat.ModEq,
      Nat.mod_eq_of_lt hi]
  rw [hset, Set.ncard_coe_Finset, ← Nat.count_eq_card_filter_range,
    Nat.count_modEq_card N hn i, Nat.mod_eq_of_lt hi]

/-- The draws for which `PickRandomEstablishedPath` returns the `i`-th eligible path are
those congruent to `i` modulo the number of eligible paths, when these are distinct. -/
theorem PickRandomEstablishedPath_draws (self : PathSet) (roles : PathRole) (N i : Nat)
    (hnd : (PickRandomEstablishedPath.loop roles self.m_Paths []).Nodup)
    (hi : i < (PickRandomEstablishedPath.loop roles self.m_Paths []).length) :
    Set.ncard {r : Nat | r < N ∧ self.PickRandomEstablishedPath roles r
        = some ((PickRandomEstablishedPath.loop roles self.m_Paths []).get ⟨i, hi⟩)}
      = N / (PickRandomEstablishedPath.loop roles self.m_Paths []).length
        + if i < N % (PickRandomEstablishedPath.loop roles self.m_Paths []).length then 1 else 0 := by
  have hpos : 0 < (PickRandomEstablishedPath.loop roles self.m_Paths []).length :=
    Nat.lt_of_le_of_lt (Nat.zero_le i) hi
  rw [← ncard_mod_eq N _ i hpos hi]
  congr 1
  ext r
  simp only [Set.mem_setOf_eq]
  refine and_congr_right (fun _ => ?_)
  rw [PickRandomEstablishedPath_eq, if_pos (Nat.pos_iff_ne_zero.mp hpos)]
  have hr : r % (PickRandomEstablishedPath.loop roles self.m_Paths []).length
      < (PickRandomEstablishedPath.loop roles self.m_Paths []).length := Nat.mod_lt _ hpos
  rw [List.getElem?_eq_getElem hr]
  constructor
  · intro h
    have h2 := Option.some.inj h
    have := (List.Nodup.get_inj_iff hnd (i := ⟨_, hr⟩) (j := ⟨i, hi⟩)).mp h2
    exact congrArg Fin.val this
  · intro h
    congr 1
    simp only [List.get_eq_getElem, h]

/-- The draws of `PickRandomEstablishedPath` over the vector its loop builds: it
returns null iff no stored path is
ready and supports any of `roles`; otherwise it returns a ready, role-supporting stored
path, taken at index `randint() % n` of the `n` eligible paths in map order; with the
eligible paths distinct, the path at index `i` is the result for `2^64 / n + 1` of the
`2^64` values of the draw when `i < 2^64 % n` and for `2^64 / n` of them otherwise. -/
theorem PickRandomEstablishedPath_over_loop (self : PathSet) (roles : PathRole) :
    (∀ randint, self.PickRandomEstablishedPath roles randint = none ↔
      ∀ e ∈ self.m_Paths, ¬ (e.2.IsReady = true ∧ e.2.SupportsAnyRoles roles = true)) ∧
    (∀ randint p, self.PickRandomEstablishedPath roles randint = some p →
      ∃ e ∈ self.m_Paths, e.2 = p ∧ e.2.IsReady = true ∧ e.2.SupportsAnyRoles roles = true) ∧
    (∀ i (hi : i < (PickRandomEstablishedPath.loop roles self.m_Paths []).length),
      (PickRandomEstablishedPath.loop roles self.m_Paths []).Nodup →
      Set.ncard {r : Nat | r < 2 ^ 64 ∧ self.PickRandomEstablishedPath roles r
          = some ((PickRandomEstablishedPath.loop roles self.m_Paths []).get ⟨i, hi⟩)}
        = 2 ^ 64 / (PickRandomEstablishedPath.loop roles self.m_Paths []).length
          + if i < 2 ^ 64 % (PickRandomEstablishedPath.loop roles self.m_Paths []).length
            then 1 else 0) := by
  have hest := PickRandomEstablishedPath_loop_eq roles self.m_Paths []
  rw [List.nil_append] at hest
  have hmem : ∀ p, p ∈ PickRandomEstablishedPath.loop roles self.m_Paths [] ↔
      ∃ e ∈ self.m_Paths, e.2 = p ∧ e.2.IsReady = true ∧ e.2.SupportsAnyRoles roles = true := by
    intro p
    rw [hest, List.mem_map]
    constructor
    · rintro ⟨e, he, rfl⟩
      obtain ⟨h1, h2⟩ := List.mem_filter.mp he
      have h3 : e.2.IsReady = true ∧ e.2.SupportsAnyRoles roles = true := by simpa using h2
      exact ⟨e, h1, rfl, h3⟩
    · rintro ⟨e, he, rfl, h1, h2⟩
      exact ⟨e, List.mem_filter.mpr ⟨he, by simp [h1, h2]⟩, rfl⟩
  refine ⟨?_, ?_, ?_⟩
  · intro randint
    rw [PickRandomEstablishedPath_eq]
    by_cases hsz : (PickRandomEstablishedPath.loop roles self.m_Paths []).length ≠ 0
    · rw [if_pos hsz]
      have hr : randint % (PickRandomEstablishedPath.loop roles self.m_Paths []).length
          < (PickRandomEstablishedPath.loop roles self.m_Paths []).length :=
        Nat.mod_lt _ (Nat.pos_of_ne_zero hsz)
      rw [List.getElem?_eq_getElem hr]
      constructor
      · intro h
        exact Option.noConfusion h
      · intro hall
        exfalso
        obtain ⟨e, he, _, h1, h2⟩ := (hmem _).mp (List.getElem_mem hr)
        exact hall e he ⟨h1, h2⟩
    · rw [if_neg hsz]
      refine ⟨fun _ e he hc => ?_, fun _ => rfl⟩
      have hnil : PickRandomEstablishedPath.loop roles self.m_Paths [] = [] :=
        List.length_eq_zero.mp (not_not.mp hsz)
      have := (hmem e.2).mpr ⟨e, he, rfl, hc.1, hc.2⟩
      rw [hnil] at this
      exact absurd this (List.not_mem_nil _)
  · intro randint p hp
    rw [PickRandomEstablishedPath_eq] at hp
    by_cases hsz : (PickRandomEstablishedPath.loop roles self.m_Paths []).length ≠ 0
    · rw [if_pos hsz] at hp
      exact (hmem p).mp (List.getElem?_mem hp)
    · rw [if_neg hsz] at hp
      exact Option.noConfusion hp
  · intro i hi hnd
    exact PickRandomEstablishedPath_draws self roles (2 ^ 64) i hnd hi

end PathSet
end path
end llarp
namespace llarp
namespace path
namespace PathSet

/-- The three example paths are distinct, as their receive ids are. -/
theorem Example_three_paths_nodup :
    (PickRandomEstablishedPath.loop 0
      (Example.mkSet 4 [Example.p80, Example.p40, Example.pOld1]).m_Paths []).Nodup := by
  have h : (List.map Path.RXID [Example.p80, Example.p40, Example.pOld1]).Nodup := by decide
  exact List.Nodup.of_map Path.RXID h

/-- C17 fails as stated: with three eligible paths the first one in map order is the
result for one more value of the 64-bit draw than the second one, as `2^64` is not a
multiple of 3. -/
theorem C17_counterexample :
    Set.ncard {r : Nat | r < 2 ^ 64 ∧
        (Example.mkSet 4 [Example.p80, Example.p40, Example.pOld1]).PickRandomEstablishedPath 0 r
          = some Example.p80} = 6148914691236517206 ∧
    Set.ncard {r : Nat | r < 2 ^ 64 ∧
        (Example.mkSet 4 [Example.p80, Example.p40, Example.pOld1]).PickRandomEstablishedPath 0 r
          = some Example.p40} = 6148914691236517205 ∧
    Set.ncard {r : Nat | r < 2 ^ 64 ∧
        (Example.mkSet 4 [Example.p80, Example.p40, Example.pOld1]).PickRandomEstablishedPath 0 r
          = some Example.p80} ≠
    Set.ncard {r : Nat | r < 2 ^ 64 ∧
        (Example.mkSet 4 [Example.p80, Example.p40, Example.pOld1]).PickRandomEstablishedPath 0 r
          = some Example.p40} := by
  have h0 := PickRandomEstablishedPath_draws
    (Example.mkSet 4 [Example.p80, Example.p40, Example.pOld1]) 0 (2 ^ 64) 0
    Example_three_paths_nodup (by decide)
  have h1 := PickRandomEstablishedPath_draws
    (Example.mkSet 4 [Example.p80, Example.p40, Example.pOld1]) 0 (2 ^ 64) 1
    Example_three_paths_nodup (by decide)
  have e0 : Set.ncard {r : Nat | r < 2 ^ 64 ∧
      (Example.mkSet 4 [Example.p80, Example.p40, Example.pOld1]).PickRandomEstablishedPath 0 r
        = some Example.p80} = 6148914691236517206 := h0.trans (by decide)
  have e1 : Set.ncard {r : Nat | r < 2 ^ 64 ∧
      (Example.mkSet 4 [Example.p80, Example.p40, Example.pOld1]).PickRandomEstablishedPath 0 r
        = some Example.p40} = 6148914691236517205 := h1.trans (by decide)
  refine ⟨e0, e1, ?_⟩
  rw [e0, e1]
  decide

end PathSet
end path
end llarp

namespace llarp
namespace RouterContact

/-! ## RouterContact nickname -/

theorem takeWhile_append_zeros (t : List (Fin 256)) (k : Nat) :
    List.takeWhile (fun b => decide (b ≠ 0)) (t ++ List.replicate k (0 : Fin 256))
      = List.takeWhile (fun b => decide (b ≠ 0)) t := by
  induction t with
  | nil =>
    cases k with
    | zero => rfl
    | succ k => simp [List.replicate_succ, List.takeWhile_cons]
  | cons a t ih =>
    by_cases ha : a = 0
    · simp [List.takeWhile_cons, ha]
    · simp only [List.cons_append, List.takeWhile_cons, ne_eq, ha, not_false_eq_true,
        decide_True, if_true, ih]

theorem Nick_SetNick_eq (r : RouterContact) (s : List (Fin 256)) :
    (r.SetNick s).Nick = List.takeWhile (fun b => decide (b ≠ 0)) (List.take NICKLEN s) := by
  unfold Nick SetNick
  exact takeWhile_append_zeros _ _

/-- C18 fails as stated against the methods as the spec describes them: for the
three-byte string `a`, zero, `b` the nickname read back is the single byte `a`, while
truncating to 32 bytes and trimming trailing zero bytes leaves all three bytes. -/
theorem C18_counterexample :
    (Example.rc0.SetNick Example.nulNick).Nick = [97] ∧
    truncate_trim Example.nulNick = [97, 0, 98] ∧
    (Example.rc0.SetNick Example.nulNick).Nick ≠ truncate_trim Example.nulNick := by
  decide

/-- C18, amended: `HasNick` holds iff the first byte of the nickname is non-zero; after
`SetNick(s)`, `Nick` is `s` truncated to `NICKLEN = 32` bytes and cut at its first
zero byte; when none of the first 32 bytes of `s` is zero this is `s` truncated to 32
bytes, which is also what truncating and trimming trailing zero bytes gives. -/
theorem C18_SetNick_then_Nick (r : RouterContact) (s : List (Fin 256)) :
    (r.HasNick = true ↔ r.nickname.val.head? ≠ some 0) ∧
    (r.SetNick s).Nick = List.takeWhile (fun b => decide (b ≠ 0)) (List.take NICKLEN s) ∧
    ((∀ b ∈ List.take NICKLEN s, b ≠ 0) →
      (r.SetNick s).Nick = List.take NICKLEN s ∧
      (r.SetNick s).Nick = truncate_trim s) := by
  refine ⟨by simp [HasNick], Nick_SetNick_eq r s, fun hnz => ?_⟩
  have h1 : (r.SetNick s).Nick = List.take NICKLEN s := by
    rw [Nick_SetNick_eq]
    apply List.takeWhile_eq_self_iff.mpr
    intro b hb
    simpa using hnz b hb
  refine ⟨h1, ?_⟩
  rw [h1]
  unfold truncate_trim trim_trailing_zero
  have hdrop : List.dropWhile (fun b => decide (b = 0)) (List.take NICKLEN s).reverse
      = (List.take NICKLEN s).reverse := by
    cases hrev : (List.take NICKLEN s).reverse with
    | nil => rfl
    | cons a l =>
      have ha : a ∈ List.take NICKLEN s := by
        rw [← List.mem_reverse, hrev]
        exact List.mem_cons_self _ _
      have : a ≠ 0 := hnz a ha
      simp [List.dropWhile_cons, this]
  rw [hdrop, List.reverse_reverse]

set_option maxRecDepth 8192 in
/-- Witness of C18 (amended): the 46-byte nickname of the spec's scenario has no zero
byte, and the nickname read back is its first 32 bytes. -/
theorem C18_SetNick_then_Nick_witness :
    (∀ b ∈ List.take NICKLEN Example.longNick, b ≠ 0) ∧
    (Example.rc0.SetNick Example.longNick).Nick = List.take 32 Example.longNick ∧
    (Example.rc0.SetNick Example.longNick).Nick.length = 32 ∧
    (Example.rc0.SetNick Example.longNick).HasNick = true :=
  ⟨by decide,
   ((C18_SetNick_then_Nick Example.rc0 Example.longNick).2.2 (by decide)).1,
   by decide, by decide⟩

end RouterContact
end llarp


namespace llarp

/-! ## The dictionary reader -/

/-- A successful `bencode_read_string` moves the cursor forward. -/
theorem bencode_read_string_shorter (buffer : llarp_buffer_t) (s : List Char)
    (rest : llarp_buffer_t) (h : bencode_read_string buffer = some (s, rest)) :
    rest.length < buffer.length := by
  unfold bencode_read_string at h
  by_cases hd : (List.takeWhile Char.isDigit buffer).length = 0
  · simp [hd] at h
  · simp only [hd, if_false] at h
    have hsplit := List.takeWhile_append_dropWhile Char.isDigit buffer
    cases hdrop : List.dropWhile Char.isDigit buffer with
    | nil => rw [hdrop] at h; exact Option.noConfusion h
    | cons c body =>
      rw [hdrop] at h hsplit
      by_cases hc : c ≠ ':'
      · simp [hc] at h
      · simp only [hc, if_false] at h
        split at h
        · exact Option.noConfusion h
        · have h2 := Option.some.inj h
          have h3 : rest = List.drop _ body := (congrArg (fun x => x.2) h2).symm
          have hlen := congrArg List.length hsplit
          rw [List.length_append, List.length_cons] at hlen
          rw [h3, List.length_drop]
          omega

/-- A buffer on which `bencode_read_string` succeeds starts with a decimal digit, so not
with the closing `e` of a dictionary. -/
theorem bencode_read_string_head (buffer : llarp_buffer_t) (s : List Char)
    (rest : llarp_buffer_t) (h : bencode_read_string buffer = some (s, rest)) :
    ∃ c tl, buffer = c :: tl ∧ c ≠ 'e' := by
  unfold bencode_read_string at h
  cases buffer with
  | nil => simp at h
  | cons c tl =>
    refine ⟨c, tl, rfl, ?_⟩
    intro hc
    subst hc
    have : List.takeWhile Char.isDigit ('e' :: tl) = [] := by
      rw [List.takeWhile_cons]
      have : Char.isDigit 'e' = false := by decide
      simp [this]
    simp [this] at h

namespace routing

/-! ## The message holder -/

theorem MessageHolder_get_set_self {σ : Type} (h : MessageHolder σ) (slot : Slot)
    (m : IMessage σ) : (h.set slot m).get slot = m := by
  cases slot <;> rfl

theorem MessageHolder_get_set_other {σ : Type} (h : MessageHolder σ) (slot s : Slot)
    (m : IMessage σ) (hne : s ≠ slot) : (h.set slot m).get s = h.get s := by
  cases slot <;> cases s <;> first | rfl | exact absurd rfl hne

theorem MessageHolder_ext_get {σ : Type} (h h' : MessageHolder σ)
    (hget : ∀ s, h.get s = h'.get s) : h = h' := by
  cases h
  cases h'
  have hD := hget Slot.D
  have hL := hget Slot.L
  have hM := hget Slot.M
  have hP := hget Slot.P
  have hT := hget Slot.T
  have hH := hget Slot.H
  have hI := hget Slot.I
  have hG := hget Slot.G
  have hJ := hget Slot.J
  have hO := hget Slot.O
  have hU := hget Slot.U
  have hC := hget Slot.C
  simp only [MessageHolder.get] at hD hL hM hP hT hH hI hG hJ hO hU hC
  simp only [hD, hL, hM, hP, hT, hH, hI, hG, hJ, hO, hU, hC]

theorem Slot_variant_injective (s s' : Slot) (h : s.variant = s'.variant) : s = s' := by
  cases s <;> cases s' <;> first | rfl | exact absurd h (by decide)

namespace InboundMessageParser

/-! ## The switch of the visitor against the tag table -/

/-- The switch selects, for a tag of the spec's table, the holder member declared with
the class the table names. -/
theorem switch_ourKey_of_table (t : Char) (v : Variant) (msg : Option Slot)
    (h : (t, v) ∈ tagTable) :
    ∃ slot, switch_ourKey t msg = some slot ∧ slot.variant = v := by
  simp only [tagTable, List.mem_cons, Prod.mk.injEq, List.mem_singleton, List.mem_nil_iff,
    or_false] at h
  rcases h with h | h | h | h | h | h | h | h | h | h | h | h
  · obtain ⟨rfl, rfl⟩ := h
    exact ⟨Slot.D, rfl, rfl⟩
  · obtain ⟨rfl, rfl⟩ := h
    exact ⟨Slot.L, rfl, rfl⟩
  · obtain ⟨rfl, rfl⟩ := h
    exact ⟨Slot.M, rfl, rfl⟩
  · obtain ⟨rfl, rfl⟩ := h
    exact ⟨Slot.P, rfl, rfl⟩
  · obtain ⟨rfl, rfl⟩ := h
    exact ⟨Slot.T, rfl, rfl⟩
  · obtain ⟨rfl, rfl⟩ := h
    exact ⟨Slot.H, rfl, rfl⟩
  · obtain ⟨rfl, rfl⟩ := h
    exact ⟨Slot.I, rfl, rfl⟩
  · obtain ⟨rfl, rfl⟩ := h
    exact ⟨Slot.G, rfl, rfl⟩
  · obtain ⟨rfl, rfl⟩ := h
    exact ⟨Slot.J, rfl, rfl⟩
  · obtain ⟨rfl, rfl⟩ := h
    exact ⟨Slot.O, rfl, rfl⟩
  · obtain ⟨rfl, rfl⟩ := h
    exact ⟨Slot.U, rfl, rfl⟩
  · obtain ⟨rfl, rfl⟩ := h
    exact ⟨Slot.C, rfl, rfl⟩

/-- The switch leaves `msg` as it is exactly for the bytes that are no tag of the table. -/
theorem switch_ourKey_not_in_table (t : Char) (msg : Option Slot)
    (h : ∀ v, (t, v) ∉ tagTable) : switch_ourKey t msg = msg := by
  have hD : t ≠ 'D' := fun hc => h Variant.DataDiscardMessage (by rw [hc]; decide)
  have hL : t ≠ 'L' := fun hc => h Variant.PathLatencyMessage (by rw [hc]; decide)
  have hM : t ≠ 'M' := fun hc => h Variant.DHTMessage (by rw [hc]; decide)
  have hP : t ≠ 'P' := fun hc => h Variant.PathConfirmMessage (by rw [hc]; decide)
  have hT : t ≠ 'T' := fun hc => h Variant.PathTransferMessage (by rw [hc]; decide)
  have hH : t ≠ 'H' := fun hc => h Variant.ProtocolFrame (by rw [hc]; decide)
  have hI : t ≠ 'I' := fun hc => h Variant.TransferTrafficMessage (by rw [hc]; decide)
  have hG : t ≠ 'G' := fun hc => h Variant.GrantExitMessage (by rw [hc]; decide)
  have hJ : t ≠ 'J' := fun hc => h Variant.RejectExitMessage (by rw [hc]; decide)
  have hO : t ≠ 'O' := fun hc => h Variant.ObtainExitMessage (by rw [hc]; decide)
  have hU : t ≠ 'U' := fun hc => h Variant.UpdateExitMessage (by rw [hc]; decide)
  have hC : t ≠ 'C' := fun hc => h Variant.CloseExitMessage (by rw [hc]; decide)
  simp only [switch_ourKey, hD, hL, hM, hP, hT, hH, hI, hG, hJ, hO, hU, hC, if_false]

end InboundMessageParser
end routing
end llarp
namespace llarp
namespace routing
namespace InboundMessageParser

/-! ## The visitor and the reader loop inside ParseMessageBuffer -/

/-- One call of the visitor from a state reached inside `ParseMessageBuffer`: it never
dereferences a null `msg`, it only moves the cursor forward, it stays within the
reached states, it returns true only with `msg` set, and a set `msg` is kept. -/
theorem visit_spec {σ η ρ : Type} (ops : Methods σ η ρ) (H0 : MessageHolder σ)
    (st : InboundMessageParser σ × List (Call σ)) (buffer : llarp_buffer_t)
    (key : Option (List Char)) (hR : Reach H0 st)
    (hpre : st.1.msg = none → st.1.firstKey = true) :
    ∃ b st' buffer', visit ops st buffer key = Except.ok (b, st', buffer') ∧
      buffer'.length ≤ buffer.length ∧ Reach H0 st' ∧
      (b = true → st'.1.msg ≠ none) ∧
      (∀ slot, st.1.msg = some slot → st'.1.msg = some slot) := by
  cases key with
  | none =>
    by_cases hfk : st.1.firstKey = true
    · exact ⟨false, st, buffer, by simp [visit, hfk], Nat.le_refl _, hR,
        fun h => Bool.noConfusion h, fun _ h => h⟩
    · refine ⟨true, st, buffer, by simp [visit, hfk], Nat.le_refl _, hR, fun _ hm => ?_,
        fun _ h => h⟩
      exact hfk (hpre hm)
  | some k =>
    by_cases hfk : st.1.firstKey = true
    · have hmsg : st.1.msg = none := by
        cases hm : st.1.msg with
        | none => rfl
        | some slot =>
          have := (hR.2 slot hm).1
          rw [hfk] at this
          exact Bool.noConfusion this
      by_cases hk : k = ['A']
      · cases hread : bencode_read_string buffer with
        | none =>
          exact ⟨false, st, buffer, by simp [visit, hfk, hk, hread], Nat.le_refl _, hR,
            fun h => Bool.noConfusion h, fun _ h => h⟩
        | some p =>
          obtain ⟨strbuf, buffer1⟩ := p
          have hshort := bencode_read_string_shorter buffer strbuf buffer1 hread
          by_cases hlen : strbuf.length ≠ 1
          · exact ⟨false, st, buffer1, by simp [visit, hfk, hk, hread, hlen],
              Nat.le_of_lt hshort, hR, fun h => Bool.noConfusion h, fun _ h => h⟩
          · refine ⟨(switch_ourKey (strbuf.headD (Char.ofNat 0)) st.1.msg).isSome,
              ({ st.1 with ourKey := strbuf.headD (Char.ofNat 0),
                           msg := switch_ourKey (strbuf.headD (Char.ofNat 0)) st.1.msg,
                           firstKey := false }, st.2), buffer1, ?_, Nat.le_of_lt hshort, ?_, ?_, ?_⟩
            · simp only [visit, hfk, hk, hread, hlen, if_true, if_false, decide_True,
                Bool.not_true, Bool.false_eq_true]
            · obtain ⟨hc, hh⟩ := hR.1 hmsg
              exact ⟨fun _ => ⟨hc, hh⟩, fun slot _ => ⟨rfl, fun c hcm => by
                rw [hc] at hcm; exact absurd hcm (List.not_mem_nil _), fun s _ => by
                show st.1.m_Holder.get s = H0.get s
                rw [hh]⟩⟩
            · intro hb hnone
              have hnone' : switch_ourKey (strbuf.headD (Char.ofNat 0)) st.1.msg = none := hnone
              rw [hnone'] at hb
              exact Bool.noConfusion hb
            · intro slot hs
              rw [hmsg] at hs
              exact Option.noConfusion hs
      · exact ⟨false, st, buffer, by simp [visit, hfk, hk], Nat.le_refl _, hR,
          fun h => Bool.noConfusion h, fun _ h => h⟩
    · cases hm : st.1.msg with
      | none => exact absurd (hpre hm) hfk
      | some slot =>
        obtain ⟨_, hcalls, hframe⟩ := hR.2 slot hm
        have hfk' : st.1.firstKey = false := by
          cases hc : st.1.firstKey
          · rfl
          · exact absurd hc hfk
        refine ⟨(ops.DecodeKey slot (st.1.m_Holder.get slot) k buffer).1,
          ({ st.1 with m_Holder := (st.1.m_Holder.set slot
              (ops.DecodeKey slot (st.1.m_Holder.get slot) k buffer).2.1) },
            st.2 ++ [Call.DecodeKey slot k]),
          List.drop (ops.DecodeKey slot (st.1.m_Holder.get slot) k buffer).2.2 buffer,
          ?_, ?_, ?_, ?_, ?_⟩
        · simp only [visit, hfk', hm, Bool.false_eq_true, if_false]
        · rw [List.length_drop]
          exact Nat.sub_le _ _
        · refine ⟨fun hnone => ?_, fun slot' hs' => ?_⟩
          · have hnone' : st.1.msg = none := hnone
            rw [hm] at hnone'
            exact Option.noConfusion hnone'
          · have hs'' : st.1.msg = some slot' := hs'
            rw [hm] at hs''
            have hss : slot = slot' := Option.some.inj hs''
            subst hss
            refine ⟨hfk', fun c hc => ?_, fun s hs => ?_⟩
            · rcases List.mem_append.mp hc with hc | hc
              · exact hcalls c hc
              · exact ⟨k, by simpa using hc⟩
            · show (st.1.m_Holder.set slot _).get s = H0.get s
              rw [MessageHolder_get_set_other _ _ _ _ hs]
              exact hframe s hs
        · intro _ hnone
          have hnone' : st.1.msg = none := hnone
          rw [hm] at hnone'
          exact Option.noConfusion hnone'
        · intro slot' hs'
          exact hm.trans hs'

/-- The reader loop run on the visitor from a state reached inside
`ParseMessageBuffer`, with a step budget above the number of bytes left: it ends
without a fault, in a reached state, with `msg` set when it succeeds. -/
theorem loop_visit_spec {σ η ρ : Type} (ops : Methods σ η ρ) (H0 : MessageHolder σ) :
    ∀ (fuel : Nat) (st : InboundMessageParser σ × List (Call σ)) (buffer : llarp_buffer_t),
      buffer.length < fuel → Reach H0 st → (st.1.msg = none → st.1.firstKey = true) →
      ∃ b st' buffer', bencode_read_dict.loop (visit ops) fuel st buffer
          = Except.ok (b, st', buffer') ∧
        Reach H0 st' ∧ (b = true → st'.1.msg ≠ none) ∧
        (∀ slot, st.1.msg = some slot → st'.1.msg = some slot) := by
  intro fuel
  induction fuel with
  | zero =>
    intro st buffer hfuel
    exact absurd hfuel (Nat.not_lt_zero _)
  | succ fuel ih =>
    intro st buffer hfuel hR hpre
    cases buffer with
    | nil =>
      exact ⟨false, st, [], rfl, hR, fun h => Bool.noConfusion h, fun _ h => h⟩
    | cons c rest =>
      by_cases hc : c = 'e'
      · obtain ⟨b, st', buffer', hv, _, hR', hb, hmono⟩ :=
          visit_spec ops H0 st rest none hR hpre
        exact ⟨b, st', buffer', by simp only [bencode_read_dict.loop, hc, if_true, hv],
          hR', hb, hmono⟩
      · cases hread : bencode_read_string (c :: rest) with
        | none =>
          exact ⟨false, st, c :: rest,
            by simp only [bencode_read_dict.loop, hc, if_false, hread],
            hR, fun h => Bool.noConfusion h, fun _ h => h⟩
        | some p =>
          obtain ⟨key, buffer1⟩ := p
          have hshort := bencode_read_string_shorter (c :: rest) key buffer1 hread
          obtain ⟨b, st1, buffer2, hv, hlen, hR1, hb1, hmono1⟩ :=
            visit_spec ops H0 st buffer1 (some key) hR hpre
          cases b with
          | false =>
            exact ⟨false, st1, buffer2,
              by simp only [bencode_read_dict.loop, hc, if_false, hread, hv,
                Bool.false_eq_true],
              hR1, fun h => Bool.noConfusion h, hmono1⟩
          | true =>
            have hfuel2 : buffer2.length < fuel := by
              have : (c :: rest).length < fuel + 1 := hfuel
              omega
            obtain ⟨b', st', buffer', hl, hR', hb', hmono'⟩ :=
              ih st1 buffer2 hfuel2 hR1 (fun hnone => absurd hnone (hb1 rfl))
            exact ⟨b', st', buffer',
              by simp only [bencode_read_dict.loop, hc, if_false, hread, hv, if_true, hl],
              hR', hb', fun slot hs => hmono' slot (hmono1 slot hs)⟩

/-- The dictionary read inside `ParseMessageBuffer` ends without a fault, in a state
reached from the holder at entry, and with `msg` set when it succeeds. -/
theorem readDict_spec {σ η ρ : Type} (ops : Methods σ η ρ) (self : InboundMessageParser σ)
    (buf : llarp_buffer_t) :
    ∃ b st buffer', readDict ops self buf = Except.ok (b, st, buffer') ∧
      Reach self.m_Holder st ∧ (b = true → st.1.msg ≠ none) := by
  have hR0 : Reach self.m_Holder
      (({ self with msg := none, firstKey := true } : InboundMessageParser σ), []) :=
    ⟨fun _ => ⟨rfl, rfl⟩, fun slot hs => Option.noConfusion hs⟩
  unfold readDict bencode_read_dict
  cases buf with
  | nil => exact ⟨false, _, [], rfl, hR0, fun h => Bool.noConfusion h⟩
  | cons c rest =>
    by_cases hc : c = 'd'
    · obtain ⟨b, st', buffer', hl, hR', hb', _⟩ :=
        loop_visit_spec ops self.m_Holder (rest.length + 1)
          (({ self with msg := none, firstKey := true } : InboundMessageParser σ), []) rest
          (Nat.lt_succ_self _) hR0 (fun _ => rfl)
      exact ⟨b, st', buffer', by simp only [hc, if_true, hl], hR', hb'⟩
    · exact ⟨false, _, c :: rest, by simp only [hc, if_false], hR0,
        fun h => Bool.noConfusion h⟩

end InboundMessageParser
end routing
end llarp

namespace llarp
namespace routing
namespace InboundMessageParser

/-! ## ParseMessageBuffer -/

theorem ParseMessageBuffer_of_read_false_none {σ η ρ : Type} (ops : Methods σ η ρ)
    (self : InboundMessageParser σ) (buf : llarp_buffer_t) (h : η) (from_ : PathID_t) (r : ρ)
    (st : InboundMessageParser σ × List (Call σ)) (rest : llarp_buffer_t)
    (hread : readDict ops self buf = Except.ok (false, st, rest)) (hm : st.1.msg = none) :
    ParseMessageBuffer ops self buf h from_ r
      = Except.ok (false, { st.1 with msg := none }, st.2) := by
  simp only [ParseMessageBuffer, hread, cleanup, hm, Bool.false_eq_true, if_false]

theorem ParseMessageBuffer_of_read_false_some {σ η ρ : Type} (ops : Methods σ η ρ)
    (self : InboundMessageParser σ) (buf : llarp_buffer_t) (h : η) (from_ : PathID_t) (r : ρ)
    (st : InboundMessageParser σ × List (Call σ)) (rest : llarp_buffer_t) (slot : Slot)
    (hread : readDict ops self buf = Except.ok (false, st, rest))
    (hm : st.1.msg = some slot) :
    ParseMessageBuffer ops self buf h from_ r
      = Except.ok (false,
          { st.1 with
            m_Holder := st.1.m_Holder.set slot (ops.Clear slot (st.1.m_Holder.get slot)),
            msg := none },
          st.2 ++ [Call.Clear slot]) := by
  simp only [ParseMessageBuffer, hread, cleanup, hm, Bool.false_eq_true, if_false]

theorem ParseMessageBuffer_of_read_true {σ η ρ : Type} (ops : Methods σ η ρ)
    (self : InboundMessageParser σ) (buf : llarp_buffer_t) (h : η) (from_ : PathID_t) (r : ρ)
    (st : InboundMessageParser σ × List (Call σ)) (rest : llarp_buffer_t) (slot : Slot)
    (hread : readDict ops self buf = Except.ok (true, st, rest))
    (hm : st.1.msg = some slot) :
    ParseMessageBuffer ops self buf h from_ r
      = Except.ok (ops.HandleMessage slot { st.1.m_Holder.get slot with from_ := from_ } h r,
          { st.1 with
            m_Holder := (st.1.m_Holder.set slot
              { st.1.m_Holder.get slot with from_ := from_ }).set slot
                (ops.Clear slot { st.1.m_Holder.get slot with from_ := from_ }),
            msg := none },
          st.2 ++ [Call.HandleMessage slot { st.1.m_Holder.get slot with from_ := from_ },
            Call.Clear slot]) := by
  simp only [ParseMessageBuffer, hread, cleanup, hm, if_true, MessageHolder_get_set_self,
    List.append_assoc, List.cons_append, List.nil_append]

theorem countP_isHandleMessage_decodes {σ : Type} (slot : Slot) (l : List (Call σ))
    (h : ∀ c ∈ l, ∃ k, c = Call.DecodeKey slot k) : List.countP isHandleMessage l = 0 := by
  rw [List.countP_eq_zero]
  intro c hc
  obtain ⟨k, rfl⟩ := h c hc
  simp [isHandleMessage]

/-- The result and the calls of `ParseMessageBuffer` in terms of the dictionary read: it
returns, and its result is true iff the dictionary read
succeeds and `HandleMessage` of the selected variant, called on the message whose
`from` is the supplied one, returns true; `HandleMessage` is called at most once, only
when the read succeeded, after every `DecodeKey`, on a message with `from` set, and its
return value is then the overall result. -/
theorem ParseMessageBuffer_result_of_read {σ η ρ : Type} (ops : Methods σ η ρ)
    (self : InboundMessageParser σ) (buf : llarp_buffer_t) (h : η) (from_ : PathID_t) (r : ρ) :
    ∃ res p calls, ParseMessageBuffer ops self buf h from_ r = Except.ok (res, p, calls) ∧
      (res = true ↔ ∃ st rest slot, readDict ops self buf = Except.ok (true, st, rest) ∧
        st.1.msg = some slot ∧
        ops.HandleMessage slot { st.1.m_Holder.get slot with from_ := from_ } h r = true) ∧
      List.countP isHandleMessage calls ≤ 1 ∧
      (∀ slot m, Call.HandleMessage slot m ∈ calls →
        m.from_ = from_ ∧ res = ops.HandleMessage slot m h r ∧
        (∃ st rest, readDict ops self buf = Except.ok (true, st, rest)) ∧
        ∃ pre, calls = pre ++ [Call.HandleMessage slot m, Call.Clear slot] ∧
          ∀ c ∈ pre, ∃ k, c = Call.DecodeKey slot k) ∧
      ((∃ st rest, readDict ops self buf = Except.ok (true, st, rest)) →
        ∃ slot m, Call.HandleMessage slot m ∈ calls) := by
  obtain ⟨b, st, rest, hread, hR, hb⟩ := readDict_spec ops self buf
  cases b with
  | false =>
    have hnot : ¬ ∃ st' rest', readDict ops self buf = Except.ok (true, st', rest') := by
      rintro ⟨st', rest', h'⟩
      rw [hread] at h'
      have := congrArg (fun x => x.1) (Except.ok.inj h')
      exact Bool.noConfusion this
    cases hm : st.1.msg with
    | none =>
      refine ⟨false, _, st.2,
        ParseMessageBuffer_of_read_false_none ops self buf h from_ r st rest hread hm,
        ?_, ?_, ?_, ?_⟩
      · exact ⟨fun hc => Bool.noConfusion hc, fun ⟨st', rest', _, h', _⟩ => absurd ⟨st', rest', h'⟩ hnot⟩
      · rw [(hR.1 hm).1]
        exact Nat.zero_le _
      · intro slot m hmem
        rw [(hR.1 hm).1] at hmem
        exact absurd hmem (List.not_mem_nil _)
      · intro hex
        exact absurd hex hnot
    | some slot =>
      obtain ⟨_, hcalls, _⟩ := hR.2 slot hm
      refine ⟨false, _, st.2 ++ [Call.Clear slot],
        ParseMessageBuffer_of_read_false_some ops self buf h from_ r st rest slot hread hm,
        ?_, ?_, ?_, ?_⟩
      · exact ⟨fun hc => Bool.noConfusion hc, fun ⟨st', rest', _, h', _⟩ => absurd ⟨st', rest', h'⟩ hnot⟩
      · rw [List.countP_append, countP_isHandleMessage_decodes slot st.2 hcalls]
        simp [isHandleMessage]
      · intro slot' m hmem
        exfalso
        rcases List.mem_append.mp hmem with hmem | hmem
        · obtain ⟨k, hk⟩ := hcalls _ hmem
          exact Call.noConfusion hk
        · simp at hmem
      · intro hex
        exact absurd hex hnot
  | true =>
    cases hm : st.1.msg with
    | none => exact absurd hm (hb rfl)
    | some slot =>
      obtain ⟨_, hcalls, _⟩ := hR.2 slot hm
      refine ⟨_, _, _,
        ParseMessageBuffer_of_read_true ops self buf h from_ r st rest slot hread hm,
        ?_, ?_, ?_, ?_⟩
      · constructor
        · intro hres
          exact ⟨st, rest, slot, hread, hm, hres⟩
        · rintro ⟨st', rest', slot', h', hm', hres⟩
          rw [hread] at h'
          have hst : st = st' := congrArg (fun x => x.2.1) (Except.ok.inj h')
          subst hst
          rw [hm] at hm'
          have hs : slot = slot' := Option.some.inj hm'
          subst hs
          exact hres
      · rw [List.countP_append, countP_isHandleMessage_decodes slot st.2 hcalls]
        simp [isHandleMessage, List.countP_cons]
      · intro slot' m hmem
        rcases List.mem_append.mp hmem with hmem | hmem
        · obtain ⟨k, hk⟩ := hcalls _ hmem
          exact Call.noConfusion hk
        · have hcase : Call.HandleMessage slot' m
              = Call.HandleMessage slot { st.1.m_Holder.get slot with from_ := from_ } := by
            rcases List.mem_cons.mp hmem with h1 | h1
            · exact h1
            · simp at h1
          have hslot : slot' = slot := by injection hcase
          have hmsg : m = { st.1.m_Holder.get slot with from_ := from_ } := by injection hcase
          subst hslot
          subst hmsg
          exact ⟨rfl, rfl, ⟨st, rest, hread⟩, st.2, rfl, hcalls⟩
      · intro _
        exact ⟨slot, _, List.mem_append_right _ (List.mem_cons_self _ _)⟩

/-- For every parser state and buffer `ParseMessageBuffer` returns a result: no null
`msg` is dereferenced and the reader's step budget is never exhausted. -/
theorem ParseMessageBuffer_returns {σ η ρ : Type} (ops : Methods σ η ρ)
    (self : InboundMessageParser σ) (buf : llarp_buffer_t) (h : η) (from_ : PathID_t) (r : ρ) :
    ∃ x, ParseMessageBuffer ops self buf h from_ r = Except.ok x := by
  obtain ⟨b, st, rest, hread, _, hb⟩ := readDict_spec ops self buf
  cases b with
  | false =>
    cases hm : st.1.msg with
    | none =>
      exact ⟨_, ParseMessageBuffer_of_read_false_none ops self buf h from_ r st rest hread hm⟩
    | some slot =>
      exact ⟨_, ParseMessageBuffer_of_read_false_some ops self buf h from_ r st rest slot
        hread hm⟩
  | true =>
    cases hm : st.1.msg with
    | none => exact absurd hm (hb rfl)
    | some slot =>
      exact ⟨_, ParseMessageBuffer_of_read_true ops self buf h from_ r st rest slot hread hm⟩

/-- C19: within `ParseMessageBuffer` the pointer `msg` is never dereferenced while null:
the call returns a result for every parser state and buffer (so neither the visitor's
`msg->DecodeKey` nor `msg->from`, `msg->HandleMessage` meets a null `msg`), and whenever
the dictionary read returns true `msg` is non-null. -/
theorem C19_msg_never_null_when_dereferenced {σ η ρ : Type} (ops : Methods σ η ρ)
    (self : InboundMessageParser σ) (buf : llarp_buffer_t) (h : η) (from_ : PathID_t) (r : ρ) :
    (∃ x, ParseMessageBuffer ops self buf h from_ r = Except.ok x) ∧
    (∃ y, readDict ops self buf = Except.ok y) ∧
    (∀ st rest, readDict ops self buf = Except.ok (true, st, rest) → st.1.msg.isSome = true) := by
  obtain ⟨b, st, rest, hread, hR, hb⟩ := readDict_spec ops self buf
  refine ⟨ParseMessageBuffer_returns ops self buf h from_ r, ⟨_, hread⟩, ?_⟩
  intro st' rest' h'
  rw [hread] at h'
  have hb' : b = true := congrArg (fun x => x.1) (Except.ok.inj h')
  have hst : st = st' := congrArg (fun x => x.2.1) (Except.ok.inj h')
  subst hst
  cases hm : st.1.msg with
  | none => exact absurd hm (hb hb')
  | some slot => rfl

/-- Witness of C19: the read of `d1:A1:P1:x2:hie` returns true with `msg` pointing at
member `P`; the empty dictionary, an unknown tag and a first key other than `A` all
return a result as well. -/
theorem C19_msg_never_null_when_dereferenced_witness :
    ((readDict Example.ops (new Example.holder0) Example.bufP).toOption.map
        (fun y => (y.1, y.2.1.1.msg)) = some (true, some Slot.P)) ∧
    (∃ x, ParseMessageBuffer Example.ops (new Example.holder0) Example.bufEmpty ()
        Example.fromId () = Except.ok x) ∧
    (∃ x, ParseMessageBuffer Example.ops (new Example.holder0) Example.bufZ ()
        Example.fromId () = Except.ok x) ∧
    (∃ x, ParseMessageBuffer Example.ops (new Example.holder0) Example.bufB ()
        Example.fromId () = Except.ok x) :=
  ⟨rfl,
   (C19_msg_never_null_when_dereferenced Example.ops (new Example.holder0) Example.bufEmpty ()
      Example.fromId ()).1,
   (C19_msg_never_null_when_dereferenced Example.ops (new Example.holder0) Example.bufZ ()
      Example.fromId ()).1,
   (C19_msg_never_null_when_dereferenced Example.ops (new Example.holder0) Example.bufB ()
      Example.fromId ()).1⟩

end InboundMessageParser
end routing
end llarp

namespace llarp
namespace routing
namespace InboundMessageParser

/-! ## The first key/value pair -/

/-- One iteration of the reader loop on a buffer that starts with a key. -/
theorem loop_of_read_key {S : Type}
    (sink : S → llarp_buffer_t → Option (List Char) → Except Fault (Bool × S × llarp_buffer_t))
    (fuel : Nat) (s : S) (buffer : llarp_buffer_t) (key : List Char) (buffer1 : llarp_buffer_t)
    (hread : bencode_read_string buffer = some (key, buffer1)) :
    bencode_read_dict.loop sink (fuel + 1) s buffer
      = match sink s buffer1 (some key) with
        | Except.error f => Except.error f
        | Except.ok (ok, s1, buffer2) =>
          if ok then bencode_read_dict.loop sink fuel s1 buffer2
          else Except.ok (false, s1, buffer2) := by
  obtain ⟨c, tl, rfl, hc⟩ := bencode_read_string_head buffer key buffer1 hread
  simp only [bencode_read_dict.loop, hc, if_false, hread]

/-- The visitor on a first pair that is not acceptable: it returns false, makes no call
and leaves `msg` null and the holder as it is. -/
theorem visit_bad_first {σ η ρ : Type} (ops : Methods σ η ρ)
    (st : InboundMessageParser σ × List (Call σ)) (buffer : llarp_buffer_t) (k : List Char)
    (hfk : st.1.firstKey = true) (hmsg : st.1.msg = none) (hbad : ¬ GoodFirst k buffer) :
    ∃ st' buffer', visit ops st buffer (some k) = Except.ok (false, st', buffer') ∧
      st'.2 = st.2 ∧ st'.1.m_Holder = st.1.m_Holder ∧ st'.1.msg = none := by
  by_cases hk : k = ['A']
  · cases hread : bencode_read_string buffer with
    | none => exact ⟨st, buffer, by simp [visit, hfk, hk, hread], rfl, rfl, hmsg⟩
    | some p =>
      obtain ⟨strbuf, buffer1⟩ := p
      by_cases hlen : strbuf.length ≠ 1
      · exact ⟨st, buffer1, by simp [visit, hfk, hk, hread, hlen], rfl, rfl, hmsg⟩
      · have hlen1 : strbuf.length = 1 := not_not.mp hlen
        obtain ⟨t, ht⟩ := List.length_eq_one.mp hlen1
        subst ht
        have hnot : ∀ v, (t, v) ∉ tagTable := fun v hv => hbad ⟨hk, t, buffer1, v, hread, hv⟩
        have hsw : switch_ourKey t st.1.msg = none := by
          rw [switch_ourKey_not_in_table t st.1.msg hnot, hmsg]
        refine ⟨({ st.1 with ourKey := t, msg := none, firstKey := false }, st.2), buffer1,
          ?_, rfl, rfl, rfl⟩
        simp only [visit, hfk, hk, hread, hlen, if_true, if_false, decide_True, Bool.not_true,
          Bool.false_eq_true, List.headD_cons, hsw, Option.isSome_none]
  · exact ⟨st, buffer, by simp [visit, hfk, hk], rfl, rfl, hmsg⟩

/-- C13: when the first key/value pair of the dictionary is not the key `A` with a
one-byte value that is a tag of the table, the visitor returns false on that pair, and
`ParseMessageBuffer` returns false having made no call on any message object
(no `DecodeKey`, no `HandleMessage`), with the holder unchanged. -/
theorem C13_bad_first_pair_fails {σ η ρ : Type} (ops : Methods σ η ρ)
    (self : InboundMessageParser σ) (b1 b2 : llarp_buffer_t) (k : List Char)
    (h : η) (from_ : PathID_t) (r : ρ)
    (hkey : bencode_read_string b1 = some (k, b2)) (hbad : ¬ GoodFirst k b2) :
    (∃ st' buffer',
      visit ops (({ self with msg := none, firstKey := true } : InboundMessageParser σ), [])
        b2 (some k) = Except.ok (false, st', buffer')) ∧
    ∃ p, ParseMessageBuffer ops self ('d' :: b1) h from_ r = Except.ok (false, p, []) ∧
      p.m_Holder = self.m_Holder ∧ p.msg = none := by
  obtain ⟨st', buffer', hv, hcalls, hholder, hmsg⟩ :=
    visit_bad_first ops
      (({ self with msg := none, firstKey := true } : InboundMessageParser σ), [])
      b2 k rfl rfl hbad
  refine ⟨⟨st', buffer', hv⟩, ?_⟩
  have hread : readDict ops self ('d' :: b1) = Except.ok (false, st', buffer') := by
    simp only [readDict, bencode_read_dict, if_true]
    rw [loop_of_read_key (visit ops) b1.length _ b1 k b2 hkey, hv]
    simp
  refine ⟨{ st'.1 with msg := none }, ?_, hholder, rfl⟩
  have := ParseMessageBuffer_of_read_false_none ops self ('d' :: b1) h from_ r st' buffer'
    hread hmsg
  rw [this, hcalls]

/-- Witness of C13: the dictionaries `d1:B1:Pe` (first key `B`) and `d1:A1:Ze` (unknown
tag `Z`) have a first pair that is not acceptable. -/
theorem C13_bad_first_pair_fails_witness :
    (bencode_read_string Example.bufB.tail = some (['B'], ['1', ':', 'P', 'e']) ∧
      ¬ GoodFirst ['B'] ['1', ':', 'P', 'e']) ∧
    (∃ p, ParseMessageBuffer Example.ops (new Example.holder0) Example.bufB ()
        Example.fromId () = Except.ok (false, p, [])) ∧
    (∃ p, ParseMessageBuffer Example.ops (new Example.holder0) Example.bufZ ()
        Example.fromId () = Except.ok (false, p, [])) := by
  have hB : ¬ GoodFirst ['B'] ['1', ':', 'P', 'e'] := fun hg => by
    have := hg.1
    exact absurd this (by decide)
  have hZ : ¬ GoodFirst ['A'] ['1', ':', 'Z', 'e'] := by
    rintro ⟨_, t, rest, v, hread, hv⟩
    have ht : t = 'Z' := by
      have h2 : bencode_read_string ['1', ':', 'Z', 'e'] = some (['Z'], ['e']) := by decide
      rw [h2] at hread
      have h3 := congrArg (fun x => x.1) (Option.some.inj hread)
      simpa using h3.symm
    subst ht
    revert hv
    simp [tagTable]
  refine ⟨⟨by decide, hB⟩, ?_, ?_⟩
  · obtain ⟨p, hp, _⟩ := (C13_bad_first_pair_fails Example.ops (new Example.holder0)
      Example.bufB.tail ['1', ':', 'P', 'e'] ['B'] () Example.fromId () (by decide) hB).2
    exact ⟨p, hp⟩
  · obtain ⟨p, hp, _⟩ := (C13_bad_first_pair_fails Example.ops (new Example.holder0)
      Example.bufZ.tail ['1', ':', 'Z', 'e'] ['A'] () Example.fromId () (by decide) hZ).2
    exact ⟨p, hp⟩

end InboundMessageParser
end routing
end llarp

namespace llarp
namespace routing
namespace InboundMessageParser

/-! ## Dispatch to one variant -/

/-- The read of a dictionary whose first pair is the key `A` with a tag of the table:
it ends with `msg` pointing at the member the switch selects for the tag, in a state
reached from the holder at entry. -/
theorem readDict_of_good_first {σ η ρ : Type} (ops : Methods σ η ρ)
    (self : InboundMessageParser σ) (b1 b2 b3 : llarp_buffer_t) (t : Char) (slot : Slot)
    (hkey : bencode_read_string b1 = some (['A'], b2))
    (htag : bencode_read_string b2 = some ([t], b3))
    (hsw : switch_ourKey t none = some slot) :
    ∃ b st rest, readDict ops self ('d' :: b1) = Except.ok (b, st, rest) ∧
      Reach self.m_Holder st ∧ st.1.msg = some slot := by
  have hv : visit ops
      (({ self with msg := none, firstKey := true } : InboundMessageParser σ), [])
      b2 (some ['A'])
      = Except.ok (true,
          (({ self with ourKey := t, msg := some slot, firstKey := false } :
            InboundMessageParser σ), []), b3) := by
    simp only [visit, if_true, decide_True, Bool.not_true, Bool.false_eq_true, if_false,
      htag, List.length_singleton, ne_eq, not_true_eq_false, List.headD_cons, hsw,
      Option.isSome_some]
  have hR1 : Reach self.m_Holder
      (({ self with ourKey := t, msg := some slot, firstKey := false } :
        InboundMessageParser σ), []) := by
    refine ⟨fun hnone => Option.noConfusion hnone, fun slot' _ => ⟨rfl, ?_, fun s _ => rfl⟩⟩
    intro c hc
    exact absurd hc (List.not_mem_nil _)
  have hs2 := bencode_read_string_shorter b1 ['A'] b2 hkey
  have hs3 := bencode_read_string_shorter b2 [t] b3 htag
  obtain ⟨b, st, rest, hl, hR, _, hmono⟩ :=
    loop_visit_spec ops self.m_Holder b1.length
      (({ self with ourKey := t, msg := some slot, firstKey := false } :
        InboundMessageParser σ), []) b3 (by omega) hR1 (fun hnone => Option.noConfusion hnone)
  refine ⟨b, st, rest, ?_, hR, hmono slot rfl⟩
  simp only [readDict, bencode_read_dict, if_true]
  rw [loop_of_read_key (visit ops) b1.length _ b1 ['A'] b2 hkey, hv]
  simp only [if_true, hl]

/-- The frame of a dispatch: for a dictionary whose first pair is the key `A` with a one-byte tag of the
table, `ParseMessageBuffer` works on the one holder member declared with the class the
table assigns to the tag: every call it makes (`DecodeKey`, `HandleMessage`, `Clear`)
is made on that member, `HandleMessage` is called on it when the read succeeds, and
the eleven other members of the holder are afterwards as they were before. -/
theorem ParseMessageBuffer_calls_on_one_member {σ η ρ : Type} (ops : Methods σ η ρ)
    (self : InboundMessageParser σ) (b1 b2 b3 : llarp_buffer_t) (t : Char) (v : Variant)
    (h : η) (from_ : PathID_t) (r : ρ)
    (hkey : bencode_read_string b1 = some (['A'], b2))
    (htag : bencode_read_string b2 = some ([t], b3))
    (htab : (t, v) ∈ tagTable) :
    ∃ slot res p calls, slot.variant = v ∧ (∀ s : Slot, s.variant = v → s = slot) ∧
      ParseMessageBuffer ops self ('d' :: b1) h from_ r = Except.ok (res, p, calls) ∧
      (∀ c ∈ calls, c.slot = slot) ∧
      Call.Clear slot ∈ calls ∧
      ((∃ st rest, readDict ops self ('d' :: b1) = Except.ok (true, st, rest)) →
        ∃ m, Call.HandleMessage slot m ∈ calls) ∧
      (∀ s, s ≠ slot → p.m_Holder.get s = self.m_Holder.get s) := by
  obtain ⟨slot, hsw, hvar⟩ := switch_ourKey_of_table t v none htab
  obtain ⟨b, st, rest, hread, hR, hm⟩ :=
    readDict_of_good_first ops self b1 b2 b3 t slot hkey htag hsw
  obtain ⟨_, hcalls, hframe⟩ := hR.2 slot hm
  have hslots : ∀ c ∈ st.2, c.slot = slot := by
    intro c hc
    obtain ⟨k, rfl⟩ := hcalls c hc
    rfl
  refine ⟨slot, ?_⟩
  cases b with
  | false =>
    refine ⟨false, _, _, hvar, fun s hs => Slot_variant_injective s slot (hs.trans hvar.symm),
      ParseMessageBuffer_of_read_false_some ops self ('d' :: b1) h from_ r st rest slot hread hm,
      ?_, ?_, ?_, ?_⟩
    · intro c hc
      rcases List.mem_append.mp hc with hc | hc
      · exact hslots c hc
      · have : c = Call.Clear slot := by simpa using hc
        rw [this]
        rfl
    · exact List.mem_append_right _ (List.mem_singleton_self _)
    · rintro ⟨st', rest', h'⟩
      rw [hread] at h'
      have := congrArg (fun x => x.1) (Except.ok.inj h')
      exact Bool.noConfusion this
    · intro s hs
      show (st.1.m_Holder.set slot _).get s = self.m_Holder.get s
      rw [MessageHolder_get_set_other _ _ _ _ hs]
      exact hframe s hs
  | true =>
    refine ⟨_, _, _, hvar, fun s hs => Slot_variant_injective s slot (hs.trans hvar.symm),
      ParseMessageBuffer_of_read_true ops self ('d' :: b1) h from_ r st rest slot hread hm,
      ?_, ?_, ?_, ?_⟩
    · intro c hc
      rcases List.mem_append.mp hc with hc | hc
      · exact hslots c hc
      · rcases List.mem_cons.mp hc with h1 | h1
        · rw [h1]
          rfl
        · have : c = Call.Clear slot := by simpa using h1
          rw [this]
          rfl
    · exact List.mem_append_right _ (List.mem_cons_of_mem _ (List.mem_singleton_self _))
    · intro _
      exact ⟨_, List.mem_append_right _ (List.mem_cons_self _ _)⟩
    · intro s hs
      show ((st.1.m_Holder.set slot _).set slot _).get s = self.m_Holder.get s
      rw [MessageHolder_get_set_other _ _ _ _ hs, MessageHolder_get_set_other _ _ _ _ hs]
      exact hframe s hs

end InboundMessageParser
end routing
end llarp

namespace llarp
namespace routing
namespace InboundMessageParser

/-! ## Reuse of the parser -/

/-- The visitor never reads `ourKey`: from two states that differ at most in `ourKey`
it gives outcomes that differ at most in `ourKey`. -/
theorem visit_sameButKey {σ η ρ : Type} (ops : Methods σ η ρ)
    (st st' : InboundMessageParser σ × List (Call σ)) (buffer : llarp_buffer_t)
    (key : Option (List Char)) (hs : SameButKey st st') :
    SameOutcome (visit ops st buffer key) (visit ops st' buffer key) := by
  obtain ⟨⟨fk, ok, msg, H⟩, calls⟩ := st
  obtain ⟨⟨fk', ok', msg', H'⟩, calls'⟩ := st'
  obtain ⟨h1, h2, h3, h4⟩ := hs
  simp only at h1 h2 h3 h4
  subst h1 h2 h3 h4
  cases key with
  | none =>
    cases fk <;> simp [visit, SameOutcome, SameButKey]
  | some k =>
    cases fk
    · cases msg with
      | none => simp [visit, SameOutcome]
      | some slot => simp [visit, SameOutcome, SameButKey]
    · by_cases hk : k = ['A']
      · cases hread : bencode_read_string buffer with
        | none => simp [visit, SameOutcome, SameButKey, hk, hread]
        | some p =>
          obtain ⟨strbuf, buffer1⟩ := p
          by_cases hlen : strbuf.length ≠ 1
          · simp [visit, SameOutcome, SameButKey, hk, hread, hlen]
          · simp [visit, SameOutcome, SameButKey, hk, hread, hlen]
      · simp [visit, SameOutcome, SameButKey, hk]

/-- The reader loop on the visitor gives, from two states that differ at most in
`ourKey`, outcomes that differ at most in `ourKey`. -/
theorem loop_sameButKey {σ η ρ : Type} (ops : Methods σ η ρ) :
    ∀ (fuel : Nat) (st st' : InboundMessageParser σ × List (Call σ)) (buffer : llarp_buffer_t),
      SameButKey st st' →
      SameOutcome (bencode_read_dict.loop (visit ops) fuel st buffer)
        (bencode_read_dict.loop (visit ops) fuel st' buffer) := by
  intro fuel
  induction fuel with
  | zero =>
    intro st st' buffer _
    simp [bencode_read_dict.loop, SameOutcome]
  | succ fuel ih =>
    intro st st' buffer hs
    cases buffer with
    | nil => exact ⟨rfl, hs, rfl⟩
    | cons c rest =>
      by_cases hc : c = 'e'
      · simp only [bencode_read_dict.loop, hc, if_true]
        exact visit_sameButKey ops st st' rest none hs
      · cases hread : bencode_read_string (c :: rest) with
        | none =>
          simp only [bencode_read_dict.loop, hc, if_false, hread]
          exact ⟨rfl, hs, rfl⟩
        | some p =>
          obtain ⟨key, buffer1⟩ := p
          have hv := visit_sameButKey ops st st' buffer1 (some key) hs
          simp only [bencode_read_dict.loop, hc, if_false, hread]
          cases hx : visit ops st buffer1 (some key) with
          | error e =>
            cases hy : visit ops st' buffer1 (some key) with
            | error e' =>
              rw [hx, hy] at hv
              exact hv
            | ok b =>
              rw [hx, hy] at hv
              exact False.elim hv
          | ok a =>
            cases hy : visit ops st' buffer1 (some key) with
            | error e' =>
              rw [hx, hy] at hv
              exact False.elim hv
            | ok b =>
              rw [hx, hy] at hv
              obtain ⟨a1, a2, a3⟩ := a
              obtain ⟨b1, b2, b3⟩ := b
              obtain ⟨e1, e2, e3⟩ := hv
              simp only at e1 e2 e3
              subst e1 e3
              cases a1
              · exact ⟨rfl, e2, rfl⟩
              · exact ih a2 b2 a3 e2

/-- The outcome of `ParseMessageBuffer`, `ourKey` aside, depends on the parser it is
called on only through the holder. -/
theorem ParseMessageBuffer_observe_congr {σ η ρ : Type} (ops : Methods σ η ρ)
    (self self' : InboundMessageParser σ) (buf : llarp_buffer_t) (h : η) (from_ : PathID_t)
    (r : ρ) (hH : self.m_Holder = self'.m_Holder) :
    Except.map observe (ParseMessageBuffer ops self buf h from_ r)
      = Except.map observe (ParseMessageBuffer ops self' buf h from_ r) := by
  have hs0 : SameButKey
      (({ self with msg := none, firstKey := true } : InboundMessageParser σ), ([] : List (Call σ)))
      (({ self' with msg := none, firstKey := true } : InboundMessageParser σ), []) :=
    ⟨rfl, rfl, hH, rfl⟩
  have hread : SameOutcome (readDict ops self buf) (readDict ops self' buf) := by
    unfold readDict bencode_read_dict
    cases buf with
    | nil => exact ⟨rfl, hs0, rfl⟩
    | cons c rest =>
      by_cases hc : c = 'd'
      · simp only [hc, if_true]
        exact loop_sameButKey ops _ _ _ rest hs0
      · simp only [hc, if_false]
        exact ⟨rfl, hs0, rfl⟩
  unfold ParseMessageBuffer
  cases hx : readDict ops self buf with
  | error e =>
    cases hy : readDict ops self' buf with
    | error e' =>
      rw [hx, hy] at hread
      have : e = e' := hread
      subst this
      rfl
    | ok b =>
      rw [hx, hy] at hread
      exact False.elim hread
  | ok a =>
    cases hy : readDict ops self' buf with
    | error e' =>
      rw [hx, hy] at hread
      exact False.elim hread
    | ok b =>
      rw [hx, hy] at hread
      obtain ⟨a1, ⟨⟨fk, ok, msg, H⟩, calls⟩, a3⟩ := a
      obtain ⟨b1, ⟨⟨fk', ok', msg', H'⟩, calls'⟩, b3⟩ := b
      obtain ⟨e1, ⟨e2, e3, e4, e5⟩, e6⟩ := hread
      simp only at e1 e2 e3 e4 e5 e6
      subst e1 e2 e3 e4 e5 e6
      cases a1
      · cases msg <;> rfl
      · cases msg <;> rfl

theorem MessageHolder_set_restores {σ : Type} (Hst H0 : MessageHolder σ) (slot : Slot)
    (hframe : ∀ s, s ≠ slot → Hst.get s = H0.get s) :
    Hst.set slot (H0.get slot) = H0 := by
  apply MessageHolder_ext_get
  intro s
  by_cases hs : s = slot
  · subst hs
    exact MessageHolder_get_set_self _ _ _
  · rw [MessageHolder_get_set_other _ _ _ _ hs]
    exact hframe s hs

/-- C15: the empty dictionary `de` makes `ParseMessageBuffer` return false with no call
on any message object.  When every `Clear` resets its message to the state it has in
the freshly constructed holder `H0`, then on a parser whose holder is `H0` every
`ParseMessageBuffer(b1)` returns, leaves `msg` null and the holder equal to `H0`, has
cleared the member it called (its calls, if any, are all on one member and end with its
`Clear`), and a following `ParseMessageBuffer(b2)` gives the result, the calls and the
parser state (up to `ourKey`) that parsing `b2` on a freshly constructed parser gives. -/
theorem C15_parser_reusable {σ η ρ : Type} (ops : Methods σ η ρ) (H0 : MessageHolder σ)
    (self : InboundMessageParser σ) (b1 : llarp_buffer_t) (h : η) (from_ : PathID_t) (r : ρ)
    (hClear : ∀ slot m, ops.Clear slot m = H0.get slot) (hH : self.m_Holder = H0) :
    ParseMessageBuffer ops self ['d', 'e'] h from_ r
      = Except.ok (false, { self with msg := none, firstKey := true }, []) ∧
    ∃ res p1 calls1, ParseMessageBuffer ops self b1 h from_ r = Except.ok (res, p1, calls1) ∧
      p1.msg = none ∧ p1.m_Holder = H0 ∧
      (calls1 = [] ∨ ∃ slot pre, calls1 = pre ++ [Call.Clear slot] ∧ ∀ c ∈ pre, c.slot = slot) ∧
      ∀ (b2 : llarp_buffer_t) (h2 : η) (from2 : PathID_t) (r2 : ρ),
        Except.map observe (ParseMessageBuffer ops p1 b2 h2 from2 r2)
          = Except.map observe (ParseMessageBuffer ops (new H0) b2 h2 from2 r2) := by
  constructor
  · rfl
  · obtain ⟨b, st, rest, hread, hR, hb⟩ := readDict_spec ops self b1
    rw [hH] at hR
    have key : ∀ res p1 calls1,
        ParseMessageBuffer ops self b1 h from_ r = Except.ok (res, p1, calls1) →
        p1.msg = none → p1.m_Holder = H0 →
        (calls1 = [] ∨ ∃ slot pre, calls1 = pre ++ [Call.Clear slot] ∧
          ∀ c ∈ pre, c.slot = slot) →
        ∃ res p1 calls1, ParseMessageBuffer ops self b1 h from_ r = Except.ok (res, p1, calls1) ∧
          p1.msg = none ∧ p1.m_Holder = H0 ∧
          (calls1 = [] ∨ ∃ slot pre, calls1 = pre ++ [Call.Clear slot] ∧
            ∀ c ∈ pre, c.slot = slot) ∧
          ∀ (b2 : llarp_buffer_t) (h2 : η) (from2 : PathID_t) (r2 : ρ),
            Except.map observe (ParseMessageBuffer ops p1 b2 h2 from2 r2)
              = Except.map observe (ParseMessageBuffer ops (new H0) b2 h2 from2 r2) :=
      fun res p1 calls1 hp hm hh hc => ⟨res, p1, calls1, hp, hm, hh, hc,
        fun b2 h2 from2 r2 => ParseMessageBuffer_observe_congr ops p1 (new H0) b2 h2 from2 r2 hh⟩
    cases b with
    | false =>
      cases hm : st.1.msg with
      | none =>
        refine key _ _ _
          (ParseMessageBuffer_of_read_false_none ops self b1 h from_ r st rest hread hm)
          rfl (hR.1 hm).2 (Or.inl (hR.1 hm).1)
      | some slot =>
        obtain ⟨_, hcalls, hframe⟩ := hR.2 slot hm
        refine key _ _ _
          (ParseMessageBuffer_of_read_false_some ops self b1 h from_ r st rest slot hread hm)
          rfl ?_ (Or.inr ⟨slot, st.2, rfl, fun c hc => ?_⟩)
        · show st.1.m_Holder.set slot (ops.Clear slot (st.1.m_Holder.get slot)) = H0
          rw [hClear]
          exact MessageHolder_set_restores _ _ _ hframe
        · obtain ⟨k, rfl⟩ := hcalls c hc
          rfl
    | true =>
      cases hm : st.1.msg with
      | none => exact absurd hm (hb rfl)
      | some slot =>
        obtain ⟨_, hcalls, hframe⟩ := hR.2 slot hm
        refine key _ _ _
          (ParseMessageBuffer_of_read_true ops self b1 h from_ r st rest slot hread hm)
          rfl ?_ (Or.inr ⟨slot,
            st.2 ++ [Call.HandleMessage slot { st.1.m_Holder.get slot with from_ := from_ }],
            by simp, fun c hc => ?_⟩)
        · show (st.1.m_Holder.set slot _).set slot (ops.Clear slot _) = H0
          rw [hClear]
          apply MessageHolder_set_restores
          intro s hs
          rw [MessageHolder_get_set_other _ _ _ _ hs]
          exact hframe s hs
        · rcases List.mem_append.mp hc with hc | hc
          · obtain ⟨k, rfl⟩ := hcalls c hc
            rfl
          · have : c = Call.HandleMessage slot
                { st.1.m_Holder.get slot with from_ := from_ } := by simpa using hc
            rw [this]
            rfl

/-- Witness of C15: with the example classes, whose `Clear` resets a message to its
fresh state, the empty dictionary fails, and after parsing `d1:A1:P1:x2:hie` on a fresh
parser a parse of `d1:A1:L1:y1:ze` behaves as on a fresh parser. -/
theorem C15_parser_reusable_witness :
    (∀ slot m, Example.ops.Clear slot m = Example.holder0.get slot) ∧
    ParseMessageBuffer Example.ops (new Example.holder0) Example.bufEmpty () Example.fromId ()
      = Except.ok (false, { new Example.holder0 with msg := none, firstKey := true }, []) ∧
    ∃ res p1 calls1,
      ParseMessageBuffer Example.ops (new Example.holder0) Example.bufP () Example.fromId ()
        = Except.ok (res, p1, calls1) ∧
      p1.msg = none ∧ p1.m_Holder = Example.holder0 ∧
      Except.map observe (ParseMessageBuffer Example.ops p1 Example.bufL () Example.fromId ())
        = Except.map observe
            (ParseMessageBuffer Example.ops (new Example.holder0) Example.bufL ()
              Example.fromId ()) :=
  ⟨fun slot _ => by cases slot <;> rfl,
   (C15_parser_reusable Example.ops Example.holder0 (new Example.holder0) Example.bufP ()
      Example.fromId () (fun slot _ => by cases slot <;> rfl) rfl).1,
   match (C15_parser_reusable Example.ops Example.holder0 (new Example.holder0) Example.bufP ()
      Example.fromId () (fun slot _ => by cases slot <;> rfl) rfl).2 with
   | ⟨res, p1, calls1, h1, h2, h3, _, h5⟩ =>
     ⟨res, p1, calls1, h1, h2, h3, h5 Example.bufL () Example.fromId ()⟩⟩

end InboundMessageParser
end routing
end llarp

namespace llarp
namespace routing

theorem MessageHolder_set_get_self {σ : Type} (h : MessageHolder σ) (slot : Slot) :
    h.set slot (h.get slot) = h := by
  cases slot <;> rfl

theorem MessageHolder_set_set {σ : Type} (h : MessageHolder σ) (slot : Slot)
    (m m1 : IMessage σ) : (h.set slot m).set slot m1 = h.set slot m1 := by
  cases slot <;> rfl

namespace InboundMessageParser

/-! ## The keys after the tag -/

/-- The reader loop, once `msg` points at a member: it hands the remaining keys to that
member's `DecodeKey` exactly as `ForwardKeys` describes, records those calls, and
leaves the member with the message `ForwardKeys` ends with. -/
theorem loop_forwardKeys {σ η ρ : Type} (ops : Methods σ η ρ) (slot : Slot) :
    ∀ (fuel : Nat) (H : MessageHolder σ) (ourKey : Char) (calls : List (Call σ))
      (buffer : llarp_buffer_t), buffer.length < fuel →
      ∃ ok m1 keys rest, ForwardKeys ops slot (H.get slot) buffer ok m1 keys ∧
        bencode_read_dict.loop (visit ops) fuel
            (({ firstKey := false, ourKey := ourKey, msg := some slot, m_Holder := H } :
              InboundMessageParser σ), calls) buffer
          = Except.ok (ok,
              (({ firstKey := false, ourKey := ourKey, msg := some slot,
                  m_Holder := H.set slot m1 } : InboundMessageParser σ),
                calls ++ List.map (Call.DecodeKey slot) keys), rest) := by
  intro fuel
  induction fuel with
  | zero =>
    intro H ourKey calls buffer hfuel
    exact absurd hfuel (Nat.not_lt_zero _)
  | succ fuel ih =>
    intro H ourKey calls buffer hfuel
    cases buffer with
    | nil =>
      refine ⟨false, H.get slot, [], [], ForwardKeys.truncated _, ?_⟩
      simp only [bencode_read_dict.loop, MessageHolder_set_get_self, List.map_nil,
        List.append_nil]
    | cons c tl =>
      by_cases hc : c = 'e'
      · subst hc
        refine ⟨true, H.get slot, [], tl, ForwardKeys.closed _ _, ?_⟩
        simp only [bencode_read_dict.loop, if_true, visit, Bool.false_eq_true, if_false,
          MessageHolder_set_get_self, List.map_nil, List.append_nil]
      · cases hread : bencode_read_string (c :: tl) with
        | none =>
          refine ⟨false, H.get slot, [], c :: tl, ForwardKeys.malformed _ c tl hc hread, ?_⟩
          simp only [bencode_read_dict.loop, hc, if_false, hread, MessageHolder_set_get_self,
            List.map_nil, List.append_nil]
        | some p =>
          obtain ⟨key, b1⟩ := p
          have hshort := bencode_read_string_shorter (c :: tl) key b1 hread
          cases hv : (ops.DecodeKey slot (H.get slot) key b1).1 with
          | false =>
            refine ⟨false, (ops.DecodeKey slot (H.get slot) key b1).2.1, [key],
              List.drop (ops.DecodeKey slot (H.get slot) key b1).2.2 b1,
              ForwardKeys.rejected _ _ key b1 hread hv, ?_⟩
            simp only [bencode_read_dict.loop, hc, if_false, hread, visit, Bool.false_eq_true,
              hv, List.map_cons, List.map_nil]
          | true =>
            have hlen : (List.drop (ops.DecodeKey slot (H.get slot) key b1).2.2 b1).length
                < fuel := by
              rw [List.length_drop]
              have : (c :: tl).length < fuel + 1 := hfuel
              omega
            obtain ⟨ok, m1, keys, rest, hfk, hl⟩ :=
              ih (H.set slot (ops.DecodeKey slot (H.get slot) key b1).2.1) ourKey
                (calls ++ [Call.DecodeKey slot key])
                (List.drop (ops.DecodeKey slot (H.get slot) key b1).2.2 b1) hlen
            rw [MessageHolder_get_set_self] at hfk
            rw [MessageHolder_set_set] at hl
            refine ⟨ok, m1, key :: keys, rest,
              ForwardKeys.accepted _ _ key b1 ok m1 keys hread hv hfk, ?_⟩
            simp only [bencode_read_dict.loop, hc, if_false, hread, visit, Bool.false_eq_true,
              hv, if_true, hl, List.map_cons, List.append_assoc, List.singleton_append]

/-- The relation `ForwardKeys` determines its outcome. -/
theorem ForwardKeys_unique {σ η ρ : Type} (ops : Methods σ η ρ) (slot : Slot)
    (m : IMessage σ) (buffer : llarp_buffer_t) (ok : Bool) (m1 : IMessage σ)
    (keys : List (List Char)) (h1 : ForwardKeys ops slot m buffer ok m1 keys) :
    ∀ (ok2 : Bool) (m2 : IMessage σ) (keys2 : List (List Char)),
      ForwardKeys ops slot m buffer ok2 m2 keys2 → ok = ok2 ∧ m1 = m2 ∧ keys = keys2 := by
  induction h1 with
  | closed m rest =>
    intro ok2 m2 keys2 h2
    cases h2 with
    | closed => exact ⟨rfl, rfl, rfl⟩
    | malformed _ _ _ hc _ => exact absurd rfl hc
    | rejected _ _ key b1 hread _ =>
      obtain ⟨c, tl, hb, hc⟩ := bencode_read_string_head _ key b1 hread
      have : 'e' = c := List.head_eq_of_cons_eq hb
      exact absurd this.symm hc
    | accepted _ _ key b1 _ _ _ hread _ _ =>
      obtain ⟨c, tl, hb, hc⟩ := bencode_read_string_head _ key b1 hread
      have : 'e' = c := List.head_eq_of_cons_eq hb
      exact absurd this.symm hc
  | truncated m =>
    intro ok2 m2 keys2 h2
    cases h2 with
    | truncated => exact ⟨rfl, rfl, rfl⟩
    | rejected _ _ key b1 hread _ =>
      obtain ⟨c, tl, hb, _⟩ := bencode_read_string_head _ key b1 hread
      exact List.noConfusion hb
    | accepted _ _ key b1 _ _ _ hread _ _ =>
      obtain ⟨c, tl, hb, _⟩ := bencode_read_string_head _ key b1 hread
      exact List.noConfusion hb
  | malformed m c tl hc hnone =>
    intro ok2 m2 keys2 h2
    cases h2 with
    | closed => exact absurd rfl hc
    | malformed => exact ⟨rfl, rfl, rfl⟩
    | rejected _ _ key b1 hread _ =>
      rw [hnone] at hread
      exact Option.noConfusion hread
    | accepted _ _ key b1 _ _ _ hread _ _ =>
      rw [hnone] at hread
      exact Option.noConfusion hread
  | rejected m buffer key b1 hread hv =>
    intro ok2 m2 keys2 h2
    cases h2 with
    | closed =>
      obtain ⟨c, tl, hb, hc⟩ := bencode_read_string_head _ key b1 hread
      have : 'e' = c := List.head_eq_of_cons_eq hb
      exact absurd this.symm hc
    | truncated =>
      obtain ⟨c, tl, hb, _⟩ := bencode_read_string_head _ key b1 hread
      exact List.noConfusion hb
    | malformed _ _ _ _ hnone =>
      rw [hnone] at hread
      exact Option.noConfusion hread
    | rejected _ _ key2 b12 hread2 hv2 =>
      rw [hread] at hread2
      have hk : key = key2 := congrArg (fun x => x.1) (Option.some.inj hread2)
      have hb : b1 = b12 := congrArg (fun x => x.2) (Option.some.inj hread2)
      subst hk hb
      exact ⟨rfl, rfl, rfl⟩
    | accepted _ _ key2 b12 _ _ _ hread2 hv2 _ =>
      rw [hread] at hread2
      have hk : key = key2 := congrArg (fun x => x.1) (Option.some.inj hread2)
      have hb : b1 = b12 := congrArg (fun x => x.2) (Option.some.inj hread2)
      subst hk hb
      rw [hv] at hv2
      exact Bool.noConfusion hv2
  | accepted m buffer key b1 ok m1 keys hread hv _ ih =>
    intro ok2 m2 keys2 h2
    cases h2 with
    | closed =>
      obtain ⟨c, tl, hb, hc⟩ := bencode_read_string_head _ key b1 hread
      have : 'e' = c := List.head_eq_of_cons_eq hb
      exact absurd this.symm hc
    | truncated =>
      obtain ⟨c, tl, hb, _⟩ := bencode_read_string_head _ key b1 hread
      exact List.noConfusion hb
    | malformed _ _ _ _ hnone =>
      rw [hnone] at hread
      exact Option.noConfusion hread
    | rejected _ _ key2 b12 hread2 hv2 =>
      rw [hread] at hread2
      have hk : key = key2 := congrArg (fun x => x.1) (Option.some.inj hread2)
      have hb : b1 = b12 := congrArg (fun x => x.2) (Option.some.inj hread2)
      subst hk hb
      rw [hv] at hv2
      exact Bool.noConfusion hv2
    | accepted _ _ key2 b12 _ _ keys2' hread2 hv2 hrest =>
      rw [hread] at hread2
      have hk : key = key2 := congrArg (fun x => x.1) (Option.some.inj hread2)
      have hb : b1 = b12 := congrArg (fun x => x.2) (Option.some.inj hread2)
      subst hk hb
      obtain ⟨e1, e2, e3⟩ := ih _ _ _ hrest
      exact ⟨e1, e2, by rw [e3]⟩

end InboundMessageParser
end routing
end llarp

namespace llarp
namespace routing
namespace InboundMessageParser

/-! ## The whole dictionary -/

/-- The read of a dictionary that opens with the key `A` and a tag the switch knows:
the reader ends with `msg` on the selected member, having forwarded the later keys as
`ForwardKeys` describes. -/
theorem readDict_of_first_pair {σ η ρ : Type} (ops : Methods σ η ρ)
    (self : InboundMessageParser σ) (b1 b2 b3 : llarp_buffer_t) (t : Char) (slot : Slot)
    (hkey : bencode_read_string b1 = some (['A'], b2))
    (htag : bencode_read_string b2 = some ([t], b3))
    (hsw : switch_ourKey t none = some slot) :
    ∃ ok m1 keys rest, ForwardKeys ops slot (self.m_Holder.get slot) b3 ok m1 keys ∧
      readDict ops self ('d' :: b1)
        = Except.ok (ok,
            (({ firstKey := false, ourKey := t, msg := some slot,
                m_Holder := self.m_Holder.set slot m1 } : InboundMessageParser σ),
              List.map (Call.DecodeKey slot) keys), rest) := by
  have hv : visit ops
      (({ self with msg := none, firstKey := true } : InboundMessageParser σ), [])
      b2 (some ['A'])
      = Except.ok (true,
          (({ firstKey := false, ourKey := t, msg := some slot,
              m_Holder := self.m_Holder } : InboundMessageParser σ), []), b3) := by
    simp only [visit, if_true, decide_True, Bool.not_true, Bool.false_eq_true, if_false,
      htag, List.length_singleton, ne_eq, not_true_eq_false, List.headD_cons, hsw,
      Option.isSome_some]
  have hs2 := bencode_read_string_shorter b1 ['A'] b2 hkey
  have hs3 := bencode_read_string_shorter b2 [t] b3 htag
  obtain ⟨ok, m1, keys, rest, hfk, hl⟩ :=
    loop_forwardKeys ops slot b1.length self.m_Holder t [] b3 (by omega)
  refine ⟨ok, m1, keys, rest, hfk, ?_⟩
  simp only [readDict, bencode_read_dict, if_true]
  rw [loop_of_read_key (visit ops) b1.length _ b1 ['A'] b2 hkey, hv]
  simp only [if_true, hl, List.nil_append]

/-- A dictionary read that returns true had an acceptable first pair. -/
theorem good_first_of_readDict_true {σ η ρ : Type} (ops : Methods σ η ρ)
    (self : InboundMessageParser σ) (buf : llarp_buffer_t)
    (st : InboundMessageParser σ × List (Call σ)) (rest : llarp_buffer_t)
    (hread : readDict ops self buf = Except.ok (true, st, rest)) :
    ∃ b1 k b2, buf = 'd' :: b1 ∧ bencode_read_string b1 = some (k, b2) ∧ GoodFirst k b2 := by
  cases buf with
  | nil =>
    simp only [readDict, bencode_read_dict] at hread
    have hft : false = true := congrArg (fun x => x.1) (Except.ok.inj hread)
    exact Bool.noConfusion hft
  | cons c b1 =>
    by_cases hc : c = 'd'
    · subst hc
      cases hk : bencode_read_string b1 with
      | none =>
        exfalso
        simp only [readDict, bencode_read_dict, if_true] at hread
        cases b1 with
        | nil =>
          simp only [bencode_read_dict.loop] at hread
          have hft : false = true := congrArg (fun x => x.1) (Except.ok.inj hread)
          exact Bool.noConfusion hft
        | cons c1 tl =>
          by_cases he : c1 = 'e'
          · simp only [bencode_read_dict.loop, he, if_true, visit] at hread
            have hft : false = true := congrArg (fun x => x.1) (Except.ok.inj hread)
            exact Bool.noConfusion hft
          · simp only [bencode_read_dict.loop, he, if_false, hk] at hread
            have hft : false = true := congrArg (fun x => x.1) (Except.ok.inj hread)
            exact Bool.noConfusion hft
      | some p =>
        obtain ⟨k, b2⟩ := p
        refine ⟨b1, k, b2, rfl, hk, ?_⟩
        by_contra hbad
        obtain ⟨st1, buffer1, hv, _⟩ :=
          visit_bad_first ops
            (({ self with msg := none, firstKey := true } : InboundMessageParser σ), [])
            b2 k rfl rfl hbad
        simp only [readDict, bencode_read_dict, if_true] at hread
        rw [loop_of_read_key (visit ops) b1.length _ b1 k b2 hk, hv] at hread
        simp only [Bool.false_eq_true, if_false] at hread
        have hft : false = true := congrArg (fun x => x.1) (Except.ok.inj hread)
        exact Bool.noConfusion hft
    · simp only [readDict, bencode_read_dict, hc, if_false] at hread
      have hft : false = true := congrArg (fun x => x.1) (Except.ok.inj hread)
      exact Bool.noConfusion hft

/-- A dictionary the spec accepts (key `A`, a tag of the table, every later key accepted
up to the closing `e`) is read successfully, and the reader ends in the state the
forwarding leaves. -/
theorem readDict_of_accepted {σ η ρ : Type} (ops : Methods σ η ρ)
    (self : InboundMessageParser σ) (buf b3 : llarp_buffer_t) (t : Char) (v : Variant)
    (slot : Slot) (m1 : IMessage σ) (keys : List (List Char))
    (hopen : OpensWithTag buf t b3) (htab : (t, v) ∈ tagTable) (hvar : slot.variant = v)
    (hfk : ForwardKeys ops slot (self.m_Holder.get slot) b3 true m1 keys) :
    ∃ rest, readDict ops self buf
      = Except.ok (true,
          (({ firstKey := false, ourKey := t, msg := some slot,
              m_Holder := self.m_Holder.set slot m1 } : InboundMessageParser σ),
            List.map (Call.DecodeKey slot) keys), rest) := by
  obtain ⟨b1, b2, rfl, hkey, htag⟩ := hopen
  obtain ⟨slot1, hsw, hvar1⟩ := switch_ourKey_of_table t v none htab
  have hslot : slot1 = slot := Slot_variant_injective slot1 slot (hvar1.trans hvar.symm)
  subst hslot
  obtain ⟨ok2, m2, keys2, rest, hfk2, hread⟩ :=
    readDict_of_first_pair ops self b1 b2 b3 t slot1 hkey htag hsw
  obtain ⟨e1, e2, e3⟩ := ForwardKeys_unique ops slot1 _ _ _ _ _ hfk _ _ _ hfk2
  subst e1 e2 e3
  exact ⟨rest, hread⟩

/-- A dictionary read that returns true was a dictionary the spec accepts. -/
theorem accepted_of_readDict_true {σ η ρ : Type} (ops : Methods σ η ρ)
    (self : InboundMessageParser σ) (buf : llarp_buffer_t)
    (st : InboundMessageParser σ × List (Call σ)) (rest : llarp_buffer_t)
    (hread : readDict ops self buf = Except.ok (true, st, rest)) :
    ∃ t v slot b3 m1 keys, OpensWithTag buf t b3 ∧ (t, v) ∈ tagTable ∧ slot.variant = v ∧
      ForwardKeys ops slot (self.m_Holder.get slot) b3 true m1 keys := by
  obtain ⟨b1, k, b2, rfl, hk, hA, t, b3, v, htag, htab⟩ :=
    good_first_of_readDict_true ops self buf st rest hread
  subst hA
  obtain ⟨slot, hsw, hvar⟩ := switch_ourKey_of_table t v none htab
  obtain ⟨ok, m1, keys, rest1, hfk, hread1⟩ :=
    readDict_of_first_pair ops self b1 b2 b3 t slot hk htag hsw
  rw [hread] at hread1
  have hok : true = ok := congrArg (fun x => x.1) (Except.ok.inj hread1)
  subst hok
  exact ⟨t, v, slot, b3, m1, keys, ⟨b1, b2, rfl, hk, htag⟩, htab, hvar, hfk⟩

theorem countP_isHandleMessage_map_DecodeKey {σ : Type} (slot : Slot)
    (keys : List (List Char)) :
    List.countP isHandleMessage (List.map (Call.DecodeKey (σ := σ) slot) keys) = 0 := by
  apply countP_isHandleMessage_decodes slot
  intro c hc
  obtain ⟨k, _, rfl⟩ := List.mem_map.mp hc
  exact ⟨k, rfl⟩

/-- C12: `ParseMessageBuffer` returns, and its result is true iff the buffer is a
dictionary whose first entry is the key `A` with a one-byte tag of the table, whose
every later key is accepted by `DecodeKey` of the variant the table assigns to the tag,
up to the closing `e`, and `HandleMessage` of that variant, on the message so decoded
with `from` set to the supplied one, returns true.  The dictionary read returns true
exactly for such dictionaries.  `HandleMessage` is called at most once; when it is
called, the dictionary was accepted, the calls made are the `DecodeKey` of every later
key in order, then `HandleMessage` on the message with `from` set, then `Clear`, and
the value `HandleMessage` returns is the overall result. -/
theorem C12_ParseMessageBuffer_result {σ η ρ : Type} (ops : Methods σ η ρ)
    (self : InboundMessageParser σ) (buf : llarp_buffer_t) (h : η) (from_ : PathID_t) (r : ρ) :
    ∃ res p calls, ParseMessageBuffer ops self buf h from_ r = Except.ok (res, p, calls) ∧
      (res = true ↔ ∃ t v slot b3 m1 keys, OpensWithTag buf t b3 ∧ (t, v) ∈ tagTable ∧
        slot.variant = v ∧ ForwardKeys ops slot (self.m_Holder.get slot) b3 true m1 keys ∧
        ops.HandleMessage slot { m1 with from_ := from_ } h r = true) ∧
      ((∃ st rest, readDict ops self buf = Except.ok (true, st, rest)) ↔
        ∃ t v slot b3 m1 keys, OpensWithTag buf t b3 ∧ (t, v) ∈ tagTable ∧
          slot.variant = v ∧ ForwardKeys ops slot (self.m_Holder.get slot) b3 true m1 keys) ∧
      List.countP isHandleMessage calls ≤ 1 ∧
      (∀ slot m, Call.HandleMessage slot m ∈ calls →
        m.from_ = from_ ∧ res = ops.HandleMessage slot m h r ∧
        ∃ t v b3 m1 keys, OpensWithTag buf t b3 ∧ (t, v) ∈ tagTable ∧ slot.variant = v ∧
          ForwardKeys ops slot (self.m_Holder.get slot) b3 true m1 keys ∧
          m = { m1 with from_ := from_ } ∧
          calls = List.map (Call.DecodeKey slot) keys
            ++ [Call.HandleMessage slot m, Call.Clear slot]) ∧
      ((∃ t v slot b3 m1 keys, OpensWithTag buf t b3 ∧ (t, v) ∈ tagTable ∧
          slot.variant = v ∧ ForwardKeys ops slot (self.m_Holder.get slot) b3 true m1 keys) →
        ∃ slot m, Call.HandleMessage slot m ∈ calls) := by
  by_cases hacc : ∃ t v slot b3 m1 keys, OpensWithTag buf t b3 ∧ (t, v) ∈ tagTable ∧
      slot.variant = v ∧ ForwardKeys ops slot (self.m_Holder.get slot) b3 true m1 keys
  · obtain ⟨t, v, slot, b3, m1, keys, hopen, htab, hvar, hfk⟩ := hacc
    obtain ⟨rest, hread⟩ := readDict_of_accepted ops self buf b3 t v slot m1 keys hopen htab
      hvar hfk
    have hp := ParseMessageBuffer_of_read_true ops self buf h from_ r _ rest slot hread rfl
    simp only [MessageHolder_get_set_self] at hp
    refine ⟨_, _, _, hp, ?_, ?_, ?_, ?_, ?_⟩
    · constructor
      · intro hres
        exact ⟨t, v, slot, b3, m1, keys, hopen, htab, hvar, hfk, hres⟩
      · rintro ⟨t2, v2, slot2, b32, m2, keys2, hopen2, htab2, hvar2, hfk2, hres2⟩
        obtain ⟨rest2, hread2⟩ := readDict_of_accepted ops self buf b32 t2 v2 slot2 m2 keys2
          hopen2 htab2 hvar2 hfk2
        rw [hread] at hread2
        have hst := congrArg (fun x => x.2.1.1) (Except.ok.inj hread2)
        simp only at hst
        have hslot : slot = slot2 := by
          have := congrArg (fun x => x.msg) hst
          exact Option.some.inj this
        subst hslot
        have hm : m1 = m2 := by
          have := congrArg (fun x => x.m_Holder.get slot) hst
          simpa only [MessageHolder_get_set_self] using this
        subst hm
        exact hres2
    · exact ⟨fun _ => ⟨t, v, slot, b3, m1, keys, hopen, htab, hvar, hfk⟩,
        fun _ => ⟨_, rest, hread⟩⟩
    · rw [List.countP_append, countP_isHandleMessage_map_DecodeKey]
      simp [isHandleMessage, List.countP_cons]
    · intro slot0 m0 hmem
      rcases List.mem_append.mp hmem with hmem | hmem
      · obtain ⟨k, _, hk⟩ := List.mem_map.mp hmem
        exact Call.noConfusion hk
      · have hcase : Call.HandleMessage slot0 m0
            = Call.HandleMessage slot { m1 with from_ := from_ } := by
          rcases List.mem_cons.mp hmem with h1 | h1
          · exact h1
          · simp at h1
        have hslot : slot0 = slot := by injection hcase
        have hmsg : m0 = { m1 with from_ := from_ } := by injection hcase
        subst hslot
        subst hmsg
        exact ⟨rfl, rfl, t, v, b3, m1, keys, hopen, htab, hvar, hfk, rfl, rfl⟩
    · intro _
      exact ⟨slot, _, List.mem_append_right _ (List.mem_cons_self _ _)⟩
  · obtain ⟨b, st, rest, hread, hR, _⟩ := readDict_spec ops self buf
    have hb : b = false := by
      cases b with
      | false => rfl
      | true => exact absurd (accepted_of_readDict_true ops self buf st rest hread) hacc
    subst hb
    have hnot : ¬ ∃ st' rest', readDict ops self buf = Except.ok (true, st', rest') := by
      rintro ⟨st', rest', h'⟩
      exact hacc (accepted_of_readDict_true ops self buf st' rest' h')
    cases hm : st.1.msg with
    | none =>
      refine ⟨false, _, st.2,
        ParseMessageBuffer_of_read_false_none ops self buf h from_ r st rest hread hm,
        ?_, ?_, ?_, ?_, ?_⟩
      · exact ⟨fun hc => Bool.noConfusion hc,
          fun ⟨t, v, slot, b3, m1, keys, h1, h2, h3, h4, _⟩ =>
            absurd ⟨t, v, slot, b3, m1, keys, h1, h2, h3, h4⟩ hacc⟩
      · exact ⟨fun hx => absurd hx hnot, fun hx => absurd hx hacc⟩
      · rw [(hR.1 hm).1]
        exact Nat.zero_le _
      · intro slot m hmem
        rw [(hR.1 hm).1] at hmem
        exact absurd hmem (List.not_mem_nil _)
      · intro hx
        exact absurd hx hacc
    | some slot =>
      obtain ⟨_, hcalls, _⟩ := hR.2 slot hm
      refine ⟨false, _, st.2 ++ [Call.Clear slot],
        ParseMessageBuffer_of_read_false_some ops self buf h from_ r st rest slot hread hm,
        ?_, ?_, ?_, ?_, ?_⟩
      · exact ⟨fun hc => Bool.noConfusion hc,
          fun ⟨t, v, slot, b3, m1, keys, h1, h2, h3, h4, _⟩ =>
            absurd ⟨t, v, slot, b3, m1, keys, h1, h2, h3, h4⟩ hacc⟩
      · exact ⟨fun hx => absurd hx hnot, fun hx => absurd hx hacc⟩
      · rw [List.countP_append, countP_isHandleMessage_decodes slot st.2 hcalls]
        simp [isHandleMessage]
      · intro slot' m hmem
        exfalso
        rcases List.mem_append.mp hmem with hmem | hmem
        · obtain ⟨k, hk⟩ := hcalls _ hmem
          exact Call.noConfusion hk
        · simp at hmem
      · intro hx
        exact absurd hx hacc

/-- Witness of C12: the buffer `d1:A1:P1:x2:hie` gives the result true with one
`DecodeKey`, one `HandleMessage` and one `Clear`, all on member `P`; so it is a
dictionary the spec accepts and the handler returned true. -/
theorem C12_ParseMessageBuffer_result_witness :
    (ParseMessageBuffer Example.ops (new Example.holder0) Example.bufP ()
        Example.fromId ()).toOption.map (fun x => (x.1, x.2.2.map Call.slot))
      = some (true, [Slot.P, Slot.P, Slot.P]) ∧
    ∃ t v slot b3 m1 keys, OpensWithTag Example.bufP t b3 ∧ (t, v) ∈ tagTable ∧
      slot.variant = v ∧
      ForwardKeys Example.ops slot ((new Example.holder0).m_Holder.get slot) b3 true m1 keys ∧
      Example.ops.HandleMessage slot { m1 with from_ := Example.fromId } () () = true := by
  refine ⟨rfl, ?_⟩
  obtain ⟨res, p, calls, hp, hiff, _⟩ :=
    C12_ParseMessageBuffer_result Example.ops (new Example.holder0) Example.bufP ()
      Example.fromId ()
  have h1 : (ParseMessageBuffer Example.ops (new Example.holder0) Example.bufP ()
      Example.fromId ()).toOption.map (fun x => x.1) = some true := rfl
  rw [hp] at h1
  have hres : res = true := Option.some.inj h1
  exact hiff.mp hres

/-- C14: for a dictionary whose first pair is the key `A` with a one-byte tag of the
table, `ParseMessageBuffer` works on the one holder member declared with the class the
table assigns to the tag.  The calls it makes are exactly: `DecodeKey` of that member
for every remaining key, in order, as `ForwardKeys` describes (up to the closing `e`,
or up to and including the first key rejected); then, when all were accepted,
`HandleMessage` of that member on the decoded message with `from` set; then `Clear` of
that member.  The result is that of `HandleMessage`, or false when the read failed;
the selected member is left cleared and the eleven other members of the holder are
afterwards as they were before. -/
theorem C14_dispatch_to_table_variant {σ η ρ : Type} (ops : Methods σ η ρ)
    (self : InboundMessageParser σ) (b1 b2 b3 : llarp_buffer_t) (t : Char) (v : Variant)
    (h : η) (from_ : PathID_t) (r : ρ)
    (hkey : bencode_read_string b1 = some (['A'], b2))
    (htag : bencode_read_string b2 = some ([t], b3))
    (htab : (t, v) ∈ tagTable) :
    ∃ slot ok m1 keys res p calls, slot.variant = v ∧ (∀ s : Slot, s.variant = v → s = slot) ∧
      ForwardKeys ops slot (self.m_Holder.get slot) b3 ok m1 keys ∧
      ParseMessageBuffer ops self ('d' :: b1) h from_ r = Except.ok (res, p, calls) ∧
      calls = List.map (Call.DecodeKey slot) keys
        ++ (if ok = true then [Call.HandleMessage slot { m1 with from_ := from_ }] else [])
        ++ [Call.Clear slot] ∧
      res = (ok && ops.HandleMessage slot { m1 with from_ := from_ } h r) ∧
      (∀ c ∈ calls, c.slot = slot) ∧
      ((∃ st rest, readDict ops self ('d' :: b1) = Except.ok (true, st, rest)) ↔ ok = true) ∧
      p.m_Holder = self.m_Holder.set slot
        (ops.Clear slot (if ok = true then { m1 with from_ := from_ } else m1)) ∧
      (∀ s, s ≠ slot → p.m_Holder.get s = self.m_Holder.get s) := by
  obtain ⟨slot, hsw, hvar⟩ := switch_ourKey_of_table t v none htab
  obtain ⟨ok, m1, keys, rest, hfk, hread⟩ :=
    readDict_of_first_pair ops self b1 b2 b3 t slot hkey htag hsw
  have hslots : ∀ c ∈ List.map (Call.DecodeKey (σ := σ) slot) keys, c.slot = slot := by
    intro c hc
    obtain ⟨k, _, rfl⟩ := List.mem_map.mp hc
    rfl
  have hreadiff : (∃ st rest, readDict ops self ('d' :: b1) = Except.ok (true, st, rest))
      ↔ ok = true := by
    constructor
    · rintro ⟨st, rest', h'⟩
      rw [hread] at h'
      exact congrArg (fun x => x.1) (Except.ok.inj h')
    · intro hok
      subst hok
      exact ⟨_, rest, hread⟩
  cases ok with
  | false =>
    have hp := ParseMessageBuffer_of_read_false_some ops self ('d' :: b1) h from_ r _ rest
      slot hread rfl
    simp only [MessageHolder_get_set_self, MessageHolder_set_set] at hp
    refine ⟨slot, false, m1, keys, false, _, _, hvar,
      fun s hs => Slot_variant_injective s slot (hs.trans hvar.symm), hfk, hp, ?_, rfl, ?_,
      hreadiff, ?_, ?_⟩
    · simp
    · intro c hc
      rcases List.mem_append.mp hc with hc | hc
      · exact hslots c hc
      · have : c = Call.Clear slot := by simpa using hc
        rw [this]
        rfl
    · simp
    · intro s hs
      exact MessageHolder_get_set_other _ _ _ _ hs
  | true =>
    have hp := ParseMessageBuffer_of_read_true ops self ('d' :: b1) h from_ r _ rest
      slot hread rfl
    simp only [MessageHolder_get_set_self, MessageHolder_set_set] at hp
    refine ⟨slot, true, m1, keys, _, _, _, hvar,
      fun s hs => Slot_variant_injective s slot (hs.trans hvar.symm), hfk, hp, ?_, ?_, ?_,
      hreadiff, ?_, ?_⟩
    · simp
    · simp
    · intro c hc
      rcases List.mem_append.mp hc with hc | hc
      · exact hslots c hc
      · rcases List.mem_cons.mp hc with h1 | h1
        · rw [h1]
          rfl
        · have : c = Call.Clear slot := by simpa using h1
          rw [this]
          rfl
    · simp
    · intro s hs
      exact MessageHolder_get_set_other _ _ _ _ hs

/-- Witness of C14: `d1:A1:P1:x2:hie` carries tag `P`, which the table assigns to
`PathConfirmMessage`; the one later key `x` is forwarded to `DecodeKey` of member `P`
and accepted. -/
theorem C14_dispatch_to_table_variant_witness :
    (bencode_read_string Example.bufP.tail
        = some (['A'], ['1', ':', 'P', '1', ':', 'x', '2', ':', 'h', 'i', 'e']) ∧
      bencode_read_string ['1', ':', 'P', '1', ':', 'x', '2', ':', 'h', 'i', 'e']
        = some (['P'], ['1', ':', 'x', '2', ':', 'h', 'i', 'e']) ∧
      ('P', Variant.PathConfirmMessage) ∈ tagTable) ∧
    (ParseMessageBuffer Example.ops (new Example.holder0) Example.bufP ()
        Example.fromId ()).toOption.map
        (fun x => (x.1, x.2.2.map (fun c => match c with
          | Call.DecodeKey s k => (s, some k)
          | Call.HandleMessage s _ => (s, none)
          | Call.Clear s => (s, none))))
      = some (true, [(Slot.P, some ['x']), (Slot.P, none), (Slot.P, none)]) ∧
    ∃ (slot : Slot) (ok : Bool) (m1 : IMessage (List (List Char))) (keys : List (List Char))
        (res : Bool) (p : InboundMessageParser (List (List Char)))
        (calls : List (Call (List (List Char)))),
      slot.variant = Variant.PathConfirmMessage ∧
      ParseMessageBuffer Example.ops (new Example.holder0) Example.bufP () Example.fromId ()
        = Except.ok (res, p, calls) ∧
      calls = List.map (Call.DecodeKey slot) keys
        ++ (if ok = true then [Call.HandleMessage slot { m1 with from_ := Example.fromId }]
            else [])
        ++ [Call.Clear slot] ∧
      (∀ s, s ≠ slot → p.m_Holder.get s = (new Example.holder0).m_Holder.get s) :=
  ⟨⟨by decide, by decide, by decide⟩, rfl,
   match C14_dispatch_to_table_variant Example.ops (new Example.holder0) Example.bufP.tail
      ['1', ':', 'P', '1', ':', 'x', '2', ':', 'h', 'i', 'e']
      ['1', ':', 'x', '2', ':', 'h', 'i', 'e'] 'P' Variant.PathConfirmMessage ()
      Example.fromId () (by decide) (by decide) (by decide) with
   | ⟨slot, ok, m1, keys, res, p, calls, h1, _, _, h4, h5, _, _, _, _, h10⟩ =>
     ⟨slot, ok, m1, keys, res, p, calls, h1, h4, h5, h10⟩⟩

end InboundMessageParser
end routing
end llarp

namespace llarp
namespace path
namespace PathSet

/-! ## PickRandomEstablishedPath against the eligible paths in map order -/

/-- The vector the loop of `PickRandomEstablishedPath` builds is the list of the ready,
role-supporting stored paths in map order. -/
theorem PickRandomEstablishedPath_loop_eq_eligiblePaths (self : PathSet) (roles : PathRole) :
    PickRandomEstablishedPath.loop roles self.m_Paths [] = self.eligiblePaths roles := by
  rw [PickRandomEstablishedPath_loop_eq, List.nil_append]
  rfl

/-- C17, amended: `PickRandomEstablishedPath(roles)` returns null iff no stored path is
ready and supports any of `roles`; otherwise it returns a ready, role-supporting stored
path, namely the one at index `randint() % n` of the list of the `n` ready,
role-supporting stored paths in map order; with these paths distinct, the path at
index `i` of that list is the result for `2^64 / n + 1` of the `2^64` values of the
draw when `i < 2^64 % n` and for `2^64 / n` of them otherwise. -/
theorem C17_PickRandomEstablishedPath_modulo (self : PathSet) (roles : PathRole) :
    (∀ randint, self.PickRandomEstablishedPath roles randint = none ↔
      ∀ e ∈ self.m_Paths, ¬ (e.2.IsReady = true ∧ e.2.SupportsAnyRoles roles = true)) ∧
    (∀ randint p, self.PickRandomEstablishedPath roles randint = some p →
      ∃ e ∈ self.m_Paths, e.2 = p ∧ e.2.IsReady = true ∧ e.2.SupportsAnyRoles roles = true) ∧
    (∀ p, p ∈ self.eligiblePaths roles ↔
      ∃ e ∈ self.m_Paths, e.2 = p ∧ e.2.IsReady = true ∧ e.2.SupportsAnyRoles roles = true) ∧
    (∀ randint (hpos : 0 < (self.eligiblePaths roles).length),
      self.PickRandomEstablishedPath roles randint
        = some ((self.eligiblePaths roles).get
            ⟨randint % (self.eligiblePaths roles).length, Nat.mod_lt _ hpos⟩)) ∧
    (∀ i (hi : i < (self.eligiblePaths roles).length),
      (self.eligiblePaths roles).Nodup →
      Set.ncard {r : Nat | r < 2 ^ 64 ∧ self.PickRandomEstablishedPath roles r
          = some ((self.eligiblePaths roles).get ⟨i, hi⟩)}
        = 2 ^ 64 / (self.eligiblePaths roles).length
          + if i < 2 ^ 64 % (self.eligiblePaths roles).length then 1 else 0) := by
  obtain ⟨h1, h2, _⟩ := PickRandomEstablishedPath_over_loop self roles
  have key : ∀ (L : List Path), PickRandomEstablishedPath.loop roles self.m_Paths [] = L →
      (∀ randint (hpos : 0 < L.length),
        self.PickRandomEstablishedPath roles randint
          = some (L.get ⟨randint % L.length, Nat.mod_lt _ hpos⟩)) ∧
      (∀ i (hi : i < L.length), L.Nodup →
        Set.ncard {r : Nat | r < 2 ^ 64 ∧ self.PickRandomEstablishedPath roles r
            = some (L.get ⟨i, hi⟩)}
          = 2 ^ 64 / L.length + if i < 2 ^ 64 % L.length then 1 else 0) := by
    intro L hL
    subst hL
    refine ⟨fun randint hpos => ?_, fun i hi hnd =>
      PickRandomEstablishedPath_draws self roles (2 ^ 64) i hnd hi⟩
    rw [PickRandomEstablishedPath_eq, if_pos (Nat.pos_iff_ne_zero.mp hpos),
      List.getElem?_eq_getElem (Nat.mod_lt _ hpos)]
    rfl
  obtain ⟨k1, k2⟩ := key _ (PickRandomEstablishedPath_loop_eq_eligiblePaths self roles)
  refine ⟨h1, h2, ?_, k1, k2⟩
  intro p
  unfold eligiblePaths
  rw [List.mem_map]
  constructor
  · rintro ⟨e, he, rfl⟩
    obtain ⟨g1, g2⟩ := List.mem_filter.mp he
    have g3 : e.2.IsReady = true ∧ e.2.SupportsAnyRoles roles = true := by simpa using g2
    exact ⟨e, g1, rfl, g3⟩
  · rintro ⟨e, he, rfl, g1, g2⟩
    exact ⟨e, List.mem_filter.mpr ⟨he, by simp [g1, g2]⟩, rfl⟩

/-- Witness of C17 (amended): the three stored paths `p80`, `p40`, `pOld1` are all
eligible and distinct; the draw 7 selects index `7 % 3 = 1`, the path `p40`; index 0 is
below `2^64 % 3 = 1`, so `p80` is the result for `2^64 / 3 + 1` draws. -/
theorem C17_PickRandomEstablishedPath_modulo_witness :
    (Example.mkSet 4 [Example.p80, Example.p40, Example.pOld1]).eligiblePaths 0
      = [Example.p80, Example.p40, Example.pOld1] ∧
    ((Example.mkSet 4 [Example.p80, Example.p40, Example.pOld1]).eligiblePaths 0).Nodup ∧
    (Example.mkSet 4 [Example.p80, Example.p40, Example.pOld1]).PickRandomEstablishedPath 0 7
      = some Example.p40 ∧
    Set.ncard {r : Nat | r < 2 ^ 64 ∧
        (Example.mkSet 4 [Example.p80, Example.p40, Example.pOld1]).PickRandomEstablishedPath 0 r
          = some Example.p80} = 2 ^ 64 / 3 + 1 :=
  ⟨rfl, Example_three_paths_nodup,
   (C17_PickRandomEstablishedPath_modulo
      (Example.mkSet 4 [Example.p80, Example.p40, Example.pOld1]) 0).2.2.2.1 7 (by decide),
   ((C17_PickRandomEstablishedPath_modulo
      (Example.mkSet 4 [Example.p80, Example.p40, Example.pOld1]) 0).2.2.2.2 0 (by decide)
      Example_three_paths_nodup).trans (by decide)⟩

end PathSet
end path
end llarp
